import Mathlib

/-!
# neresex: resource extractor for 16-bit New Executable files

A shallow embedding of `neresex.c` and theorems about it.

Conventions of the embedding (data model LP64, little-endian host, as on x86-64 Linux):

* a byte is a `Fin 256`; a C string is the list of its bytes without the terminating 0;
* an input stream (`FILE *` opened for reading) is the list of the file's bytes together with
  the current position; `fseek` to a negative offset fails, `fseek` past the end succeeds;
* an output stream (`FILE *` opened for writing) is buffered: the bytes of the calls of
  `fwrite` are handed to the stream, and the file holds what the device stores of them; the
  program does not look at the result of `fclose`;
* `int` is 32 bits wide: a value stored in an `int` goes through `toInt32`;
* a function that returns 0 or 1 in C returns that number here, next to the state it leaves;
* loops are defined by recursion on a fuel argument; `none` is "fuel exhausted", and the
  callers pass a fuel that is proved to suffice.
-/

namespace Neresex

/-! ## Bytes, machine integers, strings -/

abbrev Byte := Fin 256

def byteOfNat (n : Nat) : Byte := ⟨n % 256, Nat.mod_lt n (by decide)⟩

/-- The bytes of an ASCII string literal. -/
def ascii (s : String) : List Byte := s.toList.map (fun c => byteOfNat c.toNat)

/-- Conversion of an integer to a 32-bit `int` (two's complement, as gcc and clang do): the
value in `[-2 ^ 31, 2 ^ 31)` that is congruent to `n` modulo `2 ^ 32`. -/
def toInt32 : Int → Int
  | Int.ofNat a =>
    if a % 4294967296 < 2147483648 then Int.ofNat (a % 4294967296)
    else Int.negSucc (4294967295 - a % 4294967296)
  | Int.negSucc a =>
    if a % 4294967296 < 2147483648 then Int.negSucc (a % 4294967296)
    else Int.ofNat (4294967295 - a % 4294967296)

/-- The C string held in a buffer: the bytes before the first 0. -/
def cstr (buf : List Byte) : List Byte := buf.takeWhile (fun b => b ≠ 0)

/-- Writing the string `s` and its terminator at the start of a buffer
(`sprintf(buf, "%s", s)`, or `fread` into `buf` followed by `buf[length] = 0`);
the bytes of the buffer after the terminator keep their old values. -/
def putStr (buf : List Byte) (s : List Byte) : List Byte := s ++ 0 :: buf.drop (s.length + 1)

/-- Little-endian 16-bit field at index `i` of a record. -/
def u16 (bs : List Byte) (i : Nat) : Nat := (bs.getD i 0).val + 256 * (bs.getD (i + 1) 0).val

/-- Little-endian 32-bit field at index `i` of a record. -/
def u32 (bs : List Byte) (i : Nat) : Nat := u16 bs i + 65536 * u16 bs (i + 2)

/-- Decimal digits of `n`, most significant first, at most `fuel` of them. -/
def decimalAux : Nat → Nat → List Byte → List Byte
  | 0, _, acc => acc
  | fuel + 1, n, acc =>
    if n / 10 = 0 then byteOfNat (48 + n % 10) :: acc
    else decimalAux fuel (n / 10) (byteOfNat (48 + n % 10) :: acc)

/-- The conversion `%05u` of `printf`, for an unsigned 32-bit value (at most ten digits). -/
def fmt05u (n : Nat) : List Byte :=
  let ds := decimalAux 10 n []
  List.replicate (5 - ds.length) 48 ++ ds

/-- The C operator `<<` on `uint32_t`. For a count below 32 the result is `x * 2 ^ s` modulo
`2 ^ 32`; C leaves a count of 32 or more undefined, and the embedding follows the x86 shift
instruction there, which uses the count modulo 32. -/
def shl32 (x s : Nat) : Nat := (x * 2 ^ (s % 32)) % 4294967296

/-! ## Input streams -/

structure FILE where
  data : List Byte
  pos : Nat
deriving DecidableEq, Repr

/-- `fread(buf, 1, n, f)`: the bytes read (fewer than `n` at end of file) and the stream. -/
def fread (f : FILE) (n : Nat) : List Byte × FILE :=
  let got := (f.data.drop f.pos).take n
  (got, { f with pos := f.pos + got.length })

def ftell (f : FILE) : Int := f.pos

/-- `fseek(f, offset, SEEK_SET)`: `none` when it fails. -/
def fseek (f : FILE) (offset : Int) : Option FILE :=
  if offset < 0 then none else some { f with pos := offset.toNat }

/-! ## Structures of the file format -/

/-- The fields of `struct NE_header` (64 bytes) that the program reads. -/
structure NE_header where
  sig : List Byte
  ResTableOffset : Nat
  ResidNamTable : Nat
  FileAlnSzShftCnt : Nat
  nResTabEntries : Nat
deriving DecidableEq, Repr

def decodeHeader (bs : List Byte) : NE_header :=
  { sig := bs.take 2
    ResTableOffset := u16 bs 36
    ResidNamTable := u16 bs 38
    FileAlnSzShftCnt := u16 bs 50
    nResTabEntries := u16 bs 52 }

structure TypeBlock where
  typeID : Nat
  resCount : Nat
  reserved : Nat
deriving DecidableEq, Repr

def decodeTypeBlock (bs : List Byte) : TypeBlock :=
  { typeID := u16 bs 0, resCount := u16 bs 2, reserved := u32 bs 4 }

structure ResBlock where
  dataOffset : Nat
  dataLength : Nat
  flags : Nat
  resourceID : Nat
  reserved : Nat
deriving DecidableEq, Repr

def decodeResBlock (bs : List Byte) : ResBlock :=
  { dataOffset := u16 bs 0, dataLength := u16 bs 2, flags := u16 bs 4,
    resourceID := u16 bs 6, reserved := u32 bs 8 }

/-! ## Built-in resource types -/

def resourceTypes : List (String × String) :=
  [ ("unknown(0)", "bin"),
    ("cursor", "cur"),
    ("bitmap", "bmp"),
    ("icon", "ico"),
    ("menu", "menu.rc"),
    ("dialog", "dlg"),
    ("string", "string.rc"),
    ("fontdir", "fontdir.fnt"),
    ("font", "font.fnt"),
    ("accelerator", "accelerator.rc"),
    ("rcdata", "rcdata.rc"),
    ("messagetable", "mc"),
    ("group_cursor", "group_cursor"),
    ("group_icon", "group_icon"),
    ("unknown(14)", "bin"),
    ("unknown(15)", "bin"),
    ("version", "version.rc"),
    ("dlginclude", "dlginclude.rc"),
    ("unknown(18)", "bin"),
    ("plugplay", "plugplay"),
    ("vxd", "vxd"),
    ("anicursor", "anicursor"),
    ("aniicon", "aniicon"),
    ("html", "htm"),
    ("manifest", "manifest") ]

def getResourceTypeStr (t : Nat) : String :=
  let t := t &&& 0x7FFF
  if t ≥ 25 then "unknown" else (resourceTypes.getD t ("", "")).1

def getResourceTypeExt (t : Nat) : String :=
  let t := t &&& 0x7FFF
  if t ≥ 25 then "bin" else (resourceTypes.getD t ("", "")).2

/-! ## getOffsetString -/

/-- The result of `getOffsetString`: the return value, the buffer and the stream. -/
structure Lookup where
  ret : Nat
  buf : List Byte
  f : FILE
deriving DecidableEq, Repr

/-- Reads the counted string at `offset` into `buf`; the stream position is saved in an `int`
and restored at the end. -/
def getOffsetString (f : FILE) (offset : Int) (buf : List Byte) : Lookup :=
  let oldPos := toInt32 (ftell f)
  match fseek f offset with
  | none => ⟨1, buf, f⟩
  | some f1 =>
    let r1 := fread f1 1
    match r1.1 with
    | [length] =>
      let r2 := fread r1.2 length.val
      let buf1 := r2.1 ++ buf.drop r2.1.length
      if r2.1.length ≠ length.val then ⟨1, buf1, r2.2⟩
      else
        let buf2 := r2.1 ++ 0 :: buf.drop (length.val + 1)
        match fseek r2.2 oldPos with
        | none => ⟨1, buf2, r2.2⟩
        | some f4 => ⟨0, buf2, f4⟩
    | _ => ⟨1, buf, r1.2⟩

/-! ## dumpResource -/

/-- The part of the environment that decides what becomes of an output file. The output goes
through a buffered stream: an `fwrite` can return its full count for bytes that never reach the
file, and `dumpResource` does not look at the result of `fclose`. -/
structure Env where
  /-- whether `fopen(filename, "wb")` succeeds -/
  creatable : List Byte → Bool
  /-- the number of bytes the output stream takes before an `fwrite` falls short -/
  capacity : Nat
  /-- the number of bytes of an output stream that reach the file; what the stream has taken
  beyond them is lost when the buffer is written out, at the latest at `fclose` or at the end
  of the program -/
  stored : Nat

def BLOCKSIZE : Nat := 4096

/-- The result of the copy loop: 0 when it ran to its end and 1 on a failed `fread` or
`fwrite`, the input stream, and the bytes that the calls of `fwrite` have handed to the output
stream. -/
structure Copy where
  ret : Nat
  fin : FILE
  out : List Byte
deriving DecidableEq, Repr

/-- The size of the next block: `int count = BLOCKSIZE; if(bytesLeft<BLOCKSIZE) count = bytesLeft;`. -/
def blockCount (bytesLeft : Int) : Int := if bytesLeft < BLOCKSIZE then bytesLeft else BLOCKSIZE

/-- The loop `for(int bytesLeft=byteCount; bytesLeft>0; )` of `dumpResource`. -/
def copyBlocks (env : Env) : Nat → Int → FILE → List Byte → Option Copy
  | 0, bytesLeft, fin, out => if bytesLeft > 0 then none else some ⟨0, fin, out⟩
  | fuel + 1, bytesLeft, fin, out =>
    if bytesLeft > 0 then
      let count := blockCount bytesLeft
      let r := fread fin count.toNat
      if (r.1.length : Int) ≠ count then some ⟨1, r.2, out⟩
      else
        let written := r.1.take (env.capacity - out.length)
        if (written.length : Int) ≠ count then some ⟨1, r.2, out ++ written⟩
        else copyBlocks env fuel (bytesLeft - count) r.2 (out ++ written)
    else some ⟨0, fin, out⟩

/-- The result of `dumpResource`: the return value, the input stream, and the contents of the
output file when it was created (the bytes handed to the output stream, as far as the file
stores them). -/
structure Dump where
  ret : Nat
  fin : FILE
  out : Option (List Byte)
deriving DecidableEq, Repr

/-- Copies `byteCount` bytes at `offset` of the input to a new file; `offset` and `byteCount`
are `uint32_t` values, and the count of bytes left is held in an `int`. -/
def dumpResource (env : Env) (fin : FILE) (offset byteCount : Nat) (filename : List Byte) :
    Option Dump :=
  if env.creatable filename = false then some ⟨1, fin, none⟩
  else
    let oldPos := toInt32 (ftell fin)
    match fseek fin (offset : Int) with
    | none => some ⟨1, fin, some []⟩
    | some f1 =>
      let bytesLeft := toInt32 (byteCount : Int)
      match copyBlocks env bytesLeft.toNat bytesLeft f1 [] with
      | none => none
      | some c =>
        if c.ret ≠ 0 then some ⟨1, c.fin, some (c.out.take env.stored)⟩
        else
          match fseek c.fin oldPos with
          | none => some ⟨1, c.fin, some (c.out.take env.stored)⟩
          | some f3 => some ⟨0, f3, some (c.out.take env.stored)⟩

/-! ## main -/

/-- The error messages of `main`, each followed by `return 1`. The messages of the two `fseek`
calls to offset `0x3C` and to the extended header are not among them: in this model of a
stream a seek to a non-negative offset does not fail. -/
inductive Err
  | prefixTooLong
  | readFileType1
  | notMZ
  | readFileType2
  | readExtHeader
  | notNE
  | seekResTable
  | readShiftCount
  | readTypeBlock
  | stringType
  | readResBlock
  | stringName
  | dumpFailed
  | overflow
deriving DecidableEq, Repr

/-- The lines `main` prints on its way (the values they show). -/
inductive Event
  | extHeader (extHeaderOffset : Nat)
  | resTable (resTableOffset : Int) (nResTabEntries : Nat)
  | resNameTable (resNameTableOffset : Int) (maxBytes : Int)
  | shiftCounts (sizeShiftCount offsetShiftCount : Nat)
  | endOfTypes (typeBlockCounter : Nat)
  | typeCustom (quoted : List Byte)
  | typeBuiltin (id : Nat) (name : String)
  | resCount (resCount : Nat)
  | resource (typeBlockCounter i flags actualLength byteOffset : Nat)
  | idName (name : List Byte)
  | idNumber (id : Nat)
  | dumped (filename : List Byte)
  | done
deriving DecidableEq, Repr

/-- What `main` does not change during the walk of the resource table. -/
structure Ctx where
  env : Env
  outPrefix : List Byte
  dump : Bool
  useNames : Bool
  resTableOffset : Int
  maxBytes : Int
  sizeShiftCount : Nat
  offsetShiftCount : Nat

/-- The variables of `main` during the walk, the lines printed so far, the output files written
so far (name and contents, in the order of their creation) and, for the statements about the
byte counter, the values `byteCounter` has taken so far. -/
structure State where
  f : FILE
  byteCounter : Int
  typeBuf : List Byte
  nameBuf : List Byte
  log : List Event
  files : List (List Byte × List Byte)
  counters : List Int
deriving DecidableEq, Repr

/-- The end of a run: the exit status, the error message if there is one, and what the run
has printed and written. -/
structure Exit where
  status : Nat
  err : Option Err
  log : List Event
  files : List (List Byte × List Byte)
  counters : List Int
deriving DecidableEq, Repr

def State.fail (st : State) (e : Err) : Exit := ⟨1, some e, st.log, st.files, st.counters⟩

/-- The sequel of the loop over the type blocks: the overflow check and `return 0`. -/
def finish (c : Ctx) (st : State) : Exit :=
  if st.byteCounter = c.maxBytes then st.fail Err.overflow
  else ⟨0, none, st.log ++ [Event.done], st.files, st.counters⟩

/-- The line `uint32_t actualLength = (uint32_t)resBlock.dataLength<<(uint32_t)sizeShiftCount`. -/
def actualLengthOf (c : Ctx) (resBlock : ResBlock) : Nat :=
  shl32 resBlock.dataLength c.sizeShiftCount

/-- The line `uint32_t byteOffset = (uint32_t)resBlock.dataOffset<<(uint32_t)offsetShiftCount`. -/
def byteOffsetOf (c : Ctx) (resBlock : ResBlock) : Nat :=
  shl32 resBlock.dataOffset c.offsetShiftCount

/-- The name of the output file of resource `i` of type block `typeBlockCounter`. -/
def dumpFilename (c : Ctx) (typeBlockCounter i : Nat) (nameBuf typeBuf : List Byte) : List Byte :=
  if c.useNames = false then
    c.outPrefix ++ fmt05u typeBlockCounter ++ ascii "-" ++ fmt05u i ++ ascii ".bin"
  else
    c.outPrefix ++ cstr nameBuf ++ ascii "." ++ cstr typeBuf

/-- The resolution of the resource identifier (the `if((resBlock.resourceID&0x8000)==0)`
statement): the name is read from the file, or the numeric id is printed into `nameBuf`. -/
def resolveName (c : Ctx) (st : State) (resBlock : ResBlock) : Except Exit State :=
  if resBlock.resourceID &&& 0x8000 = 0 then
    let l := getOffsetString st.f (toInt32 (resBlock.resourceID + c.resTableOffset)) st.nameBuf
    if l.ret ≠ 0 then .error (st.fail Err.stringName)
    else .ok { st with f := l.f, nameBuf := l.buf, log := st.log ++ [Event.idName (cstr l.buf)] }
  else
    .ok { st with nameBuf := putStr st.nameBuf (fmt05u (resBlock.resourceID &&& 0x7FFF)),
                  log := st.log ++ [Event.idNumber (resBlock.resourceID &&& 0x7FFF)] }

/-- The statement `if(dump) { ... }` for resource `i` of type block `typeBlockCounter`. -/
def dumpStep (c : Ctx) (typeBlockCounter i : Nat) (st : State) (resBlock : ResBlock) :
    Option (Except Exit State) :=
  if c.dump = false then some (.ok st)
  else
    let filename := dumpFilename c typeBlockCounter i st.nameBuf st.typeBuf
    match dumpResource c.env st.f (byteOffsetOf c resBlock) (actualLengthOf c resBlock)
        filename with
    | none => none
    | some d =>
      let files := match d.out with
        | none => st.files
        | some out => st.files ++ [(filename, out)]
      if d.ret ≠ 0 then some (.error ({ st with files := files }.fail Err.dumpFailed))
      else some (.ok { st with f := d.fin, files := files,
                               log := st.log ++ [Event.dumped filename] })

/-- The loop `for(int i=0; i<typeBlock.resCount; i++)`, with `n` iterations left; the result is
the state after the loop or, when an iteration returns from `main`, the end of the run. -/
def resLoop (c : Ctx) (typeBlockCounter : Nat) : Nat → Nat → State → Option (Except Exit State)
  | 0, _, st => some (.ok st)
  | n + 1, i, st =>
    let r := fread st.f 12
    if r.1.length ≠ 12 then some (.error (st.fail Err.readResBlock))
    else
      let resBlock := decodeResBlock r.1
      let byteCounter := st.byteCounter + 12
      let st1 : State :=
        { st with
          f := r.2, byteCounter := byteCounter, counters := st.counters ++ [byteCounter],
          log := st.log ++ [Event.resource typeBlockCounter i resBlock.flags
            (actualLengthOf c resBlock) (byteOffsetOf c resBlock)] }
      match resolveName c st1 resBlock with
      | .error e => some (.error e)
      | .ok st2 =>
        match dumpStep c typeBlockCounter i st2 resBlock with
        | none => none
        | some (.error e) => some (.error e)
        | some (.ok st3) => resLoop c typeBlockCounter n (i + 1) st3

/-- The resolution of the type identifier (the `if((typeBlock.typeID&0x8000)==0)` statement):
the name of a custom type is read from the file into `typeBuf`, and for a built-in type its
extension is printed into `typeBuf`. -/
def resolveType (c : Ctx) (st : State) (typeBlock : TypeBlock) : Except Exit State :=
  if typeBlock.typeID &&& 0x8000 = 0 then
    let l := getOffsetString st.f (toInt32 (typeBlock.typeID + c.resTableOffset)) st.typeBuf
    if l.ret ≠ 0 then .error (st.fail Err.stringType)
    else .ok { st with f := l.f, typeBuf := l.buf,
                       log := st.log ++ [Event.typeCustom (ascii "'" ++ cstr l.buf ++ ascii "'")] }
  else
    .ok { st with typeBuf := putStr st.typeBuf (ascii (getResourceTypeExt typeBlock.typeID)),
                  log := st.log ++ [Event.typeBuiltin (typeBlock.typeID &&& 0x7FFF)
                    (getResourceTypeStr typeBlock.typeID)] }

/-- The loop `for(typeBlockCounter = 0; byteCounter < maxBytes; typeBlockCounter++)` and what
follows it in `main`. -/
def typeLoop (c : Ctx) : Nat → Nat → State → Option Exit
  | 0, _, st => if st.byteCounter < c.maxBytes then none else some (finish c st)
  | fuel + 1, typeBlockCounter, st =>
    if st.byteCounter < c.maxBytes then
      let r := fread st.f 8
      if r.1.length ≠ 8 then some (st.fail Err.readTypeBlock)
      else
        let typeBlock := decodeTypeBlock r.1
        let st1 : State := { st with f := r.2 }
        if typeBlock.typeID = 0 then
          some (finish c { st1 with log := st1.log ++ [Event.endOfTypes typeBlockCounter] })
        else
          match resolveType c st1 typeBlock with
          | .error e => some e
          | .ok st2 =>
            let byteCounter := st2.byteCounter + 8
            let st3 : State :=
              { st2 with byteCounter := byteCounter, counters := st2.counters ++ [byteCounter],
                         log := st2.log ++ [Event.resCount typeBlock.resCount] }
            match resLoop c typeBlockCounter typeBlock.resCount 0 st3 with
            | none => none
            | some (.error e) => some e
            | some (.ok st4) => typeLoop c fuel (typeBlockCounter + 1) st4
    else some (finish c st)

/-- An end of run before the walk of the resource table. -/
def early (e : Err) (log : List Event) : Exit := ⟨1, some e, log, [], []⟩

/-- The default of the size shift count: `if(sizeShiftCount==0) sizeShiftCount = 9`. -/
def sizeShiftCountOf (h : NE_header) : Nat :=
  if h.FileAlnSzShftCnt = 0 then 9 else h.FileAlnSzShftCnt

/-- The part of `main` from the check of the output prefix to the start of the walk: the end of
the run when a check fails, and otherwise the constants and the first state of the walk. The
input file is open (`data` is its contents), and the command line has given `outPrefix`, `dump`
and `useNames`; the two buffers start filled with zeros. -/
def prelude (env : Env) (outPrefix : List Byte) (dump useNames : Bool) (data : List Byte) :
    Except Exit (Ctx × State) :=
  if outPrefix.length > 256 then .error (early Err.prefixTooLong [])
  else
    let f0 : FILE := ⟨data, 0⟩
    let r := fread f0 2
    if r.1.length ≠ 2 then .error (early Err.readFileType1 [])
    else if r.1 ≠ ascii "MZ" then .error (early Err.notMZ [])
    else
      let f1 : FILE := { r.2 with pos := 0x3C }
      let r4 := fread f1 4
      if r4.1.length ≠ 4 then .error (early Err.readFileType2 [])
      else
        let extHeaderOffset := u32 r4.1 0
        let log1 := [Event.extHeader extHeaderOffset]
        let f2 : FILE := { r4.2 with pos := extHeaderOffset }
        let rh := fread f2 64
        if rh.1.length ≠ 64 then .error (early Err.readExtHeader log1)
        else
          let neHeader := decodeHeader rh.1
          if neHeader.sig ≠ ascii "NE" then .error (early Err.notNE log1)
          else
            let resTableOffset := toInt32 (neHeader.ResTableOffset + extHeaderOffset)
            let log2 := log1 ++ [Event.resTable resTableOffset neHeader.nResTabEntries]
            match fseek rh.2 resTableOffset with
            | none => .error (early Err.seekResTable log2)
            | some f3 =>
              let resNameTableOffset := toInt32 (neHeader.ResidNamTable + extHeaderOffset)
              let maxBytes := toInt32 (resNameTableOffset - resTableOffset)
              let log3 := log2 ++ [Event.resNameTable resNameTableOffset maxBytes]
              let rs := fread f3 2
              if rs.1.length ≠ 2 then .error (early Err.readShiftCount log3)
              else
                let offsetShiftCount := u16 rs.1 0
                let sizeShiftCount := sizeShiftCountOf neHeader
                let log4 := log3 ++ [Event.shiftCounts sizeShiftCount offsetShiftCount]
                .ok (⟨env, outPrefix, dump, useNames, resTableOffset, maxBytes, sizeShiftCount,
                      offsetShiftCount⟩,
                     ⟨rs.2, 2, List.replicate 257 0, List.replicate 257 0, log4, [], [2]⟩)

/-- The program from the check of the output prefix on. -/
def main (env : Env) (outPrefix : List Byte) (dump useNames : Bool) (data : List Byte) :
    Option Exit :=
  match prelude env outPrefix dump useNames data with
  | .error e => some e
  | .ok (c, st) => typeLoop c c.maxBytes.toNat 0 st

/-- One pass of the loop `for(typeBlockCounter = 0; byteCounter < maxBytes; typeBlockCounter++)`,
the body of `typeLoop`: the end of the run when the pass returns from `main`, or leaves the
loop by `break` (then with what follows the loop), and otherwise the state in which the loop
condition is evaluated next. -/
def typeStep (c : Ctx) (typeBlockCounter : Nat) (st : State) : Option (Except Exit State) :=
  let r := fread st.f 8
  if r.1.length ≠ 8 then some (.error (st.fail Err.readTypeBlock))
  else
    let typeBlock := decodeTypeBlock r.1
    let st1 : State := { st with f := r.2 }
    if typeBlock.typeID = 0 then
      some (.error (finish c { st1 with log := st1.log ++ [Event.endOfTypes typeBlockCounter] }))
    else
      match resolveType c st1 typeBlock with
      | .error e => some (.error e)
      | .ok st2 =>
        let byteCounter := st2.byteCounter + 8
        let st3 : State :=
          { st2 with byteCounter := byteCounter, counters := st2.counters ++ [byteCounter],
                     log := st2.log ++ [Event.resCount typeBlock.resCount] }
        resLoop c typeBlockCounter typeBlock.resCount 0 st3

/-- The state of the walk when the loop condition is evaluated after `n` passes of the loop
over the type blocks, the first of them being pass `typeBlockCounter`, entered in state `st`;
`none` when the run ends before that. -/
def walkState (c : Ctx) : Nat → Nat → State → Option State
  | 0, _, st => some st
  | n + 1, typeBlockCounter, st =>
    if st.byteCounter < c.maxBytes then
      match typeStep c typeBlockCounter st with
      | some (.ok st2) => walkState c n (typeBlockCounter + 1) st2
      | _ => none
    else none

/-! ## What a run reports -/

def Event.isResource : Event → Bool
  | .resource _ _ _ _ _ => true
  | _ => false

def Event.typesReported : Event → Option Nat
  | .endOfTypes n => some n
  | _ => none

/-- The number of resource blocks a run has visited (its `resource` lines). -/
def countResources (log : List Event) : Nat := log.countP Event.isResource

/-- The numbers of types a run has reported (its `End of type table` lines). -/
def reportedTypes (log : List Event) : List Nat := log.filterMap Event.typesReported

/-- The bytes of a resource table given as a list of type blocks, each with the resource blocks
that follow it. -/
def tableBytes (tbl : List (List Byte × List (List Byte))) : List Byte :=
  (tbl.map (fun t => t.1 ++ t.2.flatten)).flatten

/-- The number of resource blocks of such a table. -/
def tableResources (tbl : List (List Byte × List (List Byte))) : Nat :=
  (tbl.map (fun t => t.2.length)).sum

/-- A type block of 8 bytes with a non-zero type identifier, followed by as many resource blocks
of 12 bytes as its `resCount` field says. -/
def GroupOk (t : List Byte × List (List Byte)) : Prop :=
  t.1.length = 8 ∧ u16 t.1 0 ≠ 0 ∧ u16 t.1 2 = t.2.length ∧ ∀ rb ∈ t.2, rb.length = 12

instance (t : List Byte × List (List Byte)) : Decidable (GroupOk t) := by
  unfold GroupOk; infer_instance

/-- What the resolution of a name and the extraction leave unchanged. -/
def Frame (st st2 : State) : Prop :=
  st2.f = st.f ∧ st2.byteCounter = st.byteCounter ∧
  countResources st2.log = countResources st.log ∧ reportedTypes st2.log = reportedTypes st.log

/-! ## Names, buffers and bounds -/

/-- The specification's reading of `%05u`: `n` in decimal (the digits of `Nat.toDigits`),
padded with zeros on the left to at least 5 digits. -/
def pad5 (n : Nat) : List Byte :=
  let ds := (Nat.toDigits 10 n).map (fun ch => byteOfNat ch.toNat)
  List.replicate (5 - ds.length) 48 ++ ds

/-- The number a list of ASCII digits stands for. -/
def digitsValue (ds : List Byte) : Nat := ds.foldl (fun a d => 10 * a + (d.val - 48)) 0

/-- The bytes `'0'` to `'9'`. -/
def IsDigit (b : Byte) : Prop := 48 ≤ b.val ∧ b.val ≤ 57

/-- The name of the placeholder entries of the table: `unknown(<id>)`. -/
def unknownName (id : Nat) : String := "unknown(" ++ toString id ++ ")"

/-- The indices of the table of built-in types whose entry is a placeholder, not a named
type. -/
def placeholderIndices : List Nat := [0, 14, 15, 18]

/-- The lines that stand for a type block read by the walk: the `Resource count` line of a block
with a non-zero identifier, and the `End of type table` line of the terminating block. -/
def Event.isTypeBlock : Event → Bool
  | .resCount _ => true
  | .endOfTypes _ => true
  | _ => false

/-- The number of type blocks a run has read and processed. -/
def countTypeBlocks (log : List Event) : Nat := log.countP Event.isTypeBlock

/-- The strings a line shows fit the buffers of `main` with their terminator: a quoted type
name fits `typeBuf2` (259 bytes), a resource name fits `nameBuf` (257 bytes), and an output file
name fits `filename` (1024 bytes). -/
def EventFits : Event → Prop
  | .typeCustom quoted => quoted.length + 1 ≤ 259
  | .idName name => name.length + 1 ≤ 257
  | .dumped filename => filename.length + 1 < 1024
  | _ => True

/-- The lines printed at the end of a step of the walk, whether it goes on or returns. -/
def stepLog : Except Exit State → List Event
  | .ok st => st.log
  | .error e => e.log

/-- The values of the byte counter at the end of a step of the walk. -/
def stepCounters : Except Exit State → List Int
  | .ok st => st.counters
  | .error e => e.counters

/-- The C string in `typeBuf` has at most 255 bytes. -/
def TypeBufOk (st : State) : Prop := (cstr st.typeBuf).length ≤ 255

/-- The read of a type block that an error message stands for: the read that came short, and
the read of the block whose type name could not be read. -/
def errReads : Option Err → Nat
  | some .readTypeBlock => 1
  | some .stringType => 1
  | _ => 0

/-- The number of reads of a type block in a run (the `fread(&typeBlock, ...)` calls): one for
each `Resource count` line, one for the `End of type table` line, and one for the read after
which the run ended with `Read failed (type block)` or `getOffsetString failed (type)`. -/
def typeBlocksRead (r : Exit) : Nat := countTypeBlocks r.log + errReads r.err

/-- The ways a run can end once the walk has started: normally, or with one of the errors of
the walk. -/
def walkErr : Option Err → Bool
  | none => true
  | some .overflow => true
  | some .readTypeBlock => true
  | some .stringType => true
  | some .readResBlock => true
  | some .stringName => true
  | some .dumpFailed => true
  | _ => false

/-- The 32-bit value at offset `0x3C` of the file: the offset of the extended header. -/
def extHeaderOffsetOf (data : List Byte) : Nat := u32 ((data.drop 0x3C).take 4) 0

/-- The 64 bytes (fewer at the end of the file) at the offset of the extended header. -/
def headerBytesOf (data : List Byte) : List Byte := (data.drop (extHeaderOffsetOf data)).take 64

/-- The extended header of the file. -/
def headerOf (data : List Byte) : NE_header := decodeHeader (headerBytesOf data)

/-- What a step before the walk leaves of a run: the error and the lines printed when the run
ends there, and the lines printed when the walk starts. -/
def preludeView : Except Exit (Ctx × State) → Option Err × List Event
  | .error e => (e.err, e.log)
  | .ok cs => (none, cs.2.log)

/-- The output files created at the end of a step of the walk. -/
def stepFiles : Except Exit State → List (List Byte × List Byte)
  | .ok st => st.files
  | .error e => e.files

/-- The output files created so far have different names, and each has the index-based name of
a resource that comes before resource `i` of type block `k`. -/
def FilesBelow (c : Ctx) (k i : Nat) (files : List (List Byte × List Byte)) : Prop :=
  (files.map Prod.fst).Nodup ∧
  ∀ p ∈ files, ∃ k2 i2, p.1 = dumpFilename c k2 i2 [] [] ∧ k2 < 4294967296 ∧
    i2 < 4294967296 ∧ (k2 < k ∨ (k2 = k ∧ i2 < i))

/-! ## The resource table in the file, and what a walk makes of it -/

/-- The number a `Resource count` line shows. -/
def Event.resCountOf : Event → Option Nat
  | .resCount n => some n
  | _ => none

/-- The resource counts a run has printed, one for each type block it has processed. -/
def resCounts (log : List Event) : List Nat := log.filterMap Event.resCountOf

/-- The `resource` lines a run has printed. -/
def resourceLines (log : List Event) : List Event := log.filter Event.isResource

/-- The counted string at `offset` of a file, as the specification has it: a length byte and
that many bytes after it. -/
def countedString (data : List Byte) (offset : Nat) : List Byte :=
  match data.drop offset with
  | [] => []
  | n :: rest => rest.take n.val

/-- A resource entry of the resource table: the index of its type block, its index in the
type, and the two blocks. -/
structure Entry where
  typeIndex : Nat
  resIndex : Nat
  typeBlock : TypeBlock
  resBlock : ResBlock
deriving DecidableEq, Repr

/-- The `n` resource entries of type block `typeBlock` with index `k`, read from the
consecutive 12-byte records at `pos` of the file; the first has the index `i`. -/
def groupEntriesAt (data : List Byte) (k : Nat) (typeBlock : TypeBlock) :
    Nat → Nat → Nat → List Entry
  | 0, _, _ => []
  | n + 1, i, pos =>
    ⟨k, i, typeBlock, decodeResBlock ((data.drop pos).take 12)⟩ ::
      groupEntriesAt data k typeBlock n (i + 1) (pos + 12)

/-- The first `n` type blocks of the table at `pos` of the file: each is an 8-byte record
followed by `resCount` resource records of 12 bytes. -/
def tableBlocksAt (data : List Byte) : Nat → Nat → List TypeBlock
  | 0, _ => []
  | n + 1, pos =>
    decodeTypeBlock ((data.drop pos).take 8) ::
      tableBlocksAt data n (pos + 8 + 12 * (decodeTypeBlock ((data.drop pos).take 8)).resCount)

/-- The resource entries of the first `n` type blocks of the table at `pos` of the file, in
the order of the table; the first type block has the index `k`. -/
def tableEntriesAt (data : List Byte) : Nat → Nat → Nat → List Entry
  | 0, _, _ => []
  | n + 1, k, pos =>
    groupEntriesAt data k (decodeTypeBlock ((data.drop pos).take 8))
        (decodeTypeBlock ((data.drop pos).take 8)).resCount 0 (pos + 8) ++
      tableEntriesAt data n (k + 1)
        (pos + 8 + 12 * (decodeTypeBlock ((data.drop pos).take 8)).resCount)

/-- The name of a resource in an output file name: the counted string the identifier
points at (an offset from the start of the resource table), up to its first 0 byte, when the
high bit of the identifier is clear, and the low 15 bits as 5 decimal digits when it is set. -/
def specName (c : Ctx) (data : List Byte) (rb : ResBlock) : List Byte :=
  if rb.resourceID &&& 0x8000 = 0 then
    cstr (countedString data (toInt32 (rb.resourceID + c.resTableOffset)).toNat)
  else pad5 (rb.resourceID &&& 0x7FFF)

/-- The extension of a type in an output file name: the counted string the identifier
points at, up to its first 0 byte, when the high bit of the identifier is clear, and the
extension of the table of built-in types when it is set. -/
def specExt (c : Ctx) (data : List Byte) (tb : TypeBlock) : List Byte :=
  if tb.typeID &&& 0x8000 = 0 then
    cstr (countedString data (toInt32 (tb.typeID + c.resTableOffset)).toNat)
  else ascii (getResourceTypeExt tb.typeID)

/-- The output file name of resource `i` of type `k`, as the specification has it. -/
def specFilename (c : Ctx) (k i : Nat) (name ext : List Byte) : List Byte :=
  if c.useNames = false then c.outPrefix ++ pad5 k ++ ascii "-" ++ pad5 i ++ ascii ".bin"
  else c.outPrefix ++ name ++ ascii "." ++ ext

/-- What a call of `dumpResource` that returns 0 leaves in the output file: with a byte count
below `2 ^ 31` the bytes at `offset` of the input, as far as the file stores them, and nothing
with a byte count of `2 ^ 31` or more. -/
def dumpContents (env : Env) (data : List Byte) (offset byteCount : Nat) : List Byte :=
  if byteCount < 2147483648 then ((data.drop offset).take byteCount).take env.stored else []

/-- The `resource` line of an entry, with the length and the offset that the walker computes. -/
def entryLine (c : Ctx) (e : Entry) : Event :=
  Event.resource e.typeIndex e.resIndex e.resBlock.flags (actualLengthOf c e.resBlock)
    (byteOffsetOf c e.resBlock)

/-- The output file of an entry: its name and its contents. -/
def entryFile (c : Ctx) (data : List Byte) (e : Entry) : List Byte × List Byte :=
  (specFilename c e.typeIndex e.resIndex (specName c data e.resBlock)
      (specExt c data e.typeBlock),
    dumpContents c.env data (byteOffsetOf c e.resBlock) (actualLengthOf c e.resBlock))

/-- The number of bytes of the first `n` type blocks of the table at `pos` of the file, each
with its resource blocks. -/
def tableSpanAt (data : List Byte) (n pos : Nat) : Nat :=
  8 * n + 12 * ((tableBlocksAt data n pos).map TypeBlock.resCount).sum

/-- The contents of the file `name` after the output files `files` have been created in this
order: each `fopen(filename, "wb")` makes the file anew, so the last creation under the name
decides. -/
def contentAfter (files : List (List Byte × List Byte)) (name : List Byte) :
    Option (List Byte) :=
  ((files.filter (fun p => p.1 = name)).getLast?).map Prod.snd

/-- The name of the output file of an entry, as the specification has it. -/
def entryName (c : Ctx) (data : List Byte) (e : Entry) : List Byte :=
  specFilename c e.typeIndex e.resIndex (specName c data e.resBlock)
    (specExt c data e.typeBlock)

/-- The values that the byte counter takes while the walk goes through type blocks with the
resource counts `rs`, from the value `b`: `+ 8` for each type block, then `+ 12` for each of
its resource blocks. -/
def counterTrace : Int → List Nat → List Int
  | _, [] => []
  | b, r :: rs =>
    (b + 8) :: ((List.range r).map (fun (j : Nat) => b + 8 + 12 * ((j : Int) + 1)) ++
      counterTrace (b + 8 + 12 * (r : Int)) rs)

/-! ## Sample inputs -/

/-- An environment in which every output file can be created, written and stored. -/
def envOk : Env := ⟨fun _ => true, 1000000, 1000000⟩

/-- A file with the `MZ` signature, the extended header at offset 64, and the resource table
(the bytes `table`, starting with the offset shift count) right after the header at offset 128;
the header gives the table `maxBytes` bytes and has the size shift count `align`. -/
def sampleFile (maxBytes align : Nat) (table : List Byte) : List Byte :=
  [77, 90] ++ List.replicate 58 0 ++ [64, 0, 0, 0] ++
  ([78, 69] ++ List.replicate 34 0 ++ [64, 0] ++
    [byteOfNat (64 + maxBytes), byteOfNat ((64 + maxBytes) / 256)] ++
    List.replicate 10 0 ++ [byteOfNat align, 0] ++ List.replicate 12 0) ++ table

/-- One type block (custom type, named by the counted string at offset 30 of the table) with
one resource block (numeric id 7, data offset 1, data length 1). -/
def tableIcons : List (List Byte × List (List Byte)) :=
  [([30, 0, 1, 0, 0, 0, 0, 0], [[1, 0, 1, 0, 0, 0, 7, 0x80, 0, 0, 0, 0]])]

/-- A file with the table `tableIcons`, the terminating type block and the counted string
`ICONS`, in a resource area of 100 bytes. -/
def sampleIcons : List Byte :=
  sampleFile 100 1 ([0, 0] ++ tableBytes tableIcons ++ [0, 0, 0, 0, 0, 0, 0, 0] ++
    [5, 73, 67, 79, 78, 83])

/-- One type block (built-in type 1) with one resource block (numeric id 7). -/
def tableCursor : List (List Byte × List (List Byte)) :=
  [([1, 0x80, 1, 0, 0, 0, 0, 0], [[1, 0, 1, 0, 0, 0, 7, 0x80, 0, 0, 0, 0]])]

/-- A file whose resource area of 22 bytes is filled by the table `tableCursor`, with no
terminating type block. -/
def sampleExact : List Byte := sampleFile 22 0 ([0, 0] ++ tableBytes tableCursor)

/-- A file whose resource area has 10 bytes: the byte counter is 10 after the type block of
`tableCursor` and 22 after its resource block. -/
def samplePassing : List Byte := sampleFile 10 0 ([0, 0] ++ tableBytes tableCursor)

/-- A file whose resource area has 9 bytes and holds one type block without resource blocks: the
byte counter goes from 2 to 10. -/
def sampleOvertaken : List Byte := sampleFile 9 0 [0, 0, 1, 0x80, 0, 0, 0, 0, 0, 0]

/-- A file as `sampleIcons`, with the size shift count 17 and a resource of data length
`0x8000`. -/
def sampleWrap : List Byte :=
  sampleFile 100 17 ([0, 0] ++ [1, 0x80, 1, 0, 0, 0, 0, 0] ++
    [1, 0, 0, 0x80, 0, 0, 7, 0x80, 0, 0, 0, 0] ++ [0, 0, 0, 0, 0, 0, 0, 0])

/-- A file with one type block (built-in type 1) and two resource blocks, both with the numeric
id 7, the first for the 2 bytes at offset 1 and the second for the 2 bytes at offset 3. -/
def sampleTwins : List Byte :=
  sampleFile 100 1 ([0, 0] ++ [1, 0x80, 2, 0, 0, 0, 0, 0] ++
    [1, 0, 1, 0, 0, 0, 7, 0x80, 0, 0, 0, 0] ++ [3, 0, 1, 0, 0, 0, 7, 0x80, 0, 0, 0, 0] ++
    [0, 0, 0, 0, 0, 0, 0, 0])

/-- A file of 4 GiB and 16 bytes that starts with the counted string `ICONS`. -/
def hugeFile : List Byte := [5, 73, 67, 79, 78, 83] ++ List.replicate 4294967306 0

/-- A file as `sampleIcons`, with the size shift count 16 and a resource of data length
`0x8000`, that is of `2 ^ 31` bytes. -/
def sampleBigCount : List Byte :=
  sampleFile 100 16 ([0, 0] ++ [1, 0x80, 1, 0, 0, 0, 0, 0] ++
    [1, 0, 0, 0x80, 0, 0, 7, 0x80, 0, 0, 0, 0] ++ [0, 0, 0, 0, 0, 0, 0, 0])

/-- The file `sampleExact` cut off after 145 bytes, in the middle of the resource block, with a
resource area of 100 bytes. -/
def sampleCut : List Byte := (sampleFile 100 0 ([0, 0] ++ tableBytes tableCursor)).take 145

/-- A file whose header has `ResTableOffset = 64` and `ResidNamTable = 58`: `maxBytes` is
`58 - 64 = -6`. The table holds the shift count and a terminating type block. -/
def sampleNegative : List Byte :=
  sampleFile 65530 0 [0, 0, 0, 0, 0, 0, 0, 0, 0, 0]

/-- A file whose resource area has 2 bytes, with a terminating type block right after the
shift count. -/
def sampleBudgetTwo : List Byte := sampleFile 2 0 [0, 0, 0, 0, 0, 0, 0, 0, 0, 0]

/-- A file with the `MZ` signature and an `NE` header that ends where the resource table
would start (at offset 128). -/
def sampleNoTable : List Byte := sampleFile 100 0 []

/-- The constants of the walk on `sampleIcons` and on `sampleTwins`, with `-dump` and
`-usenames` and the prefix `out_`. -/
def ctxIcons : Ctx := ⟨envOk, ascii "out_", true, true, 128, 100, 1, 0⟩

/-- The state at the start of the walk on `sampleIcons`. -/
def startIcons : State :=
  ⟨⟨sampleIcons, 130⟩, 2, List.replicate 257 0, List.replicate 257 0,
    [Event.extHeader 64, Event.resTable 128 0, Event.resNameTable 228 100,
      Event.shiftCounts 1 0], [], [2]⟩

/-- The state of the walk on `sampleIcons` after the first pass. -/
def walkedIcons : State :=
  ⟨⟨sampleIcons, 150⟩, 22, ascii "ICONS" ++ List.replicate 252 0,
    ascii "00007" ++ List.replicate 252 0,
    [Event.extHeader 64, Event.resTable 128 0, Event.resNameTable 228 100,
      Event.shiftCounts 1 0, Event.typeCustom (ascii "'ICONS'"), Event.resCount 1,
      Event.resource 0 0 0 2 1, Event.idNumber 7, Event.dumped (ascii "out_00007.ICONS")],
    [(ascii "out_00007.ICONS", [90, 0])], [2, 10, 22]⟩

/-- The state at the start of the walk on `sampleTwins`. -/
def startTwins : State :=
  ⟨⟨sampleTwins, 130⟩, 2, List.replicate 257 0, List.replicate 257 0,
    [Event.extHeader 64, Event.resTable 128 0, Event.resNameTable 228 100,
      Event.shiftCounts 1 0], [], [2]⟩

/-- The state of the walk on `sampleTwins` after the first pass. -/
def walkedTwins : State :=
  ⟨⟨sampleTwins, 162⟩, 34, ascii "cur" ++ List.replicate 254 0,
    ascii "00007" ++ List.replicate 252 0,
    [Event.extHeader 64, Event.resTable 128 0, Event.resNameTable 228 100,
      Event.shiftCounts 1 0, Event.typeBuiltin 1 "cursor", Event.resCount 2,
      Event.resource 0 0 0 2 1, Event.idNumber 7, Event.dumped (ascii "out_00007.cur"),
      Event.resource 0 1 0 2 3, Event.idNumber 7, Event.dumped (ascii "out_00007.cur")],
    [(ascii "out_00007.cur", [90, 0]), (ascii "out_00007.cur", [0, 0])], [2, 10, 22, 34]⟩

/-- A file with one custom type, named by the counted string `ICONS` at offset 30 of the
table, and one resource, named by the counted string at offset 36 of the table, which is the
three bytes `A`, 0, `P`. -/
def sampleCutName : List Byte :=
  sampleFile 100 1 ([0, 0] ++ [30, 0, 1, 0, 0, 0, 0, 0] ++
    [1, 0, 1, 0, 0, 0, 36, 0, 0, 0, 0, 0] ++ [0, 0, 0, 0, 0, 0, 0, 0] ++
    [5, 73, 67, 79, 78, 83] ++ [3, 65, 0, 80])

/-! ## Lemmas on machine integers and streams -/


theorem toInt32_eq (n : Int) : toInt32 n = (n + 2147483648) % 4294967296 - 2147483648 := by
  cases n with
  | ofNat a =>
    show (if a % 4294967296 < 2147483648 then Int.ofNat (a % 4294967296)
      else Int.negSucc (4294967295 - a % 4294967296)) = _
    split
    · simp only [Int.ofNat_eq_coe]; omega
    · simp only [Int.ofNat_eq_coe, Int.negSucc_eq]; omega
  | negSucc a =>
    show (if a % 4294967296 < 2147483648 then Int.negSucc (a % 4294967296)
      else Int.ofNat (4294967295 - a % 4294967296)) = _
    split
    · simp only [Int.negSucc_eq]; omega
    · simp only [Int.ofNat_eq_coe, Int.negSucc_eq]; omega

theorem toInt32_of_lt (n : Int) (h0 : 0 ≤ n) (h1 : n < 2147483648) : toInt32 n = n := by
  rw [toInt32_eq]; omega

theorem toInt32_nonneg_iff (n : Nat) (h : n < 4294967296) :
    0 ≤ toInt32 (n : Int) ↔ n < 2147483648 := by
  rw [toInt32_eq]; omega

theorem toInt32_neg_of_ge (n : Nat) (h1 : 2147483648 ≤ n) (h2 : n < 4294967296) :
    toInt32 (n : Int) < 0 := by
  rw [toInt32_eq]; omega

theorem drop_succ_of_drop_eq_cons {α : Type} (l : List α) (n : Nat) (a : α) (t : List α)
    (h : l.drop n = a :: t) : l.drop (n + 1) = t := by
  have h2 : l.drop (n + 1) = (l.drop n).drop 1 := by
    rw [List.drop_drop, Nat.add_comm]
  rw [h2, h]; rfl

theorem fseek_nonneg (f : FILE) (p : Int) (hp : 0 ≤ p) :
    fseek f p = some { f with pos := p.toNat } := by
  unfold fseek; rw [if_neg (by omega)]

theorem fseek_neg (f : FILE) (p : Int) (hp : p < 0) : fseek f p = none := by
  unfold fseek; rw [if_pos hp]

theorem fread_data (f : FILE) (n : Nat) : (fread f n).2.data = f.data := rfl

theorem fread_fst (f : FILE) (n : Nat) : (fread f n).1 = (f.data.drop f.pos).take n := rfl

theorem fread_pos (f : FILE) (n : Nat) : (fread f n).2.pos = f.pos + (fread f n).1.length := rfl

theorem getOffsetString_ok (f : FILE) (p : Int) (buf : List Byte) (N : Byte)
    (s rest : List Byte) (hp : 0 ≤ p) (hd : f.data.drop p.toNat = N :: (s ++ rest))
    (hs : s.length = N.val) (hpos : f.pos < 2147483648) :
    getOffsetString f p buf = ⟨0, s ++ 0 :: buf.drop (N.val + 1), f⟩ := by
  have hd1 := drop_succ_of_drop_eq_cons _ _ _ _ hd
  have hold : toInt32 (f.pos : Int) = (f.pos : Int) := toInt32_of_lt _ (by omega) (by omega)
  have h1 : (fread { f with pos := p.toNat } 1).1 = [N] := by
    simp only [fread, hd]; rfl
  have h2 : (fread { f with pos := p.toNat } 1).2 = { f with pos := p.toNat + 1 } := by
    simp only [fread, hd]; rfl
  have h3 : (fread { f with pos := p.toNat + 1 } N.val).1 = s := by
    simp only [fread, hd1, ← hs]; simp
  unfold getOffsetString
  rw [fseek_nonneg f p hp]
  dsimp only
  rw [h1]
  dsimp only
  rw [h2, h3, if_neg (by simp [hs]), ftell, hold, fseek_nonneg _ _ (by omega)]
  simp only [Int.toNat_ofNat, fread_data]

/-- A successful lookup leaves the data of the stream alone and sets the position to the value
saved in the `int`. -/
theorem getOffsetString_success (f : FILE) (p : Int) (buf : List Byte) :
    (getOffsetString f p buf).ret = 0 →
    0 ≤ toInt32 (f.pos : Int) ∧
    (getOffsetString f p buf).f = { f with pos := (toInt32 (f.pos : Int)).toNat } := by
  unfold getOffsetString
  by_cases hp : p < 0
  · rw [fseek_neg f p hp]; intro h; simp at h
  · rw [fseek_nonneg f p (by omega)]
    dsimp only
    split
    · split
      · intro h; simp at h
      · by_cases h4 : toInt32 (ftell f) < 0
        · rw [fseek_neg _ _ h4]; intro h; simp at h
        · rw [fseek_nonneg _ _ (by omega)]
          intro _
          exact ⟨by unfold ftell at h4; omega, by simp only [fread_data, ftell]⟩
    · intro h; simp at h

theorem copyBlocks_done (env : Env) (fuel : Nat) (bytesLeft : Int) (fin : FILE)
    (out : List Byte) (h : bytesLeft ≤ 0) :
    copyBlocks env fuel bytesLeft fin out = some ⟨0, fin, out⟩ := by
  cases fuel <;> (unfold copyBlocks; rw [if_neg (by omega)])

theorem copyBlocks_data (env : Env) (fuel : Nat) : ∀ (bytesLeft : Int) (fin : FILE)
    (out : List Byte) (c : Copy), copyBlocks env fuel bytesLeft fin out = some c →
    c.fin.data = fin.data := by
  induction fuel with
  | zero =>
    intro b fin out c h
    unfold copyBlocks at h
    split at h
    · cases h
    · cases h; rfl
  | succ n ih =>
    intro b fin out c h
    unfold copyBlocks at h
    split at h
    · dsimp only at h
      split at h
      · cases h; rfl
      · split at h
        · cases h; rfl
        · rw [ih _ _ _ _ h]; rfl
    · cases h; rfl


theorem dumpResource_success (env : Env) (fin : FILE) (offset byteCount : Nat)
    (filename : List Byte) (d : Dump)
    (h : dumpResource env fin offset byteCount filename = some d) (hret : d.ret = 0) :
    0 ≤ toInt32 (fin.pos : Int) ∧ d.fin = { fin with pos := (toInt32 (fin.pos : Int)).toNat } := by
  unfold dumpResource at h
  by_cases hcr : env.creatable filename = false
  · rw [if_pos hcr] at h
    injection h with h
    subst h
    simp at hret
  · rw [if_neg hcr] at h
    dsimp only at h
    rw [fseek_nonneg fin (offset : Int) (by omega)] at h
    dsimp only at h
    rcases hcb : copyBlocks env (toInt32 (byteCount : Int)).toNat (toInt32 (byteCount : Int))
      { data := fin.data, pos := (offset : Int).toNat } [] with _ | c
    · rw [hcb] at h; simp at h
    · rw [hcb] at h
      dsimp only at h
      have hdata := copyBlocks_data _ _ _ _ _ _ hcb
      by_cases hr : c.ret ≠ 0
      · rw [if_pos hr] at h
        injection h with h
        subst h
        simp at hret
      · rw [if_neg hr] at h
        by_cases h4 : toInt32 (ftell fin) < 0
        · rw [fseek_neg _ _ h4] at h
          injection h with h
          subst h
          simp at hret
        · rw [fseek_nonneg _ _ (by omega)] at h
          injection h with h
          subst h
          exact ⟨by unfold ftell at h4; omega, by simp only [hdata, ftell]⟩

/-- C1 (the code at the failing inputs): with a byte count of `2 ^ 31` or more the count of
bytes left starts negative as an `int`; nothing is copied, and the call returns 0 with an empty
output file wherever the file can be created and the position restored. -/
theorem dumpResource_count_negative (env : Env) (fin : FILE) (offset byteCount : Nat)
    (filename : List Byte) (hc : env.creatable filename = true)
    (h1 : 2147483648 ≤ byteCount) (h2 : byteCount < 4294967296)
    (hpos : fin.pos < 2147483648) :
    dumpResource env fin offset byteCount filename = some ⟨0, fin, some []⟩ := by
  have hneg := toInt32_neg_of_ge byteCount h1 h2
  have hold : toInt32 (fin.pos : Int) = (fin.pos : Int) := toInt32_of_lt _ (by omega) (by omega)
  unfold dumpResource
  rw [if_neg (by simp [hc])]
  dsimp only
  rw [fseek_nonneg fin (offset : Int) (by omega)]
  dsimp only
  rw [copyBlocks_done _ _ _ _ _ (by omega)]
  dsimp only
  rw [if_neg (by simp), ftell, hold, fseek_nonneg _ _ (by omega)]
  simp only [Int.toNat_ofNat, List.take_nil]

theorem dumpResource_count_negative_witness :
    dumpResource envOk ⟨[1, 2, 3], 0⟩ 0 2147483648 (ascii "out.bin") =
      some ⟨0, ⟨[1, 2, 3], 0⟩, some []⟩ :=
  dumpResource_count_negative envOk ⟨[1, 2, 3], 0⟩ 0 2147483648 (ascii "out.bin") rfl
    (by decide) (by decide) (by decide)

/-- The run on `sampleBigCount` with extraction: the resource of length `2 ^ 31` is reported
as dumped, and its output file is empty. -/
theorem sampleBigCount_run :
    main envOk (ascii "out_") true false sampleBigCount =
      some ⟨0, none,
        [Event.extHeader 64, Event.resTable 128 0, Event.resNameTable 228 100,
          Event.shiftCounts 16 0, Event.typeBuiltin 1 "cursor", Event.resCount 1,
          Event.resource 0 0 0 2147483648 1, Event.idNumber 7,
          Event.dumped (ascii "out_00000-00000.bin"), Event.endOfTypes 1, Event.done],
        [(ascii "out_00000-00000.bin", [])], [2, 10, 22]⟩ := by
  decide

theorem blockCount_pos (b : Int) (h : b > 0) : 1 ≤ blockCount b ∧ blockCount b ≤ b := by
  unfold blockCount BLOCKSIZE
  split <;> omega

theorem copyBlocks_fuel (env : Env) (fuel : Nat) : ∀ (bytesLeft : Int) (fin : FILE)
    (out : List Byte), bytesLeft ≤ (fuel : Int) →
    ∃ c, copyBlocks env fuel bytesLeft fin out = some c := by
  induction fuel with
  | zero =>
    intro b fin out h
    unfold copyBlocks
    rw [if_neg (by omega)]
    exact ⟨_, rfl⟩
  | succ n ih =>
    intro b fin out h
    unfold copyBlocks
    by_cases hb : b > 0
    · rw [if_pos hb]
      dsimp only
      split
      · exact ⟨_, rfl⟩
      · split
        · exact ⟨_, rfl⟩
        · have := blockCount_pos b hb
          exact ih _ _ _ (by push_cast at h; omega)
    · rw [if_neg hb]
      exact ⟨_, rfl⟩

/-- The copy loop of `dumpResource` gets enough fuel: a call always returns. -/
theorem dumpResource_total (env : Env) (fin : FILE) (offset byteCount : Nat)
    (filename : List Byte) : ∃ d, dumpResource env fin offset byteCount filename = some d := by
  unfold dumpResource
  split
  · exact ⟨_, rfl⟩
  · dsimp only
    rw [fseek_nonneg fin (offset : Int) (by omega)]
    dsimp only
    obtain ⟨c, hc⟩ := copyBlocks_fuel env (toInt32 (byteCount : Int)).toNat
      (toInt32 (byteCount : Int)) { data := fin.data, pos := (offset : Int).toNat } []
      (by omega)
    rw [hc]
    dsimp only
    split
    · exact ⟨_, rfl⟩
    · split <;> exact ⟨_, rfl⟩

theorem restore_eq (f : FILE) (h : f.pos < 4294967296) (h0 : 0 ≤ toInt32 (f.pos : Int)) :
    ({ f with pos := (toInt32 (f.pos : Int)).toNat } : FILE) = f := by
  have h1 : (toInt32 (f.pos : Int)).toNat = f.pos := by
    rw [toInt32_eq] at h0 ⊢; omega
  rw [h1]

theorem fread_of_drop (f : FILE) (blk more : List Byte)
    (h : f.data.drop f.pos = blk ++ more) :
    fread f blk.length = (blk, ⟨f.data, f.pos + blk.length⟩) ∧
    f.data.drop (f.pos + blk.length) = more := by
  constructor
  · unfold fread
    simp only [h, List.take_left']
  · rw [← List.drop_drop, h]; exact List.drop_left' rfl



theorem countResources_append (l l2 : List Event) :
    countResources (l ++ l2) = countResources l + countResources l2 := by
  unfold countResources; rw [List.countP_append]

theorem reportedTypes_append (l l2 : List Event) :
    reportedTypes (l ++ l2) = reportedTypes l ++ reportedTypes l2 := by
  unfold reportedTypes; rw [List.filterMap_append]

theorem resolveType_frame (c : Ctx) (st : State) (tb : TypeBlock)
    (hpos : st.f.pos < 4294967296) :
    (∃ e, resolveType c st tb = .error e ∧ e.err = some Err.stringType) ∨
    (∃ st2, resolveType c st tb = .ok st2 ∧ Frame st st2) := by
  unfold resolveType
  by_cases hb : tb.typeID &&& 0x8000 = 0
  · rw [if_pos hb]
    dsimp only
    by_cases hr : (getOffsetString st.f (toInt32 (tb.typeID + c.resTableOffset)) st.typeBuf).ret
        ≠ 0
    · rw [if_pos hr]; exact Or.inl ⟨_, rfl, rfl⟩
    · rw [if_neg hr]
      have hs := getOffsetString_success _ _ _ (not_not.mp hr)
      refine Or.inr ⟨_, rfl, ?_, rfl, ?_, ?_⟩
      · show (getOffsetString _ _ _).f = st.f
        rw [hs.2]; exact restore_eq _ hpos hs.1
      · show countResources (st.log ++ _) = _
        rw [countResources_append]; rfl
      · show reportedTypes (st.log ++ _) = _
        rw [reportedTypes_append]; exact List.append_nil _
  · rw [if_neg hb]
    refine Or.inr ⟨_, rfl, rfl, rfl, ?_, ?_⟩
    · show countResources (st.log ++ _) = _
      rw [countResources_append]; rfl
    · show reportedTypes (st.log ++ _) = _
      rw [reportedTypes_append]; exact List.append_nil _

theorem resolveName_frame (c : Ctx) (st : State) (rb : ResBlock)
    (hpos : st.f.pos < 4294967296) :
    (∃ e, resolveName c st rb = .error e ∧ e.err = some Err.stringName) ∨
    (∃ st2, resolveName c st rb = .ok st2 ∧ Frame st st2) := by
  unfold resolveName
  by_cases hb : rb.resourceID &&& 0x8000 = 0
  · rw [if_pos hb]
    dsimp only
    by_cases hr : (getOffsetString st.f (toInt32 (rb.resourceID + c.resTableOffset))
        st.nameBuf).ret ≠ 0
    · rw [if_pos hr]; exact Or.inl ⟨_, rfl, rfl⟩
    · rw [if_neg hr]
      have hs := getOffsetString_success _ _ _ (not_not.mp hr)
      refine Or.inr ⟨_, rfl, ?_, rfl, ?_, ?_⟩
      · show (getOffsetString _ _ _).f = st.f
        rw [hs.2]; exact restore_eq _ hpos hs.1
      · show countResources (st.log ++ _) = _
        rw [countResources_append]; rfl
      · show reportedTypes (st.log ++ _) = _
        rw [reportedTypes_append]; exact List.append_nil _
  · rw [if_neg hb]
    refine Or.inr ⟨_, rfl, rfl, rfl, ?_, ?_⟩
    · show countResources (st.log ++ _) = _
      rw [countResources_append]; rfl
    · show reportedTypes (st.log ++ _) = _
      rw [reportedTypes_append]; exact List.append_nil _

theorem dumpStep_frame (c : Ctx) (k i : Nat) (st : State) (rb : ResBlock)
    (hpos : st.f.pos < 4294967296) :
    (∃ e, dumpStep c k i st rb = some (.error e) ∧ e.err = some Err.dumpFailed) ∨
    (∃ st2, dumpStep c k i st rb = some (.ok st2) ∧ Frame st st2) := by
  unfold dumpStep
  by_cases hd : c.dump = false
  · rw [if_pos hd]; exact Or.inr ⟨_, rfl, rfl, rfl, rfl, rfl⟩
  · rw [if_neg hd]
    dsimp only
    obtain ⟨d, hdump⟩ := dumpResource_total c.env st.f (byteOffsetOf c rb) (actualLengthOf c rb)
      (dumpFilename c k i st.nameBuf st.typeBuf)
    rw [hdump]
    dsimp only
    by_cases hr : d.ret ≠ 0
    · rw [if_pos hr]; exact Or.inl ⟨_, rfl, rfl⟩
    · rw [if_neg hr]
      have hs := dumpResource_success _ _ _ _ _ _ hdump (not_not.mp hr)
      refine Or.inr ⟨_, rfl, ?_, rfl, ?_, ?_⟩
      · show d.fin = st.f
        rw [hs.2]; exact restore_eq _ hpos hs.1
      · show countResources (st.log ++ _) = _
        rw [countResources_append]; rfl
      · show reportedTypes (st.log ++ _) = _
        rw [reportedTypes_append]; exact List.append_nil _

/-! ## The walk over a well-formed table -/

theorem resLoop_blocks (c : Ctx) (k : Nat) : ∀ (rbs : List (List Byte)) (i : Nat) (st : State)
    (more : List Byte), (∀ rb ∈ rbs, rb.length = 12) →
    st.f.data.drop st.f.pos = rbs.flatten ++ more →
    st.f.pos + 12 * rbs.length < 4294967296 →
    (∃ e, resLoop c k rbs.length i st = some (.error e) ∧
      (e.err = some Err.stringName ∨ e.err = some Err.dumpFailed)) ∨
    (∃ st2, resLoop c k rbs.length i st = some (.ok st2) ∧
      st2.f = ⟨st.f.data, st.f.pos + 12 * rbs.length⟩ ∧
      st2.byteCounter = st.byteCounter + 12 * rbs.length ∧
      countResources st2.log = countResources st.log + rbs.length ∧
      reportedTypes st2.log = reportedTypes st.log) := by
  intro rbs
  induction rbs with
  | nil =>
    intro i st more _ _ _
    refine Or.inr ⟨st, rfl, rfl, ?_, rfl, rfl⟩
    simp
  | cons rb rbs ih =>
    intro i st more hlen hdata hpos
    have hrb : rb.length = 12 := hlen rb (List.mem_cons_self _ _)
    have hrest : ∀ x ∈ rbs, x.length = 12 := fun x hx => hlen x (List.mem_cons_of_mem _ hx)
    rw [List.flatten_cons, List.append_assoc] at hdata
    obtain ⟨hread, hdrop⟩ := fread_of_drop st.f rb (rbs.flatten ++ more) hdata
    rw [hrb] at hread hdrop
    rw [List.length_cons] at hpos ⊢
    rw [resLoop]
    dsimp only
    rw [hread]
    dsimp only
    rw [if_neg (by omega)]
    rcases resolveName_frame c
      { st with
        f := ⟨st.f.data, st.f.pos + 12⟩, byteCounter := st.byteCounter + 12,
        counters := st.counters ++ [st.byteCounter + 12],
        log := st.log ++ [Event.resource k i (decodeResBlock rb).flags
          (actualLengthOf c (decodeResBlock rb)) (byteOffsetOf c (decodeResBlock rb))] }
      (decodeResBlock rb) (by show st.f.pos + 12 < 4294967296; omega) with
      ⟨e, he, herr⟩ | ⟨st2, h2, hf2, hb2, hc2, ht2⟩
    · rw [he]
      exact Or.inl ⟨e, rfl, Or.inl herr⟩
    · rw [h2]
      dsimp only
      dsimp only at hf2 hb2 hc2 ht2
      rcases dumpStep_frame c k i st2 (decodeResBlock rb)
        (by rw [hf2]; show st.f.pos + 12 < 4294967296; omega) with
        ⟨e, he, herr⟩ | ⟨st3, h3, hf3, hb3, hc3, ht3⟩
      · rw [he]
        exact Or.inl ⟨e, rfl, Or.inr herr⟩
      · rw [h3]
        dsimp only
        have hf : st3.f = ⟨st.f.data, st.f.pos + 12⟩ := by rw [hf3, hf2]
        rcases ih (i + 1) st3 more hrest (by rw [hf]; exact hdrop)
          (by rw [hf]; show st.f.pos + 12 + 12 * rbs.length < 4294967296; omega) with
          ⟨e, he, herr⟩ | ⟨st4, h4, hf4, hb4, hc4, ht4⟩
        · exact Or.inl ⟨e, he, herr⟩
        · refine Or.inr ⟨st4, h4, ?_, ?_, ?_, ?_⟩
          · rw [hf4, hf]
            show (⟨st.f.data, st.f.pos + 12 + 12 * rbs.length⟩ : FILE) = _
            congr 1; omega
          · rw [hb4, hb3, hb2]; push_cast; omega
          · rw [hc4, hc3, hc2, countResources_append]
            show countResources st.log + 1 + rbs.length = _
            omega
          · rw [ht4, ht3, ht2, reportedTypes_append]
            exact List.append_nil _

theorem flatten_length_12 (rbs : List (List Byte)) (h : ∀ rb ∈ rbs, rb.length = 12) :
    rbs.flatten.length = 12 * rbs.length := by
  induction rbs with
  | nil => rfl
  | cons rb rbs ih =>
    rw [List.flatten_cons, List.length_append, List.length_cons,
      ih (fun x hx => h x (List.mem_cons_of_mem _ hx)), h rb (List.mem_cons_self _ _)]
    omega

theorem tableBytes_cons (t : List Byte × List (List Byte))
    (tbl : List (List Byte × List (List Byte))) :
    tableBytes (t :: tbl) = t.1 ++ (t.2.flatten ++ tableBytes tbl) := by
  unfold tableBytes
  rw [List.map_cons, List.flatten_cons, List.append_assoc]

theorem tableResources_cons (t : List Byte × List (List Byte))
    (tbl : List (List Byte × List (List Byte))) :
    tableResources (t :: tbl) = t.2.length + tableResources tbl := by
  unfold tableResources
  rw [List.map_cons, List.sum_cons]

theorem typeLoop_table (c : Ctx) : ∀ (tbl : List (List Byte × List (List Byte)))
    (fuel k : Nat) (st : State) (more : List Byte), (∀ t ∈ tbl, GroupOk t) →
    st.f.data.drop st.f.pos = tableBytes tbl ++ more →
    st.f.pos + (tableBytes tbl).length < 4294967296 →
    st.byteCounter + (tableBytes tbl).length ≤ c.maxBytes →
    c.maxBytes - st.byteCounter ≤ fuel →
    (∃ e, typeLoop c fuel k st = some e ∧
      (e.err = some Err.stringType ∨ e.err = some Err.stringName ∨
        e.err = some Err.dumpFailed)) ∨
    (∃ st2 fuel2, typeLoop c fuel k st = typeLoop c fuel2 (k + tbl.length) st2 ∧
      c.maxBytes - st2.byteCounter ≤ fuel2 ∧
      st2.f = ⟨st.f.data, st.f.pos + (tableBytes tbl).length⟩ ∧
      st2.byteCounter = st.byteCounter + (tableBytes tbl).length ∧
      countResources st2.log = countResources st.log + tableResources tbl ∧
      reportedTypes st2.log = reportedTypes st.log) := by
  intro tbl
  induction tbl with
  | nil =>
    intro fuel k st more _ _ _ _ hfuel
    refine Or.inr ⟨st, fuel, rfl, hfuel, rfl, ?_, rfl, rfl⟩
    show st.byteCounter = st.byteCounter + ((0 : Nat) : Int)
    omega
  | cons t tbl ih =>
    intro fuel k st more hok hdata hpos hbudget hfuel
    obtain ⟨h8, hid, hcount, h12⟩ := hok t (List.mem_cons_self _ _)
    have hrest : ∀ x ∈ tbl, GroupOk x := fun x hx => hok x (List.mem_cons_of_mem _ hx)
    have hflat := flatten_length_12 t.2 h12
    rw [tableBytes_cons] at hdata hpos hbudget
    rw [List.length_append, List.length_append, h8, hflat] at hpos hbudget
    rw [List.append_assoc] at hdata
    obtain ⟨hread, hdrop⟩ := fread_of_drop st.f t.1 _ hdata
    rw [h8] at hread hdrop
    push_cast at hbudget
    obtain ⟨fuel1, rfl⟩ : ∃ n, fuel = n + 1 := ⟨fuel - 1, by omega⟩
    rw [typeLoop, if_pos (by omega)]
    dsimp only
    rw [hread]
    dsimp only
    rw [if_neg (by omega), if_neg (by exact hid)]
    rcases resolveType_frame c { st with f := ⟨st.f.data, st.f.pos + 8⟩ } (decodeTypeBlock t.1)
      (by show st.f.pos + 8 < 4294967296; omega) with
      ⟨e, he, herr⟩ | ⟨st2, h2, hf2, hb2, hc2, ht2⟩
    · rw [he]
      exact Or.inl ⟨e, rfl, Or.inl herr⟩
    · rw [h2]
      dsimp only
      dsimp only at hf2 hb2 hc2 ht2
      have hrc : (decodeTypeBlock t.1).resCount = t.2.length := hcount
      rw [hrc]
      rw [List.append_assoc] at hdrop
      rcases resLoop_blocks c k t.2 0
        { st2 with
          byteCounter := st2.byteCounter + 8, counters := st2.counters ++ [st2.byteCounter + 8],
          log := st2.log ++ [Event.resCount t.2.length] }
        (tableBytes tbl ++ more) h12 (by show st2.f.data.drop st2.f.pos = _; rw [hf2]; exact hdrop)
        (by show st2.f.pos + 12 * t.2.length < 4294967296; rw [hf2]
            show st.f.pos + 8 + 12 * t.2.length < 4294967296; omega) with
        ⟨e, he, herr⟩ | ⟨st4, h4, hf4, hb4, hc4, ht4⟩
      · rw [he]
        refine Or.inl ⟨e, rfl, ?_⟩
        rcases herr with h | h
        · exact Or.inr (Or.inl h)
        · exact Or.inr (Or.inr h)
      · rw [h4]
        dsimp only
        dsimp only at hf4 hb4 hc4 ht4
        rw [hf2] at hf4
        rw [hb2] at hb4
        rw [countResources_append, hc2] at hc4
        rw [reportedTypes_append, ht2] at ht4
        have hf4b : st4.f = ⟨st.f.data, st.f.pos + 8 + 12 * t.2.length⟩ := hf4
        have hb4b : st4.byteCounter = st.byteCounter + 8 + 12 * (t.2.length : Int) := by
          rw [hb4]
        rcases ih fuel1 (k + 1) st4 more hrest
          (by rw [hf4b]
              show st.f.data.drop (st.f.pos + 8 + 12 * t.2.length) = _
              rw [← hflat, ← List.drop_drop, hdrop]; exact List.drop_left' rfl)
          (by rw [hf4b]; show st.f.pos + 8 + 12 * t.2.length + _ < 4294967296; omega)
          (by rw [hb4b]; omega) (by rw [hb4b]; omega) with
          ⟨e, he, herr⟩ | ⟨st5, fuel5, h5, hfu5, hf5, hb5, hc5, ht5⟩
        · exact Or.inl ⟨e, he, herr⟩
        · refine Or.inr ⟨st5, fuel5, ?_, hfu5, ?_, ?_, ?_, ?_⟩
          · rw [h5, List.length_cons]; congr 1; omega
          · rw [hf5, hf4b, tableBytes_cons, List.length_append, List.length_append, h8, hflat]
            show (⟨st.f.data, st.f.pos + 8 + 12 * t.2.length + (tableBytes tbl).length⟩ : FILE)
              = _
            congr 1; omega
          · rw [hb5, hb4b, tableBytes_cons, List.length_append, List.length_append, h8, hflat]
            push_cast; omega
          · rw [hc5, hc4, tableResources_cons]
            show countResources st.log + 0 + t.2.length + tableResources tbl = _
            omega
          · rw [ht5, ht4]
            show reportedTypes st.log ++ [] = _
            exact List.append_nil _

theorem u16_lt (bs : List Byte) (i : Nat) : u16 bs i < 65536 := by
  unfold u16
  have h1 := (bs.getD i 0).isLt
  have h2 := (bs.getD (i + 1) 0).isLt
  omega

theorem u32_lt (bs : List Byte) (i : Nat) : u32 bs i < 4294967296 := by
  unfold u32
  have h1 := u16_lt bs i
  have h2 := u16_lt bs (i + 2)
  omega

theorem maxBytes_eq (a b e : Nat) (ha : a < 65536) (hb : b < 65536) :
    toInt32 (toInt32 ((b : Int) + e) - toInt32 ((a : Int) + e)) = (b : Int) - a := by
  rw [toInt32_eq, toInt32_eq, toInt32_eq]
  omega

theorem toInt32_range (n : Int) : -2147483648 ≤ toInt32 n ∧ toInt32 n < 2147483648 := by
  rw [toInt32_eq]; omega

theorem decodeHeader_lt (bs : List Byte) :
    (decodeHeader bs).ResTableOffset < 65536 ∧ (decodeHeader bs).ResidNamTable < 65536 :=
  ⟨u16_lt bs 36, u16_lt bs 38⟩

theorem maxBytes_bounds (h : NE_header) (e : Nat) (h1 : h.ResTableOffset < 65536)
    (h2 : h.ResidNamTable < 65536) :
    -65535 ≤ toInt32 (toInt32 ((h.ResidNamTable : Int) + e) -
      toInt32 ((h.ResTableOffset : Int) + e)) ∧
    toInt32 (toInt32 ((h.ResidNamTable : Int) + e) -
      toInt32 ((h.ResTableOffset : Int) + e)) ≤ 65535 := by
  rw [maxBytes_eq _ _ _ h1 h2]; omega

theorem fread_pos_two (g : FILE) (h : ¬ (fread g 2).1.length ≠ 2) :
    (fread g 2).2.pos = g.pos + 2 := by
  rw [fread_pos, not_not.mp h]

theorem pos_after_seek (x : Int) (hneg : ¬ toInt32 x < 0) :
    (toInt32 x).toNat + 2 < 2147483650 ∧
    (((toInt32 x).toNat + 2 : Nat) : Int) = toInt32 x + 2 := by
  have := toInt32_range x
  omega

/-- What holds at the start of the walk when the part of `main` before it has succeeded. -/
theorem prelude_ok (env : Env) (outPrefix : List Byte) (dump useNames : Bool)
    (data : List Byte) (c : Ctx) (st : State)
    (h : prelude env outPrefix dump useNames data = .ok (c, st)) :
    st.f.data = data ∧ st.byteCounter = 2 ∧ st.f.pos < 2147483650 ∧
    (st.f.pos : Int) = c.resTableOffset + 2 ∧
    -65535 ≤ c.maxBytes ∧ c.maxBytes ≤ 65535 ∧
    countResources st.log = 0 ∧ reportedTypes st.log = [] ∧ st.counters = [2] := by
  unfold prelude at h
  split at h
  · cases h
  · dsimp only at h
    split at h
    · cases h
    · split at h
      · cases h
      · split at h
        · cases h
        · split at h
          · cases h
          · split at h
            · cases h
            · split at h
              · cases h
              · rename_i f3 hseek
                split at h
                · cases h
                · rename_i hlen2
                  injection h with h
                  injection h with hc hst
                  subst hc hst
                  unfold fseek at hseek
                  split at hseek
                  · cases hseek
                  · rename_i hneg
                    injection hseek with hseek
                    subst hseek
                    have hpos := fread_pos_two _ hlen2
                    refine ⟨rfl, rfl, ?_, ?_, ?_, ?_, rfl, rfl, rfl⟩
                    · show (fread _ 2).2.pos < 2147483650
                      rw [hpos]
                      exact (pos_after_seek _ hneg).1
                    · show ((fread _ 2).2.pos : Int) = _
                      rw [hpos]
                      exact (pos_after_seek _ hneg).2
                    · exact (maxBytes_bounds _ _ (decodeHeader_lt _).1 (decodeHeader_lt _).2).1
                    · exact (maxBytes_bounds _ _ (decodeHeader_lt _).1 (decodeHeader_lt _).2).2

/-! ## The walk: normal end and overflow -/

theorem main_of_prelude (env : Env) (outPrefix : List Byte) (dump useNames : Bool)
    (data : List Byte) (c : Ctx) (st : State)
    (h : prelude env outPrefix dump useNames data = .ok (c, st)) :
    main env outPrefix dump useNames data = typeLoop c c.maxBytes.toNat 0 st := by
  unfold main; rw [h]

/-- C3: when the part of `main` before the walk has succeeded, the resource table consists of
the type blocks `tbl` (non-zero identifiers, each followed by its `resCount` resource blocks)
and then a type block with identifier 0, the byte counter is below `maxBytes` when that block is
read, and no name lookup or extraction fails, the run returns status 0 without error, reports
exactly `tbl.length` types and visits exactly as many resources as the `resCount` fields say. -/
theorem walk_normal_termination (env : Env) (outPrefix : List Byte) (dump useNames : Bool)
    (data : List Byte) (c : Ctx) (st : State) (tbl : List (List Byte × List (List Byte)))
    (term rest : List Byte)
    (hpre : prelude env outPrefix dump useNames data = .ok (c, st))
    (htbl : ∀ t ∈ tbl, GroupOk t)
    (hterm : term.length = 8 ∧ u16 term 0 = 0)
    (hdata : data.drop st.f.pos = tableBytes tbl ++ (term ++ rest))
    (hbudget : 2 + ((tableBytes tbl).length : Int) < c.maxBytes)
    (hrun : ∀ r, main env outPrefix dump useNames data = some r →
      r.err ≠ some Err.stringType ∧ r.err ≠ some Err.stringName ∧
      r.err ≠ some Err.dumpFailed) :
    ∃ r, main env outPrefix dump useNames data = some r ∧ r.status = 0 ∧ r.err = none ∧
      reportedTypes r.log = [tbl.length] ∧ countResources r.log = tableResources tbl := by
  obtain ⟨hd, hbc, hp, _, _, hmax, hcr, hrt, _⟩ := prelude_ok _ _ _ _ _ _ _ hpre
  rw [main_of_prelude _ _ _ _ _ _ _ hpre] at hrun ⊢
  rcases typeLoop_table c tbl c.maxBytes.toNat 0 st (term ++ rest) htbl
    (by rw [hd]; exact hdata) (by omega) (by rw [hbc]; omega) (by rw [hbc]; omega) with
    ⟨e, he, herr⟩ | ⟨st2, fuel2, h2, hfuel2, hf2, hb2, hc2, ht2⟩
  · have := hrun e he
    rcases herr with h | h | h
    · exact absurd h this.1
    · exact absurd h this.2.1
    · exact absurd h this.2.2
  · rw [h2]
    have hlt : st2.byteCounter < c.maxBytes := by rw [hb2, hbc]; omega
    obtain ⟨fuel3, rfl⟩ : ∃ n, fuel2 = n + 1 := ⟨fuel2 - 1, by omega⟩
    have hdrop2 : st2.f.data.drop st2.f.pos = term ++ rest := by
      rw [hf2]
      show st.f.data.drop (st.f.pos + (tableBytes tbl).length) = _
      rw [← List.drop_drop, hd, hdata]; exact List.drop_left' rfl
    obtain ⟨hread, _⟩ := fread_of_drop st2.f term rest hdrop2
    rw [hterm.1] at hread
    rw [typeLoop, if_pos hlt]
    dsimp only
    rw [hread]
    dsimp only
    rw [if_neg (by omega), if_pos (by exact hterm.2)]
    unfold finish
    rw [if_neg (by show ¬ st2.byteCounter = c.maxBytes; omega)]
    refine ⟨_, rfl, rfl, rfl, ?_, ?_⟩
    · show reportedTypes (st2.log ++ [Event.endOfTypes (0 + tbl.length)] ++ [Event.done]) = _
      rw [reportedTypes_append, reportedTypes_append, ht2, hrt, Nat.zero_add]
      rfl
    · show countResources (st2.log ++ [Event.endOfTypes (0 + tbl.length)] ++ [Event.done]) = _
      rw [countResources_append, countResources_append, hc2, hcr]
      show 0 + tableResources tbl + 0 + 0 = _
      omega

theorem sampleIcons_run :
    main envOk (ascii "out_") true true sampleIcons =
      some ⟨0, none,
        [Event.extHeader 64, Event.resTable 128 0, Event.resNameTable 228 100,
          Event.shiftCounts 1 0, Event.typeCustom (ascii "'ICONS'"), Event.resCount 1,
          Event.resource 0 0 0 2 1, Event.idNumber 7, Event.dumped (ascii "out_00007.ICONS"),
          Event.endOfTypes 1, Event.done],
        [(ascii "out_00007.ICONS", [90, 0])], [2, 10, 22]⟩ := by
  decide

theorem walk_normal_termination_witness :
    ∃ r, main envOk (ascii "out_") true true sampleIcons = some r ∧ r.status = 0 ∧
      r.err = none ∧ reportedTypes r.log = [1] ∧ countResources r.log = 1 :=
  walk_normal_termination envOk (ascii "out_") true true sampleIcons
    ⟨envOk, ascii "out_", true, true, 128, 100, 1, 0⟩
    ⟨⟨sampleIcons, 130⟩, 2, List.replicate 257 0, List.replicate 257 0,
      [Event.extHeader 64, Event.resTable 128 0, Event.resNameTable 228 100,
        Event.shiftCounts 1 0], [], [2]⟩
    tableIcons [0, 0, 0, 0, 0, 0, 0, 0] [5, 73, 67, 79, 78, 83]
    rfl (by decide) (by decide) (by decide) (by decide)
    (fun r h => by rw [sampleIcons_run] at h; cases h; decide)

/-- Where the check of the code finds the overflow: when the part of `main` before the walk
has succeeded, the resource table consists of the type blocks `tbl` (non-zero identifiers, each
followed by its `resCount` resource blocks), the byte counter equals `maxBytes` after the last
of them, where the loop condition is evaluated, and no name lookup or extraction fails, the run
fails with the overflow error and status 1, after visiting the resource blocks of `tbl`. -/
theorem walk_overflow_at_loop_condition (env : Env) (outPrefix : List Byte)
    (dump useNames : Bool) (data : List Byte) (c : Ctx) (st : State)
    (tbl : List (List Byte × List (List Byte))) (rest : List Byte)
    (hpre : prelude env outPrefix dump useNames data = .ok (c, st))
    (htbl : ∀ t ∈ tbl, GroupOk t)
    (hdata : data.drop st.f.pos = tableBytes tbl ++ rest)
    (hbudget : 2 + ((tableBytes tbl).length : Int) = c.maxBytes)
    (hrun : ∀ r, main env outPrefix dump useNames data = some r →
      r.err ≠ some Err.stringType ∧ r.err ≠ some Err.stringName ∧
      r.err ≠ some Err.dumpFailed) :
    ∃ r, main env outPrefix dump useNames data = some r ∧ r.status = 1 ∧
      r.err = some Err.overflow ∧ reportedTypes r.log = [] ∧
      countResources r.log = tableResources tbl := by
  obtain ⟨hd, hbc, hp, _, _, hmax, hcr, hrt, _⟩ := prelude_ok _ _ _ _ _ _ _ hpre
  rw [main_of_prelude _ _ _ _ _ _ _ hpre] at hrun ⊢
  rcases typeLoop_table c tbl c.maxBytes.toNat 0 st rest htbl
    (by rw [hd]; exact hdata) (by omega) (by rw [hbc]; omega) (by rw [hbc]; omega) with
    ⟨e, he, herr⟩ | ⟨st2, fuel2, h2, hfuel2, hf2, hb2, hc2, ht2⟩
  · have := hrun e he
    rcases herr with h | h | h
    · exact absurd h this.1
    · exact absurd h this.2.1
    · exact absurd h this.2.2
  · rw [h2]
    have heq : st2.byteCounter = c.maxBytes := by rw [hb2, hbc]; omega
    have hfin : typeLoop c fuel2 (0 + tbl.length) st2 = some (finish c st2) := by
      cases fuel2 <;> (rw [typeLoop, if_neg (by omega)])
    rw [hfin]
    unfold finish
    rw [if_pos heq]
    refine ⟨_, rfl, rfl, rfl, ?_, ?_⟩
    · show reportedTypes st2.log = _
      rw [ht2, hrt]
    · show countResources st2.log = _
      rw [hc2, hcr]; omega

theorem sampleExact_run :
    main envOk [] false false sampleExact =
      some ⟨1, some Err.overflow,
        [Event.extHeader 64, Event.resTable 128 0, Event.resNameTable 150 22,
          Event.shiftCounts 9 0, Event.typeBuiltin 1 "cursor", Event.resCount 1,
          Event.resource 0 0 0 512 1, Event.idNumber 7],
        [], [2, 10, 22]⟩ := by
  decide

theorem walk_overflow_at_loop_condition_witness :
    ∃ r, main envOk [] false false sampleExact = some r ∧ r.status = 1 ∧
      r.err = some Err.overflow ∧ reportedTypes r.log = [] ∧ countResources r.log = 1 :=
  walk_overflow_at_loop_condition envOk [] false false sampleExact
    ⟨envOk, [], false, false, 128, 22, 9, 0⟩
    ⟨⟨sampleExact, 130⟩, 2, List.replicate 257 0, List.replicate 257 0,
      [Event.extHeader 64, Event.resTable 128 0, Event.resNameTable 150 22,
        Event.shiftCounts 9 0], [], [2]⟩
    tableCursor [] rfl (by decide) (by decide) (by decide)
    (fun r h => by rw [sampleExact_run] at h; cases h; decide)

/-- C2 (the code at a failing input): in the run on `samplePassing` the byte counter takes the
value of `maxBytes`, 10, after the type block, no zero type identifier is read, and the run ends
with status 0 and no error: the counter is 22 when the loop condition is evaluated, and the
check after the loop is `byteCounter == maxBytes`. -/
theorem overflow_missed_within_type :
    ∃ r, main envOk [] false false samplePassing = some r ∧
      Event.resNameTable 138 10 ∈ r.log ∧ (10 : Int) ∈ r.counters ∧
      reportedTypes r.log = [] ∧ r.status = 0 ∧ r.err = none :=
  ⟨⟨0, none,
      [Event.extHeader 64, Event.resTable 128 0, Event.resNameTable 138 10,
        Event.shiftCounts 9 0, Event.typeBuiltin 1 "cursor", Event.resCount 1,
        Event.resource 0 0 0 512 1, Event.idNumber 7, Event.done],
      [], [2, 10, 22]⟩, by decide, by decide, by decide, by decide, rfl, rfl⟩

/-- C9: in the run on `sampleOvertaken` the walk ends with the byte counter at 10, above
`maxBytes`, which is 9, no zero type identifier has been read, and the run returns status 0
without error. -/
theorem overtaken_budget_returns_zero :
    main envOk [] false false sampleOvertaken =
      some ⟨0, none,
        [Event.extHeader 64, Event.resTable 128 0, Event.resNameTable 137 9,
          Event.shiftCounts 9 0, Event.typeBuiltin 1 "cursor", Event.resCount 0, Event.done],
        [], [2, 10]⟩ := by
  decide

/-! ## The signature check -/

/-- C7: for every input whose first two bytes are not `MZ` the run returns status 1 with an
error, having printed and written nothing, and every input with the same first two bytes gives
the same run: no byte after the first two is looked at. -/
theorem main_rejects_without_MZ (env : Env) (outPrefix : List Byte) (dump useNames : Bool)
    (data : List Byte) (h : data.take 2 ≠ ascii "MZ") :
    (∃ e, main env outPrefix dump useNames data = some ⟨1, some e, [], [], []⟩) ∧
    ∀ data2 : List Byte, data2.take 2 = data.take 2 →
      main env outPrefix dump useNames data2 = main env outPrefix dump useNames data := by
  have key : ∀ d : List Byte, d.take 2 ≠ ascii "MZ" →
      main env outPrefix dump useNames d =
        some (early (if outPrefix.length > 256 then Err.prefixTooLong
          else if (d.take 2).length ≠ 2 then Err.readFileType1 else Err.notMZ) []) := by
    intro d hd
    have hr : (fread ⟨d, 0⟩ 2).1 = d.take 2 := rfl
    unfold main prelude
    by_cases hp : outPrefix.length > 256
    · rw [if_pos hp, if_pos hp]
    · rw [if_neg hp, if_neg hp]
      dsimp only
      rw [hr]
      by_cases hl : (d.take 2).length ≠ 2
      · rw [if_pos hl, if_pos hl]
      · rw [if_neg hl, if_neg hl, if_pos hd]
  constructor
  · exact ⟨_, key data h⟩
  · intro data2 h2
    rw [key data h, key data2 (by rw [h2]; exact h), h2]

theorem main_rejects_without_MZ_witness :
    (∃ e, main envOk [] false false (0 :: sampleIcons.tail) = some ⟨1, some e, [], [], []⟩) ∧
    ∀ data2 : List Byte, data2.take 2 = (0 :: sampleIcons.tail).take 2 →
      main envOk [] false false data2 = main envOk [] false false (0 :: sampleIcons.tail) :=
  main_rejects_without_MZ envOk [] false false (0 :: sampleIcons.tail) (by decide)

/-! ## Counted strings and the stream position -/

theorem getOffsetString_ok_of_nonneg (f : FILE) (p : Int) (buf : List Byte) (N : Byte)
    (s rest : List Byte) (hp : 0 ≤ p) (hd : f.data.drop p.toNat = N :: (s ++ rest))
    (hs : s.length = N.val) (h0 : 0 ≤ toInt32 (f.pos : Int)) :
    getOffsetString f p buf =
      ⟨0, s ++ 0 :: buf.drop (N.val + 1), { f with pos := (toInt32 (f.pos : Int)).toNat }⟩ := by
  have hd1 := drop_succ_of_drop_eq_cons _ _ _ _ hd
  have h1 : (fread { f with pos := p.toNat } 1).1 = [N] := by
    simp only [fread, hd]; rfl
  have h2 : (fread { f with pos := p.toNat } 1).2 = { f with pos := p.toNat + 1 } := by
    simp only [fread, hd]; rfl
  have h3 : (fread { f with pos := p.toNat + 1 } N.val).1 = s := by
    simp only [fread, hd1, ← hs]; simp
  unfold getOffsetString
  rw [fseek_nonneg f p hp]
  dsimp only
  rw [h1]
  dsimp only
  rw [h2, h3, if_neg (by simp [hs]), ftell, fseek_nonneg _ _ h0]
  rfl

/-- C5 (as amended): when the stream position is below `2 ^ 31`, the byte at offset `p` is `N`
and `N` further bytes `s` follow it, `getOffsetString` returns 0, the buffer starts with the
bytes `s` followed by a 0 byte, and the stream is as before the call; and for a type
identifier with high bit clear and `p = resTableOffset + typeID` the walker makes this call
and, when `s` has no 0 byte, takes `s` as the name of the type. -/
theorem getOffsetString_counted_string (f : FILE) (p : Int) (buf : List Byte) (N : Byte)
    (s rest : List Byte) (hp : 0 ≤ p) (hd : f.data.drop p.toNat = N :: (s ++ rest))
    (hs : s.length = N.val) (hpos : f.pos < 2147483648) :
    (getOffsetString f p buf).ret = 0 ∧
    (getOffsetString f p buf).buf.take (N.val + 1) = s ++ [0] ∧
    (getOffsetString f p buf).f = f ∧
    ∀ (c : Ctx) (st : State) (tb : TypeBlock), st.f = f → st.typeBuf = buf →
      tb.typeID &&& 0x8000 = 0 → c.resTableOffset + tb.typeID = p → p < 2147483648 →
      (∀ b ∈ s, b ≠ 0) →
      resolveType c st tb = .ok { st with
        typeBuf := s ++ 0 :: buf.drop (N.val + 1),
        log := st.log ++ [Event.typeCustom (ascii "'" ++ s ++ ascii "'")] } := by
  have hok := getOffsetString_ok f p buf N s rest hp hd hs hpos
  rw [hok]
  refine ⟨rfl, ?_, rfl, ?_⟩
  · show (s ++ 0 :: List.drop (N.val + 1) buf).take (N.val + 1) = s ++ [0]
    rw [← hs, List.take_append_eq_append_take]
    simp
  · intro c st tb hf hb hbit hoff hlt h0
    have harg : toInt32 ((tb.typeID : Int) + c.resTableOffset) = p := by
      rw [toInt32_of_lt _ (by omega) (by omega)]; omega
    have hc : cstr (s ++ 0 :: List.drop (N.val + 1) buf) = s := by
      unfold cstr
      rw [List.takeWhile_append_of_pos (by simpa using h0)]
      simp
    unfold resolveType
    rw [if_pos hbit]
    dsimp only
    rw [harg, hf, hb, hok]
    dsimp only
    rw [if_neg (by simp), hc, ← hf]

theorem getOffsetString_counted_string_witness :
    (getOffsetString ⟨sampleIcons, 138⟩ 158 (List.replicate 257 0)).ret = 0 ∧
    (getOffsetString ⟨sampleIcons, 138⟩ 158 (List.replicate 257 0)).buf.take ((5 : Byte).val + 1)
      = ascii "ICONS" ++ [0] ∧
    (getOffsetString ⟨sampleIcons, 138⟩ 158 (List.replicate 257 0)).f = ⟨sampleIcons, 138⟩ ∧
    ∀ (c : Ctx) (st : State) (tb : TypeBlock), st.f = ⟨sampleIcons, 138⟩ →
      st.typeBuf = List.replicate 257 0 →
      tb.typeID &&& 0x8000 = 0 → c.resTableOffset + tb.typeID = 158 → (158 : Int) < 2147483648 →
      (∀ b ∈ ascii "ICONS", b ≠ 0) →
      resolveType c st tb = .ok { st with
        typeBuf := ascii "ICONS" ++ 0 :: (List.replicate 257 0).drop ((5 : Byte).val + 1),
        log := st.log ++ [Event.typeCustom (ascii "'" ++ ascii "ICONS" ++ ascii "'")] } :=
  getOffsetString_counted_string ⟨sampleIcons, 138⟩ 158 (List.replicate 257 0) 5
    (ascii "ICONS") [] (by decide) (by decide) (by decide) (by decide)

/-- C5 (counterexample): in `hugeFile` the byte at offset 0 is 5 and the five bytes `ICONS`
follow it, and yet `getOffsetString` at offset 0 fails when the stream stands at position
`2 ^ 31`: the saved position is negative as an `int`, and the closing `fseek` fails. -/
theorem getOffsetString_fails_at_large_position :
    hugeFile.take 6 = 5 :: ascii "ICONS" ∧
    (getOffsetString ⟨hugeFile, 2147483648⟩ 0 (List.replicate 257 0)).ret ≠ 0 :=
  ⟨by decide,
   fun h => absurd (getOffsetString_success _ _ _ h).1 (by decide)⟩

/-- C6 (as amended): for a stream whose position is below `2 ^ 32`, every successful call of
`getOffsetString` and every successful call of `dumpResource` leaves the stream as it was
before the call, so that the next read returns the same bytes. -/
theorem lookups_restore_position (env : Env) (f : FILE) (hpos : f.pos < 4294967296) :
    (∀ (p : Int) (buf : List Byte), (getOffsetString f p buf).ret = 0 →
      (getOffsetString f p buf).f = f ∧
      ∀ n, fread (getOffsetString f p buf).f n = fread f n) ∧
    (∀ (offset byteCount : Nat) (filename : List Byte) (d : Dump),
      dumpResource env f offset byteCount filename = some d → d.ret = 0 →
      d.fin = f ∧ ∀ n, fread d.fin n = fread f n) := by
  constructor
  · intro p buf h
    have hs := getOffsetString_success f p buf h
    have hf : (getOffsetString f p buf).f = f := by rw [hs.2]; exact restore_eq f hpos hs.1
    exact ⟨hf, fun n => by rw [hf]⟩
  · intro offset byteCount filename d h hret
    have hs := dumpResource_success env f offset byteCount filename d h hret
    have hf : d.fin = f := by rw [hs.2]; exact restore_eq f hpos hs.1
    exact ⟨hf, fun n => by rw [hf]⟩

theorem lookups_restore_position_witness :
    (∀ (p : Int) (buf : List Byte), (getOffsetString ⟨sampleIcons, 138⟩ p buf).ret = 0 →
      (getOffsetString ⟨sampleIcons, 138⟩ p buf).f = ⟨sampleIcons, 138⟩ ∧
      ∀ n, fread (getOffsetString ⟨sampleIcons, 138⟩ p buf).f n = fread ⟨sampleIcons, 138⟩ n) ∧
    (∀ (offset byteCount : Nat) (filename : List Byte) (d : Dump),
      dumpResource envOk ⟨sampleIcons, 138⟩ offset byteCount filename = some d → d.ret = 0 →
      d.fin = ⟨sampleIcons, 138⟩ ∧ ∀ n, fread d.fin n = fread ⟨sampleIcons, 138⟩ n) :=
  lookups_restore_position envOk ⟨sampleIcons, 138⟩ (by decide)

/-- C6 (counterexample): with `hugeFile` at position `2 ^ 32 + 5`, the lookup of the counted
string at offset 0 succeeds and leaves the stream at position 5. -/
theorem lookup_moves_position_past_4GiB :
    (getOffsetString ⟨hugeFile, 4294967301⟩ 0 (List.replicate 257 0)).ret = 0 ∧
    (getOffsetString ⟨hugeFile, 4294967301⟩ 0 (List.replicate 257 0)).f.pos = 5 := by
  have h := getOffsetString_ok_of_nonneg ⟨hugeFile, 4294967301⟩ 0 (List.replicate 257 0) 5
    (ascii "ICONS") (List.replicate 4294967306 0) (by decide) rfl (by decide) (by decide)
  rw [h]
  exact ⟨rfl, by decide⟩

/-! ## Offsets and lengths -/

theorem shl32_eq (x s : Nat) (hs : s < 32) : shl32 x s = x * 2 ^ s % 4294967296 := by
  unfold shl32; rw [Nat.mod_eq_of_lt hs]

/-- C4 (counterexample): in the run on `sampleWrap` the size shift count is 17 and the data
length of the resource is `0x8000`; the walker computes the length 0, and
`0x8000 * 2 ^ 17` is `2 ^ 32`. -/
theorem actualLength_wraps :
    main envOk [] false false sampleWrap =
      some ⟨0, none,
        [Event.extHeader 64, Event.resTable 128 0, Event.resNameTable 228 100,
          Event.shiftCounts 17 0, Event.typeBuiltin 1 "cursor", Event.resCount 1,
          Event.resource 0 0 0 0 1, Event.idNumber 7, Event.endOfTypes 1, Event.done],
        [], [2, 10, 22]⟩ ∧
    (decodeResBlock [1, 0, 0, 0x80, 0, 0, 7, 0x80, 0, 0, 0, 0]).dataLength * 2 ^ 17 =
      4294967296 := by
  decide

/-! ## Short reads -/

/-- One step of the walk at a short read: when fewer than 8 bytes are left for a type block the
walk is about to read, or fewer than 12 bytes for a resource block, the run ends there with
status 1 and the read error, and its output is what had been printed and written before the
failing read; an end of run inside the loop over the resource blocks is the end of the whole
run. -/
theorem short_read_step (c : Ctx) (st : State) :
    (st.f.data.length < st.f.pos + 8 → st.byteCounter < c.maxBytes → ∀ fuel k : Nat,
      typeLoop c (fuel + 1) k st =
        some ⟨1, some Err.readTypeBlock, st.log, st.files, st.counters⟩) ∧
    (st.f.data.length < st.f.pos + 12 → ∀ k n i : Nat,
      resLoop c k (n + 1) i st =
        some (.error ⟨1, some Err.readResBlock, st.log, st.files, st.counters⟩)) ∧
    (∀ (fuel k : Nat) (tb : List Byte) (st2 : State) (e : Exit),
      st.byteCounter < c.maxBytes → (fread st.f 8).1 = tb → tb.length = 8 →
      (decodeTypeBlock tb).typeID ≠ 0 →
      resolveType c { st with f := (fread st.f 8).2 } (decodeTypeBlock tb) = .ok st2 →
      resLoop c k (decodeTypeBlock tb).resCount 0
        { st2 with
          byteCounter := st2.byteCounter + 8, counters := st2.counters ++ [st2.byteCounter + 8],
          log := st2.log ++ [Event.resCount (decodeTypeBlock tb).resCount] } =
        some (.error e) →
      typeLoop c (fuel + 1) k st = some e) := by
  have hlen : ∀ n, (fread st.f n).1.length = min n (st.f.data.length - st.f.pos) := by
    intro n; rw [fread_fst, List.length_take, List.length_drop]
  refine ⟨?_, ?_, ?_⟩
  · intro h hlt fuel k
    rw [typeLoop, if_pos hlt]
    dsimp only
    rw [if_pos (by rw [hlen]; omega)]
    rfl
  · intro h k n i
    rw [resLoop]
    dsimp only
    rw [if_pos (by rw [hlen]; omega)]
    rfl
  · intro fuel k tb st2 e hlt hread h8 hid hres hloop
    rw [typeLoop, if_pos hlt]
    dsimp only
    rw [hread, if_neg (by omega), if_neg hid, hres]
    dsimp only
    rw [hloop]

/-! ## Output file names -/

theorem append_cons_inj {α : Type} (x : α) : ∀ (a b a2 b2 : List α), x ∉ a → x ∉ a2 →
    a ++ x :: b = a2 ++ x :: b2 → a = a2 ∧ b = b2 := by
  intro a
  induction a with
  | nil =>
    intro b a2 b2 _ h2 h
    cases a2 with
    | nil => exact ⟨rfl, by simpa using h⟩
    | cons y t =>
      rw [List.nil_append, List.cons_append] at h
      injection h with hxy _
      exact absurd (hxy ▸ List.mem_cons_self _ _) h2
  | cons y t ih =>
    intro b a2 b2 h1 h2 h
    cases a2 with
    | nil =>
      rw [List.nil_append, List.cons_append] at h
      injection h with hxy _
      exact absurd (hxy ▸ List.mem_cons_self _ _) h1
    | cons z t2 =>
      rw [List.cons_append, List.cons_append] at h
      injection h with hyz ht
      obtain ⟨e1, e2⟩ := ih b t2 b2 (fun hm => h1 (List.mem_cons_of_mem _ hm))
        (fun hm => h2 (List.mem_cons_of_mem _ hm)) ht
      exact ⟨by rw [hyz, e1], e2⟩

/-- C10 (counterexample): in the run on `sampleTwins` with extraction and name-based naming,
the resources 0 and 1 of type block 0 are both written to `out_00007.cur`, the second over the
first. -/
theorem same_name_overwrites :
    main envOk (ascii "out_") true true sampleTwins =
      some ⟨0, none,
        [Event.extHeader 64, Event.resTable 128 0, Event.resNameTable 228 100,
          Event.shiftCounts 1 0, Event.typeBuiltin 1 "cursor", Event.resCount 2,
          Event.resource 0 0 0 2 1, Event.idNumber 7, Event.dumped (ascii "out_00007.cur"),
          Event.resource 0 1 0 2 3, Event.idNumber 7, Event.dumped (ascii "out_00007.cur"),
          Event.endOfTypes 1, Event.done],
        [(ascii "out_00007.cur", [90, 0]), (ascii "out_00007.cur", [0, 0])],
        [2, 10, 22, 34]⟩ := by
  decide

/-! ## Termination: the fuel suffices -/

theorem resolveName_byteCounter (c : Ctx) (st st2 : State) (rb : ResBlock)
    (h : resolveName c st rb = .ok st2) : st2.byteCounter = st.byteCounter := by
  unfold resolveName at h
  split at h
  · dsimp only at h
    split at h
    · cases h
    · cases h; rfl
  · cases h; rfl

theorem resolveType_byteCounter (c : Ctx) (st st2 : State) (tb : TypeBlock)
    (h : resolveType c st tb = .ok st2) : st2.byteCounter = st.byteCounter := by
  unfold resolveType at h
  split at h
  · dsimp only at h
    split at h
    · cases h
    · cases h; rfl
  · cases h; rfl

theorem dumpStep_total (c : Ctx) (k i : Nat) (st : State) (rb : ResBlock) :
    ∃ r, dumpStep c k i st rb = some r ∧
      ∀ st2, r = .ok st2 → st2.byteCounter = st.byteCounter := by
  unfold dumpStep
  by_cases hd : c.dump = false
  · rw [if_pos hd]
    exact ⟨_, rfl, fun st2 h => by cases h; rfl⟩
  · rw [if_neg hd]
    dsimp only
    obtain ⟨d, hdump⟩ := dumpResource_total c.env st.f (byteOffsetOf c rb) (actualLengthOf c rb)
      (dumpFilename c k i st.nameBuf st.typeBuf)
    rw [hdump]
    dsimp only
    by_cases hr : d.ret ≠ 0
    · rw [if_pos hr]
      exact ⟨_, rfl, fun st2 h => by cases h⟩
    · rw [if_neg hr]
      exact ⟨_, rfl, fun st2 h => by cases h; rfl⟩

/-- The loop over the resource blocks always returns, and the byte counter does not go down. -/
theorem resLoop_total (c : Ctx) (k : Nat) : ∀ (n i : Nat) (st : State),
    ∃ r, resLoop c k n i st = some r ∧
      ∀ st2, r = .ok st2 → st.byteCounter ≤ st2.byteCounter := by
  intro n
  induction n with
  | zero =>
    intro i st
    exact ⟨_, rfl, fun st2 h => by cases h; exact le_refl _⟩
  | succ n ih =>
    intro i st
    rw [resLoop]
    dsimp only
    by_cases hl : (fread st.f 12).1.length ≠ 12
    · rw [if_pos hl]
      exact ⟨_, rfl, fun st2 h => by cases h⟩
    · rw [if_neg hl]
      cases hn : resolveName c
        { st with
          f := (fread st.f 12).2, byteCounter := st.byteCounter + 12,
          counters := st.counters ++ [st.byteCounter + 12],
          log := st.log ++ [Event.resource k i (decodeResBlock (fread st.f 12).1).flags
            (actualLengthOf c (decodeResBlock (fread st.f 12).1))
            (byteOffsetOf c (decodeResBlock (fread st.f 12).1))] }
        (decodeResBlock (fread st.f 12).1) with
      | error e => exact ⟨_, rfl, fun st2 h => by cases h⟩
      | ok st2 =>
        have hb2 := resolveName_byteCounter _ _ _ _ hn
        dsimp only
        obtain ⟨r, hr, hrb⟩ := dumpStep_total c k i st2 (decodeResBlock (fread st.f 12).1)
        rw [hr]
        cases r with
        | error e => exact ⟨_, rfl, fun st2 h => by cases h⟩
        | ok st3 =>
          dsimp only
          have hb3 := hrb st3 rfl
          obtain ⟨r4, h4, hb4⟩ := ih (i + 1) st3
          refine ⟨r4, h4, fun st4 h => ?_⟩
          have := hb4 st4 h
          rw [hb3, hb2] at this
          have h12 : st.byteCounter ≤ st.byteCounter + 12 := by omega
          exact le_trans h12 this

/-- The loop over the type blocks returns when its fuel is at least `maxBytes - byteCounter`. -/
theorem typeLoop_total (c : Ctx) : ∀ (fuel k : Nat) (st : State),
    c.maxBytes - st.byteCounter ≤ fuel → ∃ r, typeLoop c fuel k st = some r := by
  intro fuel
  induction fuel with
  | zero =>
    intro k st h
    rw [typeLoop, if_neg (by omega)]
    exact ⟨_, rfl⟩
  | succ fuel ih =>
    intro k st h
    rw [typeLoop]
    by_cases hlt : st.byteCounter < c.maxBytes
    · rw [if_pos hlt]
      dsimp only
      by_cases hl : (fread st.f 8).1.length ≠ 8
      · rw [if_pos hl]; exact ⟨_, rfl⟩
      · rw [if_neg hl]
        by_cases hz : (decodeTypeBlock (fread st.f 8).1).typeID = 0
        · rw [if_pos hz]; exact ⟨_, rfl⟩
        · rw [if_neg hz]
          cases ht : resolveType c { st with f := (fread st.f 8).2 }
            (decodeTypeBlock (fread st.f 8).1) with
          | error e => exact ⟨_, rfl⟩
          | ok st2 =>
            have hb2 := resolveType_byteCounter _ _ _ _ ht
            dsimp only
            obtain ⟨r, hr, hrb⟩ := resLoop_total c k (decodeTypeBlock (fread st.f 8).1).resCount 0
              { st2 with
                byteCounter := st2.byteCounter + 8,
                counters := st2.counters ++ [st2.byteCounter + 8],
                log := st2.log ++ [Event.resCount (decodeTypeBlock (fread st.f 8).1).resCount] }
            rw [hr]
            cases r with
            | error e => exact ⟨_, rfl⟩
            | ok st4 =>
              dsimp only
              have hb4 : st2.byteCounter + 8 ≤ st4.byteCounter := hrb st4 rfl
              have hb2b : st2.byteCounter = st.byteCounter := hb2
              exact ih (k + 1) st4 (by push_cast at h; omega)
    · rw [if_neg hlt]; exact ⟨_, rfl⟩

/-- The program always returns: the fuel that `main` passes to the walk suffices. -/
theorem main_total (env : Env) (outPrefix : List Byte) (dump useNames : Bool)
    (data : List Byte) : ∃ r, main env outPrefix dump useNames data = some r := by
  unfold main
  cases hp : prelude env outPrefix dump useNames data with
  | error e => exact ⟨_, rfl⟩
  | ok cs =>
    obtain ⟨c, st⟩ := cs
    dsimp only
    have hbc := (prelude_ok _ _ _ _ _ _ _ hp).2.1
    exact typeLoop_total c _ 0 st (by rw [hbc]; omega)

/-! ## Short reads during the walk of a table -/

theorem resolveName_error_status (c : Ctx) (st : State) (rb : ResBlock) (e : Exit)
    (h : resolveName c st rb = .error e) : e.status = 1 := by
  unfold resolveName at h
  split at h
  · dsimp only at h
    split at h
    · cases h; rfl
    · cases h
  · cases h

theorem resolveType_error_status (c : Ctx) (st : State) (tb : TypeBlock) (e : Exit)
    (h : resolveType c st tb = .error e) : e.status = 1 := by
  unfold resolveType at h
  split at h
  · dsimp only at h
    split at h
    · cases h; rfl
    · cases h
  · cases h

theorem dumpStep_error_status (c : Ctx) (k i : Nat) (st : State) (rb : ResBlock) (e : Exit)
    (h : dumpStep c k i st rb = some (.error e)) : e.status = 1 := by
  unfold dumpStep at h
  split at h
  · cases h
  · dsimp only at h
    split at h
    · cases h
    · split at h
      · cases h; rfl
      · cases h

theorem fread_short (f : FILE) (tail : List Byte) (n : Nat)
    (h : f.data.drop f.pos = tail) (hn : tail.length < n) : (fread f n).1.length ≠ n := by
  rw [fread_fst, h, List.length_take]
  omega

theorem resLoop_short (c : Ctx) (k : Nat) : ∀ (rbs : List (List Byte)) (m i : Nat) (st : State)
    (tail : List Byte), (∀ rb ∈ rbs, rb.length = 12) →
    st.f.data.drop st.f.pos = rbs.flatten ++ tail → tail.length < 12 →
    st.f.pos + 12 * rbs.length < 4294967296 →
    ∃ e, resLoop c k (rbs.length + (m + 1)) i st = some (.error e) ∧ e.status = 1 ∧
      (e.err = some Err.stringName ∨ e.err = some Err.dumpFailed ∨
        (e.err = some Err.readResBlock ∧
          countResources e.log = countResources st.log + rbs.length ∧
          reportedTypes e.log = reportedTypes st.log)) := by
  intro rbs
  induction rbs with
  | nil =>
    intro m i st tail _ hdata htail _
    rw [List.flatten_nil, List.nil_append] at hdata
    rw [List.length_nil, Nat.zero_add, resLoop]
    dsimp only
    rw [if_pos (fread_short _ _ _ hdata htail)]
    exact ⟨_, rfl, rfl, Or.inr (Or.inr ⟨rfl, rfl, rfl⟩)⟩
  | cons rb rbs ih =>
    intro m i st tail hlen hdata htail hpos
    have hrb : rb.length = 12 := hlen rb (List.mem_cons_self _ _)
    have hrest : ∀ x ∈ rbs, x.length = 12 := fun x hx => hlen x (List.mem_cons_of_mem _ hx)
    rw [List.flatten_cons, List.append_assoc] at hdata
    obtain ⟨hread, hdrop⟩ := fread_of_drop st.f rb (rbs.flatten ++ tail) hdata
    rw [hrb] at hread hdrop
    rw [List.length_cons] at hpos
    have hn : (rb :: rbs).length + (m + 1) = (rbs.length + (m + 1)) + 1 := by
      rw [List.length_cons]; omega
    rw [hn, resLoop]
    dsimp only
    rw [hread]
    dsimp only
    rw [if_neg (by omega)]
    rcases resolveName_frame c
      { st with
        f := ⟨st.f.data, st.f.pos + 12⟩, byteCounter := st.byteCounter + 12,
        counters := st.counters ++ [st.byteCounter + 12],
        log := st.log ++ [Event.resource k i (decodeResBlock rb).flags
          (actualLengthOf c (decodeResBlock rb)) (byteOffsetOf c (decodeResBlock rb))] }
      (decodeResBlock rb) (by show st.f.pos + 12 < 4294967296; omega) with
      ⟨e, he, herr⟩ | ⟨st2, h2, hf2, hb2, hc2, ht2⟩
    · rw [he]
      exact ⟨e, rfl, resolveName_error_status _ _ _ _ he, Or.inl herr⟩
    · rw [h2]
      dsimp only
      dsimp only at hf2 hb2 hc2 ht2
      rcases dumpStep_frame c k i st2 (decodeResBlock rb)
        (by rw [hf2]; show st.f.pos + 12 < 4294967296; omega) with
        ⟨e, he, herr⟩ | ⟨st3, h3, hf3, hb3, hc3, ht3⟩
      · rw [he]
        exact ⟨e, rfl, dumpStep_error_status _ _ _ _ _ _ he, Or.inr (Or.inl herr)⟩
      · rw [h3]
        dsimp only
        have hf : st3.f = ⟨st.f.data, st.f.pos + 12⟩ := by rw [hf3, hf2]
        obtain ⟨e, he, hst, herr⟩ := ih m (i + 1) st3 tail hrest (by rw [hf]; exact hdrop) htail
          (by rw [hf]; show st.f.pos + 12 + 12 * rbs.length < 4294967296; omega)
        refine ⟨e, he, hst, ?_⟩
        rcases herr with h | h | ⟨h, hc, ht⟩
        · exact Or.inl h
        · exact Or.inr (Or.inl h)
        · refine Or.inr (Or.inr ⟨h, ?_, ?_⟩)
          · rw [hc, hc3, hc2, countResources_append, List.length_cons]
            show countResources st.log + 1 + rbs.length = _
            omega
          · rw [ht, ht3, ht2, reportedTypes_append]
            exact List.append_nil _

/-- C8: when the part of `main` before the walk has succeeded, the walk has read the type blocks
`tbl` with all their resource blocks inside the byte budget, and no name lookup or extraction
fails, then (1) if fewer than 8 bytes are left for the next type block, the run ends with status
1 and the read error of the type block, having visited exactly the resources of `tbl`; and
(2) if a further type block `tb` with a non-zero identifier is followed by the resource blocks
`rbs`, fewer than its `resCount`, and then by fewer than 12 bytes, the run ends with status 1
and the read error of the resource block, having visited exactly the resources of `tbl` and
`rbs`. -/
theorem short_read_is_fatal (env : Env) (outPrefix : List Byte) (dump useNames : Bool)
    (data : List Byte) (c : Ctx) (st : State) (tbl : List (List Byte × List (List Byte)))
    (hpre : prelude env outPrefix dump useNames data = .ok (c, st))
    (htbl : ∀ t ∈ tbl, GroupOk t)
    (hbudget : 2 + ((tableBytes tbl).length : Int) < c.maxBytes)
    (hrun : ∀ r, main env outPrefix dump useNames data = some r →
      r.err ≠ some Err.stringType ∧ r.err ≠ some Err.stringName ∧
      r.err ≠ some Err.dumpFailed) :
    (∀ tail : List Byte, data.drop st.f.pos = tableBytes tbl ++ tail → tail.length < 8 →
      ∃ r, main env outPrefix dump useNames data = some r ∧ r.status = 1 ∧
        r.err = some Err.readTypeBlock ∧ countResources r.log = tableResources tbl ∧
        reportedTypes r.log = []) ∧
    (∀ (tb : List Byte) (rbs : List (List Byte)) (tail : List Byte),
      tb.length = 8 → u16 tb 0 ≠ 0 → rbs.length < u16 tb 2 → (∀ rb ∈ rbs, rb.length = 12) →
      data.drop st.f.pos = tableBytes tbl ++ (tb ++ (rbs.flatten ++ tail)) → tail.length < 12 →
      ∃ r, main env outPrefix dump useNames data = some r ∧ r.status = 1 ∧
        r.err = some Err.readResBlock ∧
        countResources r.log = tableResources tbl + rbs.length ∧ reportedTypes r.log = []) := by
  obtain ⟨hd, hbc, hp, _, _, hmax, hcr, hrt, _⟩ := prelude_ok _ _ _ _ _ _ _ hpre
  rw [main_of_prelude _ _ _ _ _ _ _ hpre] at hrun ⊢
  have hbad : ∀ e : Exit, typeLoop c c.maxBytes.toNat 0 st = some e →
      (e.err = some Err.stringType ∨ e.err = some Err.stringName ∨
        e.err = some Err.dumpFailed) → False := by
    intro e he herr
    have := hrun e he
    rcases herr with h | h | h
    · exact this.1 h
    · exact this.2.1 h
    · exact this.2.2 h
  constructor
  · intro tail hdata htail
    rcases typeLoop_table c tbl c.maxBytes.toNat 0 st tail htbl
      (by rw [hd]; exact hdata) (by omega) (by rw [hbc]; omega) (by rw [hbc]; omega) with
      ⟨e, he, herr⟩ | ⟨st2, fuel2, h2, hfuel2, hf2, hb2, hc2, ht2⟩
    · exact absurd herr (fun h => hbad e he h)
    · rw [h2]
      have hlt : st2.byteCounter < c.maxBytes := by rw [hb2, hbc]; omega
      obtain ⟨fuel3, rfl⟩ : ∃ n, fuel2 = n + 1 := ⟨fuel2 - 1, by omega⟩
      have hdrop2 : st2.f.data.drop st2.f.pos = tail := by
        rw [hf2]
        show st.f.data.drop (st.f.pos + (tableBytes tbl).length) = _
        rw [← List.drop_drop, hd, hdata]; exact List.drop_left' rfl
      rw [typeLoop, if_pos hlt]
      dsimp only
      rw [if_pos (fread_short _ _ _ hdrop2 htail)]
      refine ⟨_, rfl, rfl, rfl, ?_, ?_⟩
      · show countResources st2.log = _
        rw [hc2, hcr]; omega
      · show reportedTypes st2.log = _
        rw [ht2, hrt]
  · intro tb rbs tail h8 hid hcount h12 hdata htail
    have hu := u16_lt tb 2
    rcases typeLoop_table c tbl c.maxBytes.toNat 0 st (tb ++ (rbs.flatten ++ tail)) htbl
      (by rw [hd]; exact hdata) (by omega) (by rw [hbc]; omega) (by rw [hbc]; omega) with
      ⟨e, he, herr⟩ | ⟨st2, fuel2, h2, hfuel2, hf2, hb2, hc2, ht2⟩
    · exact absurd herr (fun h => hbad e he h)
    · rw [h2] at hrun hbad ⊢
      have hlt : st2.byteCounter < c.maxBytes := by rw [hb2, hbc]; omega
      obtain ⟨fuel3, rfl⟩ : ∃ n, fuel2 = n + 1 := ⟨fuel2 - 1, by omega⟩
      have hdrop2 : st2.f.data.drop st2.f.pos = tb ++ (rbs.flatten ++ tail) := by
        rw [hf2]
        show st.f.data.drop (st.f.pos + (tableBytes tbl).length) = _
        rw [← List.drop_drop, hd, hdata]; exact List.drop_left' rfl
      obtain ⟨hread, hdrop3⟩ := fread_of_drop st2.f tb _ hdrop2
      rw [h8] at hread hdrop3
      have hpos2 : st2.f.pos = st.f.pos + (tableBytes tbl).length := by rw [hf2]
      rw [typeLoop, if_pos hlt] at hbad ⊢
      dsimp only at hbad ⊢
      rw [hread] at hbad ⊢
      dsimp only at hbad ⊢
      rw [if_neg (by omega), if_neg (by exact hid)] at hbad ⊢
      rcases resolveType_frame c { st2 with f := ⟨st2.f.data, st2.f.pos + 8⟩ }
        (decodeTypeBlock tb) (by show st2.f.pos + 8 < 4294967296; omega) with
        ⟨e, he, herr⟩ | ⟨st3, h3, hf3, hb3, hc3, ht3⟩
      · rw [he] at hbad
        exact absurd (Or.inl herr) (fun h => hbad e rfl h)
      · rw [h3] at hbad ⊢
        dsimp only at hbad ⊢
        dsimp only at hf3 hb3 hc3 ht3
        have hrc : (decodeTypeBlock tb).resCount =
            rbs.length + ((u16 tb 2 - rbs.length - 1) + 1) := by
          show u16 tb 2 = _
          omega
        rw [hrc] at hbad ⊢
        obtain ⟨e, he, hst, herr⟩ := resLoop_short c (0 + tbl.length) rbs
          (u16 tb 2 - rbs.length - 1) 0
          { st3 with
            byteCounter := st3.byteCounter + 8, counters := st3.counters ++ [st3.byteCounter + 8],
            log := st3.log ++ [Event.resCount
              (rbs.length + ((u16 tb 2 - rbs.length - 1) + 1))] }
          tail h12 (by show st3.f.data.drop st3.f.pos = _; rw [hf3]; exact hdrop3) htail
          (by show st3.f.pos + 12 * rbs.length < 4294967296; rw [hf3]
              show st2.f.pos + 8 + 12 * rbs.length < 4294967296; omega)
        rw [he] at hbad ⊢
        dsimp only at hbad ⊢
        rcases herr with h | h | ⟨h, hc, ht⟩
        · exact absurd (Or.inr (Or.inl h)) (fun h => hbad e rfl h)
        · exact absurd (Or.inr (Or.inr h)) (fun h => hbad e rfl h)
        · refine ⟨e, rfl, hst, h, ?_, ?_⟩
          · rw [hc]
            show countResources (st3.log ++ _) + rbs.length = _
            rw [countResources_append, hc3, hc2, hcr]
            show 0 + tableResources tbl + 0 + rbs.length = _
            omega
          · rw [ht]
            show reportedTypes (st3.log ++ _) = _
            rw [reportedTypes_append, ht3, ht2, hrt]
            rfl

theorem sampleCut_run :
    main envOk [] false false sampleCut =
      some ⟨1, some Err.readResBlock,
        [Event.extHeader 64, Event.resTable 128 0, Event.resNameTable 228 100,
          Event.shiftCounts 9 0, Event.typeBuiltin 1 "cursor", Event.resCount 1],
        [], [2, 10]⟩ := by
  decide

theorem short_read_is_fatal_witness :
    ∃ r, main envOk [] false false sampleCut = some r ∧ r.status = 1 ∧
      r.err = some Err.readResBlock ∧
      countResources r.log = tableResources [] + ([] : List (List Byte)).length ∧
      reportedTypes r.log = [] :=
  (short_read_is_fatal envOk [] false false sampleCut
    ⟨envOk, [], false, false, 128, 100, 9, 0⟩
    ⟨⟨sampleCut, 130⟩, 2, List.replicate 257 0, List.replicate 257 0,
      [Event.extHeader 64, Event.resTable 128 0, Event.resNameTable 228 100,
        Event.shiftCounts 9 0], [], [2]⟩
    [] rfl (by decide) (by decide)
    (fun r h => by rw [sampleCut_run] at h; cases h; decide)).2
    [1, 0x80, 1, 0, 0, 0, 0, 0] [] [1, 0, 1, 0, 0, 0, 7]
    (by decide) (by decide) (by decide) (by decide) (by decide) (by decide)

/-! ## The copy loop -/

theorem take_length_eq {α : Type} (l : List α) (n : Nat) (h : (l.take n).length = n) :
    n ≤ l.length := by
  rw [List.length_take] at h; omega

/-- When the copy loop runs to its end, it has appended the next `bytesLeft` bytes of the input
to the output, and the input stream stands behind them. -/
theorem copyBlocks_spec (env : Env) (fuel : Nat) : ∀ (bytesLeft : Int) (fin : FILE)
    (out : List Byte) (c : Copy), 0 ≤ bytesLeft →
    copyBlocks env fuel bytesLeft fin out = some c → c.ret = 0 →
    c.out = out ++ (fin.data.drop fin.pos).take bytesLeft.toNat ∧
    ((fin.data.drop fin.pos).take bytesLeft.toNat).length = bytesLeft.toNat ∧
    c.fin = ⟨fin.data, fin.pos + bytesLeft.toNat⟩ := by
  induction fuel with
  | zero =>
    intro b fin out c hb h hret
    unfold copyBlocks at h
    split at h
    · cases h
    · cases h
      have hb0 : b.toNat = 0 := by omega
      rw [hb0]
      exact ⟨by simp, by simp, rfl⟩
  | succ n ih =>
    intro b fin out c hb h hret
    unfold copyBlocks at h
    split at h
    · rename_i hpos
      dsimp only at h
      obtain ⟨hc1, hc2⟩ := blockCount_pos b hpos
      split at h
      · cases h; simp at hret
      · rename_i hread
        split at h
        · cases h; simp at hret
        · rename_i hwrite
          have hread2 : (fread fin (blockCount b).toNat).1.length = (blockCount b).toNat := by
            have := not_not.mp hread
            omega
          have hwrite2 : ((fread fin (blockCount b).toNat).1.take
              (env.capacity - out.length)).length = (blockCount b).toNat := by
            have := not_not.mp hwrite
            omega
          have hw : (fread fin (blockCount b).toNat).1.take (env.capacity - out.length) =
              (fread fin (blockCount b).toNat).1 := by
            apply List.take_of_length_le
            rw [List.length_take] at hwrite2
            omega
          rw [hw] at h
          obtain ⟨ho, hl, hf⟩ := ih _ _ _ _ (by omega) h hret
          have hpos2 : (fread fin (blockCount b).toNat).2.pos = fin.pos + (blockCount b).toNat := by
            rw [fread_pos, hread2]
          have hsplit : b.toNat = (blockCount b).toNat + (b - blockCount b).toNat := by omega
          rw [fread_data, hpos2] at ho hl hf
          rw [fread_fst] at ho hread2
          have hdd : List.drop (fin.pos + (blockCount b).toNat) fin.data =
              List.drop (blockCount b).toNat (List.drop fin.pos fin.data) := by
            rw [List.drop_drop]
          rw [hdd] at ho hl
          refine ⟨?_, ?_, ?_⟩
          · rw [ho, hsplit, List.take_add, List.append_assoc]
          · rw [hsplit, List.take_add, List.length_append, hread2]
            congr 1
          · rw [hf]; congr 1; omega
    · rename_i hneg
      cases h
      have hb0 : b.toNat = 0 := by omega
      rw [hb0]
      exact ⟨by simp, by simp, rfl⟩

/-- A successful call of `dumpResource` with a byte count below `2 ^ 31` has handed exactly
the `byteCount` bytes at `offset` of the input to the output stream, and the output file holds
them as far as it stores them. -/
theorem dumpResource_copies (env : Env) (fin : FILE) (offset byteCount : Nat)
    (filename : List Byte) (d : Dump) (hlt : byteCount < 2147483648)
    (h : dumpResource env fin offset byteCount filename = some d) (hret : d.ret = 0) :
    d.out = some (((fin.data.drop offset).take byteCount).take env.stored) ∧
    ((fin.data.drop offset).take byteCount).length = byteCount := by
  have hb : toInt32 (byteCount : Int) = (byteCount : Int) :=
    toInt32_of_lt _ (by omega) (by omega)
  unfold dumpResource at h
  split at h
  · cases h; simp at hret
  · dsimp only at h
    rw [fseek_nonneg fin (offset : Int) (by omega), hb] at h
    dsimp only at h
    split at h
    · cases h
    · rename_i c hc
      have hspec := copyBlocks_spec _ _ _ _ _ _ (by omega) hc
      split at h
      · cases h; simp at hret
      · rename_i hr
        obtain ⟨ho, hl, _⟩ := hspec (not_not.mp hr)
        simp only [Int.toNat_ofNat, List.nil_append] at ho hl
        split at h
        · cases h; simp at hret
        · cases h
          exact ⟨by rw [ho], hl⟩

/-! ## Decimal numbers in file names -/

theorem digitChar_byte (d : Nat) (h : d < 10) :
    byteOfNat (Nat.digitChar d).toNat = byteOfNat (48 + d) := by
  interval_cases d <;> rfl

theorem toDigitsCore_eq_decimalAux : ∀ (f1 : Nat) (n : Nat) (acc : List Char) (f2 : Nat),
    n < 10 ^ (f1 + 1) → n < f2 →
    (Nat.toDigitsCore 10 f2 n acc).map (fun ch => byteOfNat ch.toNat) =
      decimalAux (f1 + 1) n (acc.map (fun ch => byteOfNat ch.toNat)) := by
  intro f1
  induction f1 with
  | zero =>
    intro n acc f2 h1 h2
    obtain ⟨g, rfl⟩ : ∃ g, f2 = g + 1 := ⟨f2 - 1, by omega⟩
    have hn : n / 10 = 0 := by omega
    rw [Nat.toDigitsCore, decimalAux]
    simp only [hn, if_true, List.map_cons]
    rw [digitChar_byte _ (Nat.mod_lt _ (by decide))]
  | succ f1 ih =>
    intro n acc f2 h1 h2
    obtain ⟨g, rfl⟩ : ∃ g, f2 = g + 1 := ⟨f2 - 1, by omega⟩
    rw [Nat.toDigitsCore, decimalAux]
    by_cases hn : n / 10 = 0
    · simp only [hn, if_true, List.map_cons]
      rw [digitChar_byte _ (Nat.mod_lt _ (by decide))]
    · simp only [hn, if_false]
      have h3 : n / 10 < 10 ^ (f1 + 1) := by
        rw [Nat.div_lt_iff_lt_mul (by decide)]
        calc n < 10 ^ (f1 + 1 + 1) := h1
          _ = 10 ^ (f1 + 1) * 10 := by rw [pow_succ]
      have h4 : n / 10 < g := by omega
      rw [ih (n / 10) _ g h3 h4, List.map_cons, digitChar_byte _ (Nat.mod_lt _ (by decide))]

/-- The conversion `%05u` of the embedding agrees with the decimal digits of Lean, zero-padded
to 5 digits, on every unsigned 32-bit value. -/
theorem fmt05u_eq_pad5 (n : Nat) (h : n < 4294967296) : fmt05u n = pad5 n := by
  unfold fmt05u pad5 Nat.toDigits
  have := toDigitsCore_eq_decimalAux 9 n [] (n + 1) (by omega) (by omega)
  rw [this]
  rfl

theorem digitsValue_append_singleton (ds : List Byte) (d : Byte) :
    digitsValue (ds ++ [d]) = 10 * digitsValue ds + (d.val - 48) := by
  unfold digitsValue
  rw [List.foldl_append]
  rfl

theorem byteOfNat_digit (d : Nat) (h : d < 10) : (byteOfNat (48 + d)).val = 48 + d := by
  unfold byteOfNat
  show (48 + d) % 256 = 48 + d
  omega

/-- The digits `decimalAux` produces in front of its accumulator. -/
theorem decimalAux_spec : ∀ (f : Nat) (n : Nat) (acc : List Byte), n < 10 ^ (f + 1) →
    ∃ ds, decimalAux (f + 1) n acc = ds ++ acc ∧ (∀ d ∈ ds, IsDigit d) ∧
      digitsValue ds = n ∧ 1 ≤ ds.length ∧ ds.length ≤ f + 1 := by
  intro f
  induction f with
  | zero =>
    intro n acc h
    have hn : n / 10 = 0 := by omega
    rw [decimalAux, if_pos hn]
    have hv := byteOfNat_digit (n % 10) (Nat.mod_lt _ (by decide))
    refine ⟨[byteOfNat (48 + n % 10)], rfl, ?_, ?_, by simp, by simp⟩
    · intro d hd
      rw [List.mem_singleton] at hd
      subst hd
      unfold IsDigit; omega
    · show 10 * 0 + ((byteOfNat (48 + n % 10)).val - 48) = n
      omega
  | succ f ih =>
    intro n acc h
    have hv := byteOfNat_digit (n % 10) (Nat.mod_lt _ (by decide))
    rw [decimalAux]
    by_cases hn : n / 10 = 0
    · rw [if_pos hn]
      refine ⟨[byteOfNat (48 + n % 10)], rfl, ?_, ?_, by simp, by simp⟩
      · intro d hd
        rw [List.mem_singleton] at hd
        subst hd
        unfold IsDigit; omega
      · show 10 * 0 + ((byteOfNat (48 + n % 10)).val - 48) = n
        omega
    · rw [if_neg hn]
      have h3 : n / 10 < 10 ^ (f + 1) := by
        rw [Nat.div_lt_iff_lt_mul (by decide)]
        calc n < 10 ^ (f + 1 + 1) := h
          _ = 10 ^ (f + 1) * 10 := by rw [pow_succ]
      obtain ⟨ds, hds, hdig, hval, hl1, hl2⟩ := ih (n / 10) (byteOfNat (48 + n % 10) :: acc) h3
      refine ⟨ds ++ [byteOfNat (48 + n % 10)], ?_, ?_, ?_, ?_, ?_⟩
      · rw [hds]; simp
      · intro d hd
        rw [List.mem_append, List.mem_singleton] at hd
        rcases hd with hd | hd
        · exact hdig d hd
        · subst hd; unfold IsDigit; omega
      · rw [digitsValue_append_singleton, hval]
        omega
      · rw [List.length_append]; simp
      · rw [List.length_append]; simp; omega

theorem digitsValue_replicate_zero (k : Nat) (ds : List Byte) :
    digitsValue (List.replicate k 48 ++ ds) = digitsValue ds := by
  induction k with
  | zero => rfl
  | succ k ih =>
    rw [List.replicate_succ, List.cons_append]
    unfold digitsValue at ih ⊢
    rw [List.foldl_cons]
    exact ih

/-- What `%05u` prints for an unsigned 32-bit value: digits only, at least 5 and at most 10 of
them, that stand for the value. -/
theorem fmt05u_spec (n : Nat) (h : n < 4294967296) :
    (∀ d ∈ fmt05u n, IsDigit d) ∧ digitsValue (fmt05u n) = n ∧
    5 ≤ (fmt05u n).length ∧ (fmt05u n).length ≤ 10 := by
  obtain ⟨ds, hds, hdig, hval, hl1, hl2⟩ := decimalAux_spec 9 n [] (by omega)
  rw [List.append_nil] at hds
  unfold fmt05u
  rw [hds]
  dsimp only
  refine ⟨?_, ?_, ?_, ?_⟩
  · intro d hd
    rw [List.mem_append] at hd
    rcases hd with hd | hd
    · rw [List.mem_replicate] at hd
      rw [hd.2]; unfold IsDigit; decide
    · exact hdig d hd
  · rw [digitsValue_replicate_zero, hval]
  · rw [List.length_append, List.length_replicate]; omega
  · rw [List.length_append, List.length_replicate]; omega

theorem fmt05u_injective (n m : Nat) (hn : n < 4294967296) (hm : m < 4294967296)
    (h : fmt05u n = fmt05u m) : n = m := by
  have h1 := (fmt05u_spec n hn).2.1
  have h2 := (fmt05u_spec m hm).2.1
  rw [h] at h1
  omega

/-- The length of what `%05u` prints, whatever the value. -/
theorem decimalAux_length : ∀ (f n : Nat) (acc : List Byte),
    (decimalAux f n acc).length ≤ f + acc.length := by
  intro f
  induction f with
  | zero => intro n acc; rw [decimalAux]; omega
  | succ f ih =>
    intro n acc
    rw [decimalAux]
    split
    · rw [List.length_cons]; omega
    · have := ih (n / 10) (byteOfNat (48 + n % 10) :: acc)
      rw [List.length_cons] at this
      omega

theorem fmt05u_length_le (n : Nat) : (fmt05u n).length ≤ 10 := by
  unfold fmt05u
  have := decimalAux_length 10 n []
  dsimp only
  rw [List.length_append, List.length_replicate]
  simp only [List.length_nil] at this
  omega

/-! ## Buffers as C strings -/

theorem cstr_append_zero (s t : List Byte) : cstr (s ++ 0 :: t) = cstr s := by
  unfold cstr
  induction s with
  | nil => simp
  | cons a s ih =>
    rw [List.cons_append, List.takeWhile_cons, List.takeWhile_cons, ih]

theorem cstr_of_nonzero (s : List Byte) (h : ∀ b ∈ s, b ≠ 0) : cstr s = s := by
  unfold cstr
  induction s with
  | nil => rfl
  | cons a s ih =>
    rw [List.takeWhile_cons]
    have ha : a ≠ 0 := h a (List.mem_cons_self _ _)
    simp only [ne_eq, ha, not_false_eq_true, decide_True, if_true]
    rw [ih (fun b hb => h b (List.mem_cons_of_mem _ hb))]

theorem cstr_length_le (s : List Byte) : (cstr s).length ≤ s.length := by
  unfold cstr
  exact (List.takeWhile_sublist _).length_le

theorem cstr_putStr (buf s : List Byte) : cstr (putStr buf s) = cstr s := by
  unfold putStr; exact cstr_append_zero _ _

theorem isDigit_ne_zero (d : Byte) (h : IsDigit d) : d ≠ 0 := by
  intro h0
  subst h0
  unfold IsDigit at h
  simp at h

theorem and_7FFF (n : Nat) : n &&& 0x7FFF = n % 32768 := by
  have h : (0x7FFF : Nat) = 2 ^ 15 - 1 := by norm_num
  rw [h, Nat.and_pow_two_sub_one_eq_mod]

/-! ## The table of built-in types -/

theorem resourceTypes_length : resourceTypes.length = 25 := rfl

theorem getResourceTypeExt_cases (t : Nat) :
    getResourceTypeExt t = "bin" ∨ ∃ p ∈ resourceTypes, getResourceTypeExt t = p.2 := by
  unfold getResourceTypeExt
  dsimp only
  split
  · exact Or.inl rfl
  · rename_i h
    have hlt : (t &&& 0x7FFF) < resourceTypes.length := by
      rw [resourceTypes_length]; omega
    refine Or.inr ⟨resourceTypes[t &&& 0x7FFF], List.getElem_mem _, ?_⟩
    rw [List.getD_eq_getElem _ _ hlt]

theorem resourceTypes_ext_ok :
    ∀ p ∈ resourceTypes, (∀ b ∈ ascii p.2, b ≠ 0) ∧ (ascii p.2).length ≤ 14 := by
  decide!

theorem getResourceTypeExt_ok (t : Nat) :
    (∀ b ∈ ascii (getResourceTypeExt t), b ≠ 0) ∧ (ascii (getResourceTypeExt t)).length ≤ 14 := by
  rcases getResourceTypeExt_cases t with h | ⟨p, hp, h⟩
  · rw [h]; exact ⟨by decide!, by decide!⟩
  · rw [h]; exact resourceTypes_ext_ok p hp

theorem getOffsetString_success_offset (f : FILE) (p : Int) (buf : List Byte)
    (h : (getOffsetString f p buf).ret = 0) : 0 ≤ p := by
  by_contra hp
  unfold getOffsetString at h
  rw [fseek_neg f p (by omega)] at h
  simp at h

theorem getOffsetString_buf_of_success (f : FILE) (p : Int) (buf : List Byte) (N : Byte)
    (s rest : List Byte) (hd : f.data.drop p.toNat = N :: (s ++ rest)) (hs : s.length = N.val)
    (h : (getOffsetString f p buf).ret = 0) :
    (getOffsetString f p buf).buf = s ++ 0 :: buf.drop (N.val + 1) := by
  rw [getOffsetString_ok_of_nonneg f p buf N s rest (getOffsetString_success_offset f p buf h)
    hd hs (getOffsetString_success f p buf h).1]

/-! ## Output file names: the policy -/

theorem ascii_dash : ascii "-" = [45] := by decide

theorem ascii_dot_bin : ascii ".bin" = [46, 98, 105, 110] := by decide

theorem dumpFilename_index (c : Ctx) (k i : Nat) (nb tb : List Byte)
    (hu : c.useNames = false) :
    dumpFilename c k i nb tb =
      c.outPrefix ++ (fmt05u k ++ 45 :: (fmt05u i ++ [46, 98, 105, 110])) := by
  unfold dumpFilename
  rw [if_pos hu, ascii_dash, ascii_dot_bin]
  simp

/-- Without `-usenames`, two output file names for unsigned 32-bit indices are equal only if
the type indices are equal and the resource indices are equal. -/
theorem dumpFilename_index_inj (c : Ctx) (k i k2 i2 : Nat)
    (nameBuf typeBuf nameBuf2 typeBuf2 : List Byte) (hu : c.useNames = false)
    (hk : k < 4294967296) (hi : i < 4294967296) (hk2 : k2 < 4294967296)
    (hi2 : i2 < 4294967296) :
    dumpFilename c k i nameBuf typeBuf = dumpFilename c k2 i2 nameBuf2 typeBuf2 ↔
      k = k2 ∧ i = i2 := by
  rw [dumpFilename_index c k i _ _ hu, dumpFilename_index c k2 i2 _ _ hu]
  constructor
  · intro h
    have hd : ∀ n, n < 4294967296 → (45 : Byte) ∉ fmt05u n := by
      intro n hn hmem
      have := (fmt05u_spec n hn).1 45 hmem
      unfold IsDigit at this
      exact absurd this.1 (by decide)
    obtain ⟨e1, e2⟩ := append_cons_inj 45 _ _ _ _ (hd k hk) (hd k2 hk2)
      (List.append_cancel_left h)
    exact ⟨fmt05u_injective k k2 hk hk2 e1,
      fmt05u_injective i i2 hi hi2 (List.append_cancel_right e2)⟩
  · rintro ⟨e1, e2⟩
    rw [e1, e2]

theorem fmt05u_nonzero (n : Nat) : ∀ b ∈ fmt05u (n &&& 0x7FFF), b ≠ 0 := by
  intro b hb
  have hlt : n &&& 0x7FFF < 4294967296 := by rw [and_7FFF]; omega
  exact isDigit_ne_zero b ((fmt05u_spec _ hlt).1 b hb)

theorem dumpResource_out_of_success (env : Env) (fin : FILE) (offset byteCount : Nat)
    (filename : List Byte) (d : Dump)
    (h : dumpResource env fin offset byteCount filename = some d) (hret : d.ret = 0) :
    ∃ out, d.out = some out := by
  unfold dumpResource at h
  split at h
  · cases h; simp at hret
  · dsimp only at h
    rw [fseek_nonneg fin (offset : Int) (by omega)] at h
    dsimp only at h
    split at h
    · cases h
    · split at h
      · cases h; simp at hret
      · split at h
        · cases h; simp at hret
        · cases h; exact ⟨_, rfl⟩

theorem numeric_id_name_sample :
    (0x8007 : Nat) &&& 0x8000 ≠ 0 ∧ (0x8007 : Nat) &&& 0x7FFF = 7 ∧ pad5 7 = ascii "00007" := by
  decide

/-! ## The table of built-in types: the two fallbacks -/

theorem getResourceType_of_ge (t : Nat) (h : 25 ≤ t % 32768) :
    getResourceTypeStr t = "unknown" ∧ getResourceTypeExt t = "bin" := by
  unfold getResourceTypeStr getResourceTypeExt
  dsimp only
  rw [and_7FFF, if_pos h, if_pos h]
  exact ⟨rfl, rfl⟩

theorem getResourceType_of_lt (t : Nat) (h : t % 32768 < 25) :
    getResourceTypeStr t = (resourceTypes.getD (t % 32768) ("", "")).1 ∧
    getResourceTypeExt t = (resourceTypes.getD (t % 32768) ("", "")).2 := by
  unfold getResourceTypeStr getResourceTypeExt
  dsimp only
  rw [and_7FFF, if_neg (by omega), if_neg (by omega)]
  exact ⟨rfl, rfl⟩

theorem placeholder_entries :
    ∀ id ∈ placeholderIndices, resourceTypes.getD id ("", "") = (unknownName id, "bin") := by
  decide

/-- C12 (as amended): for a type identifier whose index (the low 15 bits) is 25 or more,
`getResourceTypeStr` returns `unknown` and `getResourceTypeExt` returns `bin`; for every index
below 25 the two functions return the name and the extension of the table entry at that index,
which for the placeholder entries 0, 14, 15 and 18 are `unknown(<index>)` and `bin`. -/
theorem builtin_type_lookup (t : Nat) :
    (25 ≤ t % 32768 → getResourceTypeStr t = "unknown" ∧ getResourceTypeExt t = "bin") ∧
    (t % 32768 < 25 →
      (getResourceTypeStr t, getResourceTypeExt t) = resourceTypes.getD (t % 32768) ("", "")) ∧
    (t % 32768 ∈ placeholderIndices →
      getResourceTypeStr t = unknownName (t % 32768) ∧ getResourceTypeExt t = "bin") := by
  refine ⟨getResourceType_of_ge t, ?_, ?_⟩
  · intro h
    obtain ⟨h1, h2⟩ := getResourceType_of_lt t h
    rw [h1, h2]
  · intro h
    have hlt : t % 32768 < 25 := by
      unfold placeholderIndices at h
      simp only [List.mem_cons, List.mem_singleton, List.not_mem_nil, or_false] at h
      omega
    obtain ⟨h1, h2⟩ := getResourceType_of_lt t hlt
    rw [h1, h2, placeholder_entries _ h]
    exact ⟨rfl, rfl⟩

/-- C12 (counterexample): the type identifier `0x800E` has the index 14, whose table entry is a
placeholder, and `getResourceTypeStr` returns `unknown(14)`, not `unknown`. -/
theorem placeholder_name_has_index :
    (0x800E : Nat) % 32768 ∈ placeholderIndices ∧
    getResourceTypeStr 0x800E = "unknown(14)" ∧ getResourceTypeStr 0x800E ≠ "unknown" := by
  decide

/-- C13 (as amended): for a type identifier whose index is one of the placeholder entries 0,
14, 15 and 18 of the table, the lookup yields the name `unknown(<index>)` and the extension
`bin`; for an index of 25 or more it yields the name `unknown`, without the index, and the
extension `bin`. -/
theorem builtin_type_fallback (t : Nat) :
    (t % 32768 ∈ placeholderIndices →
      getResourceTypeStr t = unknownName (t % 32768) ∧ getResourceTypeExt t = "bin") ∧
    (25 ≤ t % 32768 → getResourceTypeStr t = "unknown" ∧ getResourceTypeExt t = "bin") := by
  refine ⟨?_, getResourceType_of_ge t⟩
  intro h
  have hlt : t % 32768 < 25 := by
    unfold placeholderIndices at h
    simp only [List.mem_cons, List.mem_singleton, List.not_mem_nil, or_false] at h
    omega
  obtain ⟨h1, h2⟩ := getResourceType_of_lt t hlt
  rw [h1, h2, placeholder_entries _ h]
  exact ⟨rfl, rfl⟩

/-- C13 (counterexample): the type identifier `0x8019` has the index 25, out of the range of the
table, and `getResourceTypeStr` returns `unknown`, not `unknown(25)`. -/
theorem out_of_range_name_has_no_index :
    25 ≤ (0x8019 : Nat) % 32768 ∧ getResourceTypeStr 0x8019 = "unknown" ∧
    getResourceTypeStr 0x8019 ≠ unknownName 25 := by
  decide

/-! ## Buffer bounds of one step -/

theorem countTypeBlocks_append (l l2 : List Event) :
    countTypeBlocks (l ++ l2) = countTypeBlocks l + countTypeBlocks l2 := by
  unfold countTypeBlocks; rw [List.countP_append]

theorem getOffsetString_cstr_le (f : FILE) (p : Int) (buf : List Byte)
    (h : (getOffsetString f p buf).ret = 0) :
    (cstr (getOffsetString f p buf).buf).length ≤ 255 ∧
    (buf.length = 257 → (getOffsetString f p buf).buf.length = 257) := by
  revert h
  unfold getOffsetString
  by_cases hp : p < 0
  · rw [fseek_neg f p hp]; intro h; simp at h
  · rw [fseek_nonneg f p (by omega)]
    dsimp only
    split
    · rename_i length hl
      split
      · intro h; simp at h
      · rename_i hlen
        have hlen2 := not_not.mp hlen
        have hN := length.isLt
        by_cases h4 : toInt32 (ftell f) < 0
        · rw [fseek_neg _ _ h4]; intro h; simp at h
        · rw [fseek_nonneg _ _ (by omega)]
          intro _
          dsimp only
          constructor
          · rw [cstr_append_zero]
            have := cstr_length_le (fread (fread { f with pos := p.toNat } 1).2 length.val).1
            omega
          · intro hb
            rw [List.length_append, List.length_cons, List.length_drop, hlen2, hb]
            omega
    · intro h; simp at h

theorem ascii_quote : (ascii "'").length = 1 := by decide

theorem resolveName_inv (c : Ctx) (st : State) (rb : ResBlock) :
    (resolveName c st rb = .error (st.fail Err.stringName)) ∨
    (∃ st2 ev, resolveName c st rb = .ok st2 ∧ st2.log = st.log ++ [ev] ∧ EventFits ev ∧
      ev.isTypeBlock = false ∧ st2.typeBuf = st.typeBuf ∧ st2.byteCounter = st.byteCounter ∧
      st2.counters = st.counters ∧ (cstr st2.nameBuf).length ≤ 255) := by
  unfold resolveName
  by_cases hb : rb.resourceID &&& 0x8000 = 0
  · rw [if_pos hb]
    dsimp only
    by_cases hr : (getOffsetString st.f (toInt32 (rb.resourceID + c.resTableOffset))
        st.nameBuf).ret ≠ 0
    · rw [if_pos hr]; exact Or.inl rfl
    · rw [if_neg hr]
      have hc := (getOffsetString_cstr_le _ _ _ (not_not.mp hr)).1
      exact Or.inr ⟨_, _, rfl, rfl, by show _ + 1 ≤ 257; omega, rfl, rfl, rfl, rfl, hc⟩
  · rw [if_neg hb]
    refine Or.inr ⟨_, _, rfl, rfl, trivial, rfl, rfl, rfl, rfl, ?_⟩
    show (cstr (putStr st.nameBuf (fmt05u (rb.resourceID &&& 0x7FFF)))).length ≤ 255
    rw [cstr_putStr]
    have h1 := cstr_length_le (fmt05u (rb.resourceID &&& 0x7FFF))
    have h2 := fmt05u_length_le (rb.resourceID &&& 0x7FFF)
    omega

theorem resolveType_inv (c : Ctx) (st : State) (tb : TypeBlock) :
    (resolveType c st tb = .error (st.fail Err.stringType)) ∨
    (∃ st2 ev, resolveType c st tb = .ok st2 ∧ st2.log = st.log ++ [ev] ∧ EventFits ev ∧
      ev.isTypeBlock = false ∧ TypeBufOk st2 ∧ st2.byteCounter = st.byteCounter ∧
      st2.counters = st.counters) := by
  unfold resolveType
  by_cases hb : tb.typeID &&& 0x8000 = 0
  · rw [if_pos hb]
    dsimp only
    by_cases hr : (getOffsetString st.f (toInt32 (tb.typeID + c.resTableOffset))
        st.typeBuf).ret ≠ 0
    · rw [if_pos hr]; exact Or.inl rfl
    · rw [if_neg hr]
      have hc := (getOffsetString_cstr_le _ _ _ (not_not.mp hr)).1
      refine Or.inr ⟨_, _, rfl, rfl, ?_, rfl, hc, rfl, rfl⟩
      show (ascii "'" ++ _ ++ ascii "'").length + 1 ≤ 259
      rw [List.length_append, List.length_append, ascii_quote]
      omega
  · rw [if_neg hb]
    refine Or.inr ⟨_, _, rfl, rfl, trivial, rfl, ?_, rfl, rfl⟩
    show (cstr (putStr st.typeBuf (ascii (getResourceTypeExt tb.typeID)))).length ≤ 255
    rw [cstr_putStr]
    have h1 := cstr_length_le (ascii (getResourceTypeExt tb.typeID))
    have h2 := (getResourceTypeExt_ok tb.typeID).2
    omega

theorem dumpFilename_length (c : Ctx) (k i : Nat) (nb tb : List Byte)
    (hp : c.outPrefix.length ≤ 256) (hn : (cstr nb).length ≤ 255)
    (ht : (cstr tb).length ≤ 255) : (dumpFilename c k i nb tb).length ≤ 767 := by
  unfold dumpFilename
  split
  · rw [ascii_dash, ascii_dot_bin]
    have h1 := fmt05u_length_le k
    have h2 := fmt05u_length_le i
    simp only [List.length_append, List.length_cons, List.length_nil]
    omega
  · have hd : (ascii ".").length = 1 := by decide
    simp only [List.length_append, hd]
    omega

theorem dumpStep_inv (c : Ctx) (k i : Nat) (st : State) (rb : ResBlock)
    (hp : c.outPrefix.length ≤ 256) (hn : (cstr st.nameBuf).length ≤ 255)
    (ht : TypeBufOk st) :
    ∃ r, dumpStep c k i st rb = some r ∧
      (∃ evs, stepLog r = st.log ++ evs ∧ (∀ e ∈ evs, EventFits e) ∧
        countTypeBlocks evs = 0) ∧
      stepCounters r = st.counters ∧
      ∀ st2, r = .ok st2 → st2.typeBuf = st.typeBuf ∧ st2.byteCounter = st.byteCounter := by
  unfold dumpStep
  by_cases hd : c.dump = false
  · rw [if_pos hd]
    exact ⟨_, rfl, ⟨[], (List.append_nil _).symm, by simp, rfl⟩, rfl,
      fun st2 h => by cases h; exact ⟨rfl, rfl⟩⟩
  · rw [if_neg hd]
    dsimp only
    obtain ⟨d, hdump⟩ := dumpResource_total c.env st.f (byteOffsetOf c rb) (actualLengthOf c rb)
      (dumpFilename c k i st.nameBuf st.typeBuf)
    rw [hdump]
    dsimp only
    by_cases hr : d.ret ≠ 0
    · rw [if_pos hr]
      exact ⟨_, rfl, ⟨[], (List.append_nil _).symm, by simp, rfl⟩, rfl,
        fun st2 h => by cases h⟩
    · rw [if_neg hr]
      refine ⟨_, rfl, ⟨[Event.dumped (dumpFilename c k i st.nameBuf st.typeBuf)], rfl, ?_, rfl⟩,
        rfl, fun st2 h => by cases h; exact ⟨rfl, rfl⟩⟩
      intro e he
      rw [List.mem_singleton] at he
      subst he
      have := dumpFilename_length c k i st.nameBuf st.typeBuf hp hn ht
      show _ + 1 < 1024
      omega

/-! ## What the walk keeps -/

theorem dumpStep_error (c : Ctx) (k i : Nat) (st : State) (rb : ResBlock) (e : Exit)
    (h : dumpStep c k i st rb = some (.error e)) : e.err = some Err.dumpFailed := by
  revert h
  unfold dumpStep
  by_cases hd : c.dump = false
  · rw [if_pos hd]; intro h; cases h
  · rw [if_neg hd]
    dsimp only
    cases hdump : dumpResource c.env st.f (byteOffsetOf c rb) (actualLengthOf c rb)
      (dumpFilename c k i st.nameBuf st.typeBuf) with
    | none => intro h; cases h
    | some d =>
      dsimp only
      by_cases hr : d.ret ≠ 0
      · rw [if_pos hr]; intro h; cases h; rfl
      · rw [if_neg hr]; intro h; cases h

/-- What the loop over the resource blocks keeps: it returns, the lines it prints fit the
buffers and are not lines of a type block, the byte counter goes up by 12 for each block, and
`typeBuf` is not changed. -/
theorem resLoop_inv (c : Ctx) (k : Nat) (hp : c.outPrefix.length ≤ 256) :
    ∀ (n i : Nat) (st : State), TypeBufOk st →
    ∃ r, resLoop c k n i st = some r ∧
      (∃ evs, stepLog r = st.log ++ evs ∧ (∀ e ∈ evs, EventFits e) ∧
        countTypeBlocks evs = 0) ∧
      (∃ cs, stepCounters r = st.counters ++ cs ∧
        ∀ x ∈ cs, st.byteCounter ≤ x ∧ x ≤ st.byteCounter + 12 * n) ∧
      (∀ e, r = .error e → errReads e.err = 0 ∧ walkErr e.err = true) ∧
      ∀ st2, r = .ok st2 → TypeBufOk st2 ∧ st2.byteCounter = st.byteCounter + 12 * n := by
  intro n
  induction n with
  | zero =>
    intro i st ht
    exact ⟨_, rfl, ⟨[], (List.append_nil _).symm, by simp, rfl⟩,
      ⟨[], (List.append_nil _).symm, by simp⟩, fun e h => (by cases h),
      fun st2 h => by cases h; exact ⟨ht, by simp⟩⟩
  | succ n ih =>
    intro i st ht
    rw [resLoop]
    dsimp only
    by_cases hl : (fread st.f 12).1.length ≠ 12
    · rw [if_pos hl]
      exact ⟨_, rfl, ⟨[], (List.append_nil _).symm, by simp, rfl⟩,
        ⟨[], (List.append_nil _).symm, by simp⟩, fun e h => (by cases h; exact ⟨rfl, rfl⟩),
        fun st2 h => by cases h⟩
    · rw [if_neg hl]
      generalize hst1 : ({ st with
          f := (fread st.f 12).2, byteCounter := st.byteCounter + 12,
          counters := st.counters ++ [st.byteCounter + 12],
          log := st.log ++ [Event.resource k i (decodeResBlock (fread st.f 12).1).flags
            (actualLengthOf c (decodeResBlock (fread st.f 12).1))
            (byteOffsetOf c (decodeResBlock (fread st.f 12).1))] } : State) = st1
      have h1l : st1.log = st.log ++ [Event.resource k i (decodeResBlock (fread st.f 12).1).flags
            (actualLengthOf c (decodeResBlock (fread st.f 12).1))
            (byteOffsetOf c (decodeResBlock (fread st.f 12).1))] := by rw [← hst1]
      have h1c : st1.counters = st.counters ++ [st.byteCounter + 12] := by rw [← hst1]
      have h1b : st1.byteCounter = st.byteCounter + 12 := by rw [← hst1]
      have h1t : st1.typeBuf = st.typeBuf := by rw [← hst1]
      have hres : EventFits (Event.resource k i (decodeResBlock (fread st.f 12).1).flags
            (actualLengthOf c (decodeResBlock (fread st.f 12).1))
            (byteOffsetOf c (decodeResBlock (fread st.f 12).1))) := trivial
      have hev0 : countTypeBlocks [Event.resource k i (decodeResBlock (fread st.f 12).1).flags
            (actualLengthOf c (decodeResBlock (fread st.f 12).1))
            (byteOffsetOf c (decodeResBlock (fread st.f 12).1))] = 0 := rfl
      generalize (Event.resource k i (decodeResBlock (fread st.f 12).1).flags
            (actualLengthOf c (decodeResBlock (fread st.f 12).1))
            (byteOffsetOf c (decodeResBlock (fread st.f 12).1))) = ev0 at h1l hres hev0
      rcases resolveName_inv c st1 (decodeResBlock (fread st.f 12).1) with hn | hn
      · rw [hn]
        refine ⟨_, rfl, ⟨[ev0], h1l, ?_, hev0⟩, ⟨[st.byteCounter + 12], h1c, ?_⟩, fun e h => (by cases h; exact ⟨rfl, rfl⟩),
          fun st2 h => by cases h⟩
        · intro e he; rw [List.mem_singleton] at he; subst he; exact hres
        · intro x hx; rw [List.mem_singleton] at hx; subst hx; constructor <;> omega
      · obtain ⟨st2, ev, hn, h2l, hev, hevt, h2t, h2b, h2c, h2n⟩ := hn
        rw [hn]
        dsimp only
        have ht2 : TypeBufOk st2 := by unfold TypeBufOk; rw [h2t, h1t]; exact ht
        obtain ⟨r, hr, ⟨evs, hrl, hrf, hrc⟩, hrcs, hrok⟩ :=
          dumpStep_inv c k i st2 (decodeResBlock (fread st.f 12).1) hp h2n ht2
        rw [hr]
        cases r with
        | error e =>
          refine ⟨_, rfl, ⟨ev0 :: ev :: evs, ?_, ?_, ?_⟩, ⟨[st.byteCounter + 12], ?_, ?_⟩, ?_,
            fun st2 h => by cases h⟩
          · show e.log = _
            have : e.log = st2.log ++ evs := hrl
            rw [this, h2l, h1l]; simp
          · intro e2 he2
            rcases List.mem_cons.mp he2 with h | h
            · subst h; exact hres
            · rcases List.mem_cons.mp h with h | h
              · subst h; exact hev
              · exact hrf _ h
          · have e1 : (ev0 :: ev :: evs : List Event) = [ev0] ++ ([ev] ++ evs) := rfl
            rw [e1, countTypeBlocks_append, countTypeBlocks_append, hrc, hev0]
            unfold countTypeBlocks
            simp [hevt]
          · show e.counters = _
            have : e.counters = st2.counters := hrcs
            rw [this, h2c, h1c]
          · intro x hx; rw [List.mem_singleton] at hx; subst hx; constructor <;> omega
          · intro e2 h2
            cases h2
            rw [dumpStep_error c k i st2 _ e hr]; exact ⟨rfl, rfl⟩
        | ok st3 =>
          dsimp only
          have h3 := hrok st3 rfl
          have h3l : st3.log = st2.log ++ evs := hrl
          have h3c : st3.counters = st2.counters := hrcs
          have ht3 : TypeBufOk st3 := by unfold TypeBufOk; rw [h3.1]; exact ht2
          obtain ⟨r4, h4, ⟨evs4, h4l, h4f, h4c⟩, ⟨cs4, h4cs, h4b⟩, h4e, h4ok⟩ :=
            ih (i + 1) st3 ht3
          refine ⟨r4, h4, ⟨ev0 :: ev :: (evs ++ evs4), ?_, ?_, ?_⟩,
            ⟨(st.byteCounter + 12) :: cs4, ?_, ?_⟩, h4e, ?_⟩
          · rw [h4l, h3l, h2l, h1l]; simp
          · intro e2 he2
            rcases List.mem_cons.mp he2 with h | h
            · subst h; exact hres
            · rcases List.mem_cons.mp h with h | h
              · subst h; exact hev
              · rcases List.mem_append.mp h with h | h
                · exact hrf _ h
                · exact h4f _ h
          · have e1 : (ev0 :: ev :: (evs ++ evs4) : List Event) = [ev0] ++ ([ev] ++ (evs ++ evs4)) :=
              rfl
            rw [e1, countTypeBlocks_append, countTypeBlocks_append, countTypeBlocks_append,
              hrc, h4c, hev0]
            unfold countTypeBlocks
            simp [hevt]
          · rw [h4cs, h3c, h2c, h1c]; simp
          · intro x hx
            rcases List.mem_cons.mp hx with h | h
            · subst h; constructor <;> omega
            · have := h4b x h
              rw [h3.2, h2b, h1b] at this
              push_cast
              constructor <;> omega
          · intro st4 hst4
            have := h4ok st4 hst4
            refine ⟨this.1, ?_⟩
            rw [this.2, h3.2, h2b, h1b]
            push_cast
            ring

theorem typeLoop_done (c : Ctx) (fuel k : Nat) (st : State)
    (h : ¬ st.byteCounter < c.maxBytes) : typeLoop c fuel k st = some (finish c st) := by
  cases fuel with
  | zero => rw [typeLoop, if_neg h]
  | succ fuel => rw [typeLoop, if_neg h]

theorem finish_inv (c : Ctx) (st : State) :
    ∃ evs, (finish c st).log = st.log ++ evs ∧ (finish c st).counters = st.counters ∧
      (∀ e ∈ evs, EventFits e) ∧ countTypeBlocks evs = 0 ∧ errReads (finish c st).err = 0 ∧
      walkErr (finish c st).err = true := by
  unfold finish
  split
  · exact ⟨[], (List.append_nil _).symm, rfl, by simp, rfl, rfl, rfl⟩
  · refine ⟨[Event.done], rfl, rfl, ?_, rfl, rfl, rfl⟩
    intro e he; rw [List.mem_singleton] at he; subst he; trivial

theorem decodeTypeBlock_resCount_lt (bs : List Byte) : (decodeTypeBlock bs).resCount < 65536 := by
  unfold decodeTypeBlock
  exact u16_lt _ _

/-- What the walk keeps, from any state with a byte counter `bc` and enough fuel: it returns;
the lines it prints fit the buffers; the byte counter stays between `bc` and 851962; and the
number `n` of type blocks it reads has `8 * n ≤ maxBytes - bc + 7`, and is at least 1, when
`bc < maxBytes`. -/
theorem typeLoop_inv (c : Ctx) (hp : c.outPrefix.length ≤ 256) (hmax : c.maxBytes ≤ 65535) :
    ∀ (fuel k : Nat) (st : State), TypeBufOk st → c.maxBytes - st.byteCounter ≤ fuel →
    ∃ r, typeLoop c fuel k st = some r ∧
      ∃ evs cs, r.log = st.log ++ evs ∧ r.counters = st.counters ++ cs ∧
        (∀ e ∈ evs, EventFits e) ∧
        (∀ x ∈ cs, st.byteCounter ≤ x ∧ x ≤ 851962) ∧
        (st.byteCounter < c.maxBytes → 1 ≤ countTypeBlocks evs + errReads r.err ∧
          8 * ((countTypeBlocks evs + errReads r.err : Nat) : Int) ≤
            c.maxBytes - st.byteCounter + 7) ∧
        (¬ st.byteCounter < c.maxBytes → countTypeBlocks evs + errReads r.err = 0) ∧
        walkErr r.err = true := by
  intro fuel
  induction fuel with
  | zero =>
    intro k st ht h
    have hlt : ¬ st.byteCounter < c.maxBytes := by omega
    rw [typeLoop_done c 0 k st hlt]
    obtain ⟨evs, h1, h2, h3, h4, h5, h6⟩ := finish_inv c st
    refine ⟨_, rfl, evs, [], h1, by rw [h2, List.append_nil], h3, by simp,
      fun h => absurd h hlt, fun _ => (by rw [h4, h5]), h6⟩
  | succ fuel ih =>
    intro k st ht h
    by_cases hlt : st.byteCounter < c.maxBytes
    · rw [typeLoop, if_pos hlt]
      dsimp only
      by_cases hl : (fread st.f 8).1.length ≠ 8
      · rw [if_pos hl]
        refine ⟨_, rfl, [], [], (List.append_nil _).symm, (List.append_nil _).symm, by simp,
          by simp, fun _ => ⟨le_refl _, ?_⟩, fun h => absurd hlt h, rfl⟩
        show 8 * (((0 : Nat) + 1 : Nat) : Int) ≤ _
        push_cast; omega
      · rw [if_neg hl]
        by_cases hz : (decodeTypeBlock (fread st.f 8).1).typeID = 0
        · rw [if_pos hz]
          obtain ⟨evs, h1, h2, h3, h4, h5, h6⟩ := finish_inv c
            { st with f := (fread st.f 8).2, log := st.log ++ [Event.endOfTypes k] }
          refine ⟨_, rfl, Event.endOfTypes k :: evs, [], ?_, ?_, ?_, by simp, fun _ => ?_,
            fun h => absurd hlt h, h6⟩
          · rw [h1]; simp
          · rw [h2, List.append_nil]
          · intro e he
            rcases List.mem_cons.mp he with h | h
            · subst h; trivial
            · exact h3 _ h
          · have e1 : (Event.endOfTypes k :: evs) = [Event.endOfTypes k] ++ evs := rfl
            rw [e1, countTypeBlocks_append, h4, h5]
            have : countTypeBlocks [Event.endOfTypes k] = 1 := rfl
            rw [this]
            constructor
            · omega
            · push_cast; omega
        · rw [if_neg hz]
          rcases resolveType_inv c { st with f := (fread st.f 8).2 }
            (decodeTypeBlock (fread st.f 8).1) with hn | hn
          · rw [hn]
            refine ⟨_, rfl, [], [], (List.append_nil _).symm, (List.append_nil _).symm, by simp,
              by simp, fun _ => ⟨le_refl _, ?_⟩, fun h => absurd hlt h, rfl⟩
            show 8 * (((0 : Nat) + 1 : Nat) : Int) ≤ _
            push_cast; omega
          · obtain ⟨st2, ev, hn, h2l, hev, hevt, ht2, h2b, h2c⟩ := hn
            rw [hn]
            dsimp only
            have h2l2 : st2.log = st.log ++ [ev] := h2l
            have h2b2 : st2.byteCounter = st.byteCounter := h2b
            have h2c2 : st2.counters = st.counters := h2c
            have hN := decodeTypeBlock_resCount_lt (fread st.f 8).1
            generalize (decodeTypeBlock (fread st.f 8).1).resCount = N at hN
            obtain ⟨r, hr, ⟨evs3, h3l, h3f, h3n⟩, ⟨cs3, h3c, h3b⟩, h3e, h3ok⟩ :=
              resLoop_inv c k hp N 0
                { st2 with
                  byteCounter := st2.byteCounter + 8,
                  counters := st2.counters ++ [st2.byteCounter + 8],
                  log := st2.log ++ [Event.resCount N] } ht2
            rw [hr]
            have hrc1 : countTypeBlocks [Event.resCount N] = 1 := rfl
            have hev1 : countTypeBlocks [ev] = 0 := by
              unfold countTypeBlocks; simp [hevt]
            cases r with
            | error e =>
              have hel : e.log = st2.log ++ [Event.resCount N] ++ evs3 := h3l
              have hec : e.counters = st2.counters ++ [st2.byteCounter + 8] ++ cs3 := h3c
              have hee := (h3e e rfl).1
              refine ⟨_, rfl, [ev] ++ ([Event.resCount N] ++ evs3),
                [st.byteCounter + 8] ++ cs3, ?_, ?_, ?_, ?_, fun _ => ?_,
                fun h => absurd hlt h, (h3e e rfl).2⟩
              · rw [hel, h2l2]; simp
              · rw [hec, h2c2, h2b2]; simp
              · intro e2 he2
                rcases List.mem_append.mp he2 with h | h
                · rw [List.mem_singleton] at h; subst h; exact hev
                · rcases List.mem_append.mp h with h | h
                  · rw [List.mem_singleton] at h; subst h; trivial
                  · exact h3f _ h
              · intro x hx
                rcases List.mem_append.mp hx with h | h
                · rw [List.mem_singleton] at h; subst h; constructor <;> omega
                · have := h3b x h
                  dsimp only at this
                  rw [h2b2] at this
                  constructor <;> omega
              · rw [countTypeBlocks_append, countTypeBlocks_append, hev1, hrc1, h3n, hee]
                constructor
                · omega
                · push_cast; omega
            | ok st4 =>
              dsimp only
              have h4l : st4.log = st2.log ++ [Event.resCount N] ++ evs3 := h3l
              have h4c : st4.counters = st2.counters ++ [st2.byteCounter + 8] ++ cs3 := h3c
              have h4 := h3ok st4 rfl
              have h4b : st4.byteCounter = st2.byteCounter + 8 + 12 * (N : Int) := h4.2
              rw [h2b2] at h4b
              obtain ⟨r5, h5, evs5, cs5, h5l, h5c, h5f, h5b, h5n, h5z, h5w⟩ :=
                ih (k + 1) st4 h4.1 (by rw [h4b]; push_cast at h; omega)
              refine ⟨r5, h5, [ev] ++ ([Event.resCount N] ++ (evs3 ++ evs5)),
                [st.byteCounter + 8] ++ (cs3 ++ cs5), ?_, ?_, ?_, ?_, fun _ => ?_,
                fun h => absurd hlt h, h5w⟩
              · rw [h5l, h4l, h2l2]; simp
              · rw [h5c, h4c, h2c2, h2b2]; simp
              · intro e2 he2
                rcases List.mem_append.mp he2 with h | h
                · rw [List.mem_singleton] at h; subst h; exact hev
                · rcases List.mem_append.mp h with h | h
                  · rw [List.mem_singleton] at h; subst h; trivial
                  · rcases List.mem_append.mp h with h | h
                    · exact h3f _ h
                    · exact h5f _ h
              · intro x hx
                rcases List.mem_append.mp hx with h | h
                · rw [List.mem_singleton] at h; subst h; constructor <;> omega
                · rcases List.mem_append.mp h with h | h
                  · have := h3b x h
                    dsimp only at this
                    rw [h2b2] at this
                    constructor <;> omega
                  · have := h5b x h
                    rw [h4b] at this
                    constructor <;> omega
              · rw [countTypeBlocks_append, countTypeBlocks_append, countTypeBlocks_append,
                  hev1, hrc1, h3n]
                by_cases h4lt : st4.byteCounter < c.maxBytes
                · have := h5n h4lt
                  rw [h4b] at this
                  constructor
                  · omega
                  · push_cast at this ⊢; omega
                · have := h5z h4lt
                  constructor
                  · omega
                  · have e0 : 0 + (1 + (0 + countTypeBlocks evs5)) + errReads r5.err = 1 := by
                      omega
                    rw [e0]; push_cast; omega
    · rw [typeLoop_done c _ k st hlt]
      obtain ⟨evs, h1, h2, h3, h4, h5, h6⟩ := finish_inv c st
      refine ⟨_, rfl, evs, [], h1, by rw [h2, List.append_nil], h3, by simp,
        fun h => absurd h hlt, fun _ => (by rw [h4, h5]), h6⟩

/-! ## The start of the walk -/

theorem replicate_typeBufOk : (cstr (List.replicate 257 (0 : Byte))).length ≤ 255 := by
  decide

theorem cstr_replicate_zero (n : Nat) : cstr (List.replicate (n + 1) (0 : Byte)) = [] := rfl

/-- What holds at the start of the walk, beyond `prelude_ok`. -/
theorem prelude_start (env : Env) (outPrefix : List Byte) (dump useNames : Bool)
    (data : List Byte) (c : Ctx) (st : State)
    (h : prelude env outPrefix dump useNames data = .ok (c, st)) :
    c.outPrefix = outPrefix ∧ outPrefix.length ≤ 256 ∧ TypeBufOk st ∧
    countTypeBlocks st.log = 0 ∧ (∀ e ∈ st.log, EventFits e) ∧
    c.maxBytes = ((headerOf data).ResidNamTable : Int) - (headerOf data).ResTableOffset ∧
    data.take 2 = ascii "MZ" ∧ (headerOf data).sig = ascii "NE" ∧ st.files = [] := by
  unfold prelude at h
  split at h
  · cases h
  · rename_i hpl
    dsimp only at h
    split at h
    · cases h
    · split at h
      · cases h
      · rename_i hmz
        split at h
        · cases h
        · split at h
          · cases h
          · split at h
            · cases h
            · rename_i hne
              split at h
              · cases h
              · split at h
                · cases h
                · injection h with h
                  injection h with hc hst
                  subst hc hst
                  refine ⟨rfl, by omega, replicate_typeBufOk, rfl, ?_, ?_,
                    not_not.mp hmz, not_not.mp hne, rfl⟩
                  · intro e he
                    simp only [List.mem_append, List.mem_singleton, List.mem_cons,
                      List.not_mem_nil, or_false] at he
                    rcases he with ((h | h) | h) | h <;> (subst h; trivial)
                  · exact maxBytes_eq _ _ _ (decodeHeader_lt _).1 (decodeHeader_lt _).2

theorem prelude_error (env : Env) (outPrefix : List Byte) (dump useNames : Bool)
    (data : List Byte) (e : Exit)
    (h : prelude env outPrefix dump useNames data = .error e) :
    (∀ ev ∈ e.log, EventFits ev) ∧ countTypeBlocks e.log = 0 ∧ errReads e.err = 0 ∧
    e.counters = [] ∧ e.status = 1 := by
  unfold prelude at h
  split at h
  · cases h; exact ⟨by simp [early], rfl, rfl, rfl, rfl⟩
  · dsimp only at h
    split at h
    · cases h; exact ⟨by simp [early], rfl, rfl, rfl, rfl⟩
    · split at h
      · cases h; exact ⟨by simp [early], rfl, rfl, rfl, rfl⟩
      · split at h
        · cases h; exact ⟨by simp [early], rfl, rfl, rfl, rfl⟩
        · split at h
          · cases h; exact ⟨by simp [early, EventFits], rfl, rfl, rfl, rfl⟩
          · split at h
            · cases h; exact ⟨by simp [early, EventFits], rfl, rfl, rfl, rfl⟩
            · split at h
              · cases h; exact ⟨by simp [early, EventFits], rfl, rfl, rfl, rfl⟩
              · split at h
                · cases h; exact ⟨by simp [early, EventFits], rfl, rfl, rfl, rfl⟩
                · cases h

/-- What every run keeps: the program returns; the strings it prints fit their buffers; the
byte counter stays between 2 and 851962; a run that ends before the walk reads no type block;
and a run that reaches the walk reads `n` type blocks with `1 ≤ n` and `8 * n ≤ maxBytes + 5`
when `2 < maxBytes`, and goes straight to the end of `main` when `maxBytes ≤ 2`. -/
theorem main_inv (env : Env) (outPrefix : List Byte) (dump useNames : Bool)
    (data : List Byte) :
    ∃ r, main env outPrefix dump useNames data = some r ∧
      (∀ e ∈ r.log, EventFits e) ∧
      (∀ x ∈ r.counters, 2 ≤ x ∧ x ≤ 851962) ∧
      (∀ e, prelude env outPrefix dump useNames data = .error e →
        r = e ∧ typeBlocksRead r = 0) ∧
      (∀ c st, prelude env outPrefix dump useNames data = .ok (c, st) →
        (2 < c.maxBytes → 1 ≤ typeBlocksRead r ∧ 8 * (typeBlocksRead r : Int) ≤ c.maxBytes + 5) ∧
        (c.maxBytes ≤ 2 → r = finish c st ∧ typeBlocksRead r = 0) ∧
        walkErr r.err = true ∧ ∃ evs, r.log = st.log ++ evs) := by
  cases hpre : prelude env outPrefix dump useNames data with
  | error e =>
    obtain ⟨h1, h2, h3, h4, _⟩ := prelude_error _ _ _ _ _ _ hpre
    refine ⟨e, by unfold main; rw [hpre], h1, by rw [h4]; simp, ?_, fun c st h => by cases h⟩
    intro e2 he2
    cases he2
    exact ⟨rfl, by unfold typeBlocksRead; rw [h2, h3]⟩
  | ok cs =>
    obtain ⟨c, st⟩ := cs
    obtain ⟨_, hbc, _, _, _, hmax, _, _, hcnt⟩ := prelude_ok _ _ _ _ _ _ _ hpre
    obtain ⟨hcp, hpl, htb, hct, hfit, _, _, _⟩ := prelude_start _ _ _ _ _ _ _ hpre
    obtain ⟨r, hr, evs, cs, hl, hc, hf, hb, hn, hz, hw⟩ :=
      typeLoop_inv c (by rw [hcp]; exact hpl) hmax c.maxBytes.toNat 0 st htb
        (by rw [hbc]; omega)
    have hread : typeBlocksRead r = countTypeBlocks evs + errReads r.err := by
      unfold typeBlocksRead
      rw [hl, countTypeBlocks_append, hct, Nat.zero_add]
    refine ⟨r, by rw [main_of_prelude _ _ _ _ _ _ _ hpre]; exact hr, ?_, ?_,
      fun e h => (by cases h), ?_⟩
    · intro e he
      rw [hl] at he
      rcases List.mem_append.mp he with h | h
      · exact hfit e h
      · exact hf e h
    · intro x hx
      rw [hc, hcnt] at hx
      rcases List.mem_append.mp hx with h | h
      · rw [List.mem_singleton] at h; subst h; constructor <;> omega
      · have := hb x h
        rw [hbc] at this
        exact this
    · intro c2 st2 h2
      cases h2
      refine ⟨?_, ?_, hw, evs, hl⟩
      · intro hlt
        have := hn (by rw [hbc]; exact hlt)
        rw [hbc] at this
        rw [hread]
        constructor
        · exact this.1
        · have := this.2
          omega
      · intro hle
        have hnlt : ¬ st.byteCounter < c.maxBytes := by rw [hbc]; omega
        constructor
        · have h1 := typeLoop_done c c.maxBytes.toNat 0 st hnlt
          rw [h1] at hr
          exact (Option.some.inj hr).symm
        · rw [hread]; exact hz hnlt

/-! ## The bound of the walk -/

theorem ceil_div8_bound (n : Nat) (m : Int) (h : 8 * (n : Int) ≤ m + 7) :
    (n : Int) ≤ ⌈(m : ℚ) / 8⌉ := by
  rw [Int.le_ceil_iff]
  have h2 : ((8 * (n : Int) : Int) : ℚ) ≤ ((m + 7 : Int) : ℚ) := by exact_mod_cast h
  push_cast at h2 ⊢
  linarith

theorem ceil_div8_le (m : Int) (h : m ≤ 65533) : ⌈(m : ℚ) / 8⌉ ≤ 8192 := by
  rw [Int.ceil_le]
  have h2 : (m : ℚ) ≤ 65533 := by exact_mod_cast h
  push_cast
  linarith

theorem sampleNegative_run :
    main envOk [] false false sampleNegative =
      some ⟨0, none,
        [Event.extHeader 64, Event.resTable 128 0, Event.resNameTable 122 (-6),
          Event.shiftCounts 9 0, Event.done], [], [2]⟩ := by
  decide

theorem sampleBudgetTwo_run :
    main envOk [] false false sampleBudgetTwo =
      some ⟨1, some Err.overflow,
        [Event.extHeader 64, Event.resTable 128 0, Event.resNameTable 130 2,
          Event.shiftCounts 9 0], [], [2]⟩ := by
  decide

/-- C17 (counterexample): on `sampleNegative` the budget `maxBytes` is -6, the run reads no
type block and returns 0, and `ceil((maxBytes - 2) / 8)` is -1: the number of type blocks is
not at most that bound. -/
theorem negative_budget_bound_below_zero :
    ∃ r, main envOk [] false false sampleNegative = some r ∧ r.status = 0 ∧
      Event.resNameTable 122 (-6) ∈ r.log ∧ typeBlocksRead r = 0 ∧
      ¬ ((typeBlocksRead r : Int) ≤ ⌈(((-6 : Int) - 2 : Int) : ℚ) / 8⌉) := by
  refine ⟨_, sampleNegative_run, rfl, by decide, rfl, ?_⟩
  rw [Int.le_ceil_iff]
  have : typeBlocksRead ⟨0, none,
        [Event.extHeader 64, Event.resTable 128 0, Event.resNameTable 122 (-6),
          Event.shiftCounts 9 0, Event.done], [], [2]⟩ = 0 := rfl
  rw [this]
  norm_num

/-- C17 (as amended): every run returns. A run that reaches the walk has
`maxBytes = ResidNamTable - ResTableOffset` (the two 16-bit fields of the header, whatever the
offset of the extended header), between -65535 and 65535, and reads at most
`max 0 (ceil((maxBytes - 2) / 8))` type blocks, which is at most 8192; a run that ends before
the walk reads none. Every value the byte counter takes is between 2 and 851962, inside the
range of a signed 32-bit integer. -/
theorem walk_terminates_within_budget (env : Env) (outPrefix : List Byte)
    (dump useNames : Bool) (data : List Byte) :
    ∃ r, main env outPrefix dump useNames data = some r ∧
      typeBlocksRead r ≤ 8192 ∧
      (∀ x ∈ r.counters, 2 ≤ x ∧ x ≤ 851962 ∧ toInt32 x = x) ∧
      (∀ c st, prelude env outPrefix dump useNames data = .ok (c, st) →
        c.maxBytes = ((headerOf data).ResidNamTable : Int) - (headerOf data).ResTableOffset ∧
        -65535 ≤ c.maxBytes ∧ c.maxBytes ≤ 65535 ∧
        (typeBlocksRead r : Int) ≤ max 0 ⌈((c.maxBytes - 2 : Int) : ℚ) / 8⌉ ∧
        max 0 ⌈((c.maxBytes - 2 : Int) : ℚ) / 8⌉ ≤ 8192) := by
  obtain ⟨r, hr, _, hcnt, herr, hok⟩ := main_inv env outPrefix dump useNames data
  have key : ∀ c st, prelude env outPrefix dump useNames data = .ok (c, st) →
      c.maxBytes = ((headerOf data).ResidNamTable : Int) - (headerOf data).ResTableOffset ∧
      -65535 ≤ c.maxBytes ∧ c.maxBytes ≤ 65535 ∧
      (typeBlocksRead r : Int) ≤ max 0 ⌈((c.maxBytes - 2 : Int) : ℚ) / 8⌉ ∧
      max 0 ⌈((c.maxBytes - 2 : Int) : ℚ) / 8⌉ ≤ 8192 := by
    intro c st hpre
    obtain ⟨_, _, _, _, hlo, hhi, _, _, _⟩ := prelude_ok _ _ _ _ _ _ _ hpre
    obtain ⟨_, _, _, _, _, hm, _, _⟩ := prelude_start _ _ _ _ _ _ _ hpre
    obtain ⟨h1, h2, _, _⟩ := hok c st hpre
    refine ⟨hm, hlo, hhi, ?_, max_le (by omega) (ceil_div8_le _ (by omega))⟩
    by_cases hlt : 2 < c.maxBytes
    · exact le_trans (ceil_div8_bound _ _ (by have := (h1 hlt).2; omega)) (le_max_right _ _)
    · rw [(h2 (by omega)).2]
      exact le_max_left _ _
  refine ⟨r, hr, ?_, ?_, key⟩
  · cases hpre : prelude env outPrefix dump useNames data with
    | error e => rw [(herr e hpre).2]; omega
    | ok cs =>
      obtain ⟨c, st⟩ := cs
      have := key c st hpre
      have h3 := le_trans this.2.2.2.1 this.2.2.2.2
      omega
  · intro x hx
    have := hcnt x hx
    exact ⟨this.1, this.2, toInt32_of_lt x (by omega) (by omega)⟩

/-! ## Buffers and degenerate budgets -/

/-- C18: a string that `getOffsetString` has read has at most 255 bytes before its terminator
and leaves a 257-byte buffer at 257 bytes; so have the strings that `main` puts into `nameBuf`
and `typeBuf`. With a prefix of at most 256 bytes, the output file name has fewer than 1024
bytes with its terminator under both policies. In every run the quoted type names printed fit
the 259 bytes of `typeBuf2`, the names printed fit the 257 bytes of `nameBuf`, and the names
of the files dumped fit the 1024 bytes of `filename`. -/
theorem buffers_fit (env : Env) (outPrefix : List Byte) (dump useNames : Bool)
    (data : List Byte) :
    (∀ (f : FILE) (p : Int) (buf : List Byte), (getOffsetString f p buf).ret = 0 →
      (cstr (getOffsetString f p buf).buf).length + 1 ≤ 256 ∧
      (buf.length = 257 → (getOffsetString f p buf).buf.length = 257)) ∧
    (∀ (c : Ctx) (st st2 : State) (rb : ResBlock), resolveName c st rb = .ok st2 →
      (cstr st2.nameBuf).length + 1 ≤ 256) ∧
    (∀ (c : Ctx) (st st2 : State) (tb : TypeBlock), resolveType c st tb = .ok st2 →
      (cstr st2.typeBuf).length + 1 ≤ 256 ∧
      (ascii "'" ++ cstr st2.typeBuf ++ ascii "'").length + 1 ≤ 258) ∧
    (∀ (c : Ctx) (k i : Nat) (nameBuf typeBuf : List Byte), c.outPrefix.length ≤ 256 →
      (cstr nameBuf).length ≤ 255 → (cstr typeBuf).length ≤ 255 →
      (dumpFilename c k i nameBuf typeBuf).length + 1 < 1024) ∧
    ∃ r, main env outPrefix dump useNames data = some r ∧
      (∀ quoted, Event.typeCustom quoted ∈ r.log → quoted.length + 1 ≤ 259) ∧
      (∀ name, Event.idName name ∈ r.log → name.length + 1 ≤ 257) ∧
      (∀ filename, Event.dumped filename ∈ r.log → filename.length + 1 < 1024) := by
  refine ⟨?_, ?_, ?_, ?_, ?_⟩
  · intro f p buf h
    have := getOffsetString_cstr_le f p buf h
    exact ⟨by omega, this.2⟩
  · intro c st st2 rb h
    rcases resolveName_inv c st rb with hn | ⟨st3, ev, hn, _, _, _, _, _, _, hlen⟩
    · rw [hn] at h; cases h
    · rw [hn] at h; cases h; omega
  · intro c st st2 tb h
    rcases resolveType_inv c st tb with hn | ⟨st3, ev, hn, _, _, _, hlen, _, _⟩
    · rw [hn] at h; cases h
    · rw [hn] at h
      cases h
      have hlen2 : (cstr st2.typeBuf).length ≤ 255 := hlen
      rw [List.length_append, List.length_append, ascii_quote]
      omega
  · intro c k i nb tb hp hn ht
    have := dumpFilename_length c k i nb tb hp hn ht
    omega
  · obtain ⟨r, hr, hfit, _⟩ := main_inv env outPrefix dump useNames data
    exact ⟨r, hr, fun q h => hfit _ h, fun n h => hfit _ h, fun fn h => hfit _ h⟩

/-- C19: for an input that reaches the walk, the run reads no type block exactly when
`maxBytes ≤ 2`. With `maxBytes = 2` it ends with the overflow error and status 1, and with
`maxBytes < 2` it ends with status 0; in both cases it has printed the lines of the header and
nothing of the table, has written no file, and the byte counter has stayed at 2. -/
theorem degenerate_budgets (env : Env) (outPrefix : List Byte) (dump useNames : Bool)
    (data : List Byte) (c : Ctx) (st : State)
    (hpre : prelude env outPrefix dump useNames data = .ok (c, st)) :
    ∃ r, main env outPrefix dump useNames data = some r ∧
      (typeBlocksRead r = 0 ↔ c.maxBytes ≤ 2) ∧
      (c.maxBytes = 2 → r = ⟨1, some Err.overflow, st.log, [], [2]⟩) ∧
      (c.maxBytes < 2 → r = ⟨0, none, st.log ++ [Event.done], [], [2]⟩) ∧
      (c.maxBytes ≤ 2 → countResources r.log = 0 ∧ reportedTypes r.log = []) := by
  obtain ⟨r, hr, _, _, _, hok⟩ := main_inv env outPrefix dump useNames data
  obtain ⟨h1, h2, _, _⟩ := hok c st hpre
  obtain ⟨_, hbc, _, _, _, _, hcr, hrt, hcnt⟩ := prelude_ok _ _ _ _ _ _ _ hpre
  obtain ⟨_, _, _, _, _, _, _, _, hfiles⟩ := prelude_start _ _ _ _ _ _ _ hpre
  have heq : c.maxBytes = 2 → r = ⟨1, some Err.overflow, st.log, [], [2]⟩ := by
    intro h
    rw [(h2 (by omega)).1]
    unfold finish
    rw [if_pos (by rw [hbc, h])]
    unfold State.fail
    rw [hfiles, hcnt]
  have hlt : c.maxBytes < 2 → r = ⟨0, none, st.log ++ [Event.done], [], [2]⟩ := by
    intro h
    rw [(h2 (by omega)).1]
    unfold finish
    rw [if_neg (by rw [hbc]; omega), hfiles, hcnt]
  refine ⟨r, hr, ⟨?_, fun h => (h2 h).2⟩, heq, hlt, ?_⟩
  · intro h0
    by_contra hgt
    have := (h1 (by omega)).1
    omega
  · intro hle
    by_cases h : c.maxBytes = 2
    · rw [heq h]; exact ⟨hcr, hrt⟩
    · rw [hlt (by omega)]
      constructor
      · show countResources (st.log ++ [Event.done]) = 0
        rw [countResources_append, hcr]; rfl
      · show reportedTypes (st.log ++ [Event.done]) = []
        rw [reportedTypes_append, hrt]; rfl

theorem degenerate_budgets_witness :
    ∃ r, main envOk [] false false sampleBudgetTwo = some r ∧
      (typeBlocksRead r = 0 ↔ (2 : Int) ≤ 2) ∧
      ((2 : Int) = 2 → r = ⟨1, some Err.overflow,
        [Event.extHeader 64, Event.resTable 128 0, Event.resNameTable 130 2,
          Event.shiftCounts 9 0], [], [2]⟩) ∧
      ((2 : Int) < 2 → r = ⟨0, none,
        [Event.extHeader 64, Event.resTable 128 0, Event.resNameTable 130 2,
          Event.shiftCounts 9 0] ++ [Event.done], [], [2]⟩) ∧
      ((2 : Int) ≤ 2 → countResources r.log = 0 ∧ reportedTypes r.log = []) :=
  degenerate_budgets envOk [] false false sampleBudgetTwo
    ⟨envOk, [], false, false, 128, 2, 9, 0⟩
    ⟨⟨sampleBudgetTwo, 130⟩, 2, List.replicate 257 0, List.replicate 257 0,
      [Event.extHeader 64, Event.resTable 128 0, Event.resNameTable 130 2,
        Event.shiftCounts 9 0], [], [2]⟩
    rfl

/-- The run on `sampleNegative`, whose budget is -6, returns 0 although a terminating type
block follows the shift count. -/
theorem negative_budget_returns_zero :
    ∃ r, main envOk [] false false sampleNegative = some r ∧ r.status = 0 ∧ r.err = none ∧
      typeBlocksRead r = 0 :=
  ⟨_, sampleNegative_run, rfl, rfl, rfl⟩

/-! ## The byte counter and the stream position -/

theorem tableBytes_length : ∀ (tbl : List (List Byte × List (List Byte))),
    (∀ t ∈ tbl, GroupOk t) →
    (tableBytes tbl).length = 8 * tbl.length + 12 * tableResources tbl := by
  intro tbl
  induction tbl with
  | nil => intro _; rfl
  | cons t tbl ih =>
    intro h
    have ht := h t (List.mem_cons_self _ _)
    rw [tableBytes_cons, tableResources_cons, List.length_append, List.length_append,
      ih (fun x hx => h x (List.mem_cons_of_mem _ hx)), ht.1,
      flatten_length_12 t.2 ht.2.2.2, List.length_cons]
    omega

/-- The part of `main` before the walk, for a file with the `MZ` signature and a readable
extended header: the run ends with `Not an NE header` after the line of the header offset when
the signature is not `NE`; otherwise it goes on and prints the line of the resource table
offset. -/
theorem prelude_signature (env : Env) (outPrefix : List Byte) (dump useNames : Bool)
    (data : List Byte) (hp : outPrefix.length ≤ 256) (hmz : data.take 2 = ascii "MZ")
    (hoff : ((data.drop 0x3C).take 4).length = 4) (hhdr : (headerBytesOf data).length = 64) :
    ((headerOf data).sig ≠ ascii "NE" ∧
      prelude env outPrefix dump useNames data =
        .error (early Err.notNE [Event.extHeader (extHeaderOffsetOf data)])) ∨
    ((headerOf data).sig = ascii "NE" ∧
      (preludeView (prelude env outPrefix dump useNames data)).1 ≠ some Err.notNE ∧
      (preludeView (prelude env outPrefix dump useNames data)).2.take 2 =
        [Event.extHeader (extHeaderOffsetOf data),
          Event.resTable
            (toInt32 ((headerOf data).ResTableOffset + extHeaderOffsetOf data))
            (headerOf data).nResTabEntries]) := by
  have hmz2 : (fread ⟨data, 0⟩ 2).1 = ascii "MZ" := hmz
  unfold prelude
  split
  · omega
  · dsimp only
    split
    · rename_i h; rw [hmz2] at h; exact absurd rfl h
    · split
      · rename_i h; exact absurd hmz2 h
      · split
        · rename_i h; exact absurd hoff h
        · split
          · rename_i h; exact absurd hhdr h
          · split
            · rename_i h
              exact Or.inl ⟨h, rfl⟩
            · rename_i h
              refine Or.inr ⟨not_not.mp h, ?_⟩
              split
              · exact ⟨by simp [preludeView, early], rfl⟩
              · split
                · exact ⟨by simp [preludeView, early], rfl⟩
                · exact ⟨by simp [preludeView], rfl⟩

theorem sampleNoTable_run :
    main envOk [] false false sampleNoTable =
      some ⟨1, some Err.readShiftCount,
        [Event.extHeader 64, Event.resTable 128 0, Event.resNameTable 228 100], [], []⟩ := by
  decide

/-- C14 (counterexample): `sampleNoTable` has the `MZ` signature and a header of 64 readable
bytes that starts with `NE`, and it ends at offset 128, where the resource table would start.
The run returns status 1 without having read a byte of the table. -/
theorem rejected_with_NE_signature :
    sampleNoTable.take 2 = ascii "MZ" ∧ (headerBytesOf sampleNoTable).length = 64 ∧
    (headerBytesOf sampleNoTable).take 2 = ascii "NE" ∧ sampleNoTable.length = 128 ∧
    main envOk [] false false sampleNoTable =
      some ⟨1, some Err.readShiftCount,
        [Event.extHeader 64, Event.resTable 128 0, Event.resNameTable 228 100], [], []⟩ := by
  refine ⟨by decide, by decide, by decide, rfl, sampleNoTable_run⟩

/-- C14 (as amended): for an accepted output prefix and an input that starts with `MZ`, has
the four bytes of the header offset at `0x3C` and 64 readable bytes at that offset, the run
ends with the error `Not an NE header` exactly when the first two of the 64 bytes are not
`NE`. It then returns status 1 after the line of the header offset, before any seek to the
resource table; and when the two bytes are `NE`, the run goes on to print the offset of the
resource table. -/
theorem ne_signature_check (env : Env) (outPrefix : List Byte) (dump useNames : Bool)
    (data : List Byte) (hp : outPrefix.length ≤ 256) (hmz : data.take 2 = ascii "MZ")
    (hoff : ((data.drop 0x3C).take 4).length = 4) (hhdr : (headerBytesOf data).length = 64) :
    ∃ r, main env outPrefix dump useNames data = some r ∧
      (r.err = some Err.notNE ↔ (headerBytesOf data).take 2 ≠ ascii "NE") ∧
      ((headerBytesOf data).take 2 ≠ ascii "NE" →
        r = ⟨1, some Err.notNE, [Event.extHeader (extHeaderOffsetOf data)], [], []⟩) ∧
      ((headerBytesOf data).take 2 = ascii "NE" →
        r.log.take 2 =
          [Event.extHeader (extHeaderOffsetOf data),
            Event.resTable
              (toInt32 ((headerOf data).ResTableOffset + extHeaderOffsetOf data))
              (headerOf data).nResTabEntries]) := by
  have hsig : (headerOf data).sig = (headerBytesOf data).take 2 := rfl
  obtain ⟨r, hr, _, _, herr, hok⟩ := main_inv env outPrefix dump useNames data
  refine ⟨r, hr, ?_⟩
  rcases prelude_signature env outPrefix dump useNames data hp hmz hoff hhdr with
    ⟨hne, hpre⟩ | ⟨hne, herr2, hlog⟩
  · rw [hsig] at hne
    have hre := (herr _ hpre).1
    refine ⟨?_, fun _ => hre, fun h => absurd h hne⟩
    rw [hre]
    exact ⟨fun _ => hne, fun _ => rfl⟩
  · rw [hsig] at hne
    cases hpre : prelude env outPrefix dump useNames data with
    | error e =>
      rw [hpre] at herr2 hlog
      have hre := (herr _ hpre).1
      rw [hre]
      exact ⟨⟨fun h => absurd h herr2, fun h => absurd hne h⟩, fun h => absurd hne h,
        fun _ => hlog⟩
    | ok cs =>
      obtain ⟨c, st⟩ := cs
      rw [hpre] at hlog
      obtain ⟨_, _, hw, evs, hl⟩ := hok c st hpre
      have hlog2 : st.log.take 2 = _ := hlog
      refine ⟨⟨fun h => ?_, fun h => absurd hne h⟩, fun h => absurd hne h, fun _ => ?_⟩
      · rw [h] at hw; cases hw
      · rw [hl, List.take_append_of_le_length, hlog2]
        have := congrArg List.length hlog2
        rw [List.length_take] at this
        simp only [List.length_cons, List.length_nil] at this
        omega

theorem ne_signature_check_witness :
    ∃ r, main envOk [] false false (sampleFile 100 0 [0, 0]) = some r ∧
      (r.err = some Err.notNE ↔ (headerBytesOf (sampleFile 100 0 [0, 0])).take 2 ≠ ascii "NE") ∧
      ((headerBytesOf (sampleFile 100 0 [0, 0])).take 2 ≠ ascii "NE" →
        r = ⟨1, some Err.notNE, [Event.extHeader (extHeaderOffsetOf (sampleFile 100 0 [0, 0]))],
          [], []⟩) ∧
      ((headerBytesOf (sampleFile 100 0 [0, 0])).take 2 = ascii "NE" →
        r.log.take 2 =
          [Event.extHeader (extHeaderOffsetOf (sampleFile 100 0 [0, 0])),
            Event.resTable
              (toInt32 ((headerOf (sampleFile 100 0 [0, 0])).ResTableOffset +
                extHeaderOffsetOf (sampleFile 100 0 [0, 0])))
              (headerOf (sampleFile 100 0 [0, 0])).nResTabEntries]) :=
  ne_signature_check envOk [] false false (sampleFile 100 0 [0, 0]) (by decide) (by decide)
    (by decide) (by decide)

/-! ## Distinct names of the output files -/

theorem filesBelow_mono (c : Ctx) (k i k3 i3 : Nat) (files : List (List Byte × List Byte))
    (h : FilesBelow c k i files) (hle : k < k3 ∨ (k = k3 ∧ i ≤ i3)) :
    FilesBelow c k3 i3 files := by
  refine ⟨h.1, fun p hp => ?_⟩
  obtain ⟨k2, i2, e, h1, h2, h3⟩ := h.2 p hp
  exact ⟨k2, i2, e, h1, h2, by omega⟩

theorem filesBelow_snoc (c : Ctx) (k i : Nat) (files : List (List Byte × List Byte))
    (nb tb out : List Byte) (hu : c.useNames = false) (hk : k < 4294967296)
    (hi : i < 4294967296) (h : FilesBelow c k i files) :
    FilesBelow c k (i + 1) (files ++ [(dumpFilename c k i nb tb, out)]) := by
  have hname : dumpFilename c k i nb tb = dumpFilename c k i [] [] := by
    rw [dumpFilename_index c k i _ _ hu, dumpFilename_index c k i _ _ hu]
  constructor
  · rw [List.map_append, List.nodup_append]
    refine ⟨h.1, by simp, ?_⟩
    intro a ha hb
    rw [List.map_cons, List.map_nil, List.mem_singleton] at hb
    obtain ⟨p, hp, hpa⟩ := List.mem_map.mp ha
    obtain ⟨k2, i2, e, h1, h2, h3⟩ := h.2 p hp
    have heq : dumpFilename c k2 i2 [] [] = dumpFilename c k i nb tb := by
      rw [← e, hpa, hb]
    have := (dumpFilename_index_inj c k2 i2 k i [] [] nb tb hu h1 h2 hk hi).mp heq
    omega
  · intro p hp
    rcases List.mem_append.mp hp with h1 | h1
    · obtain ⟨k2, i2, e, h2, h3, h4⟩ := h.2 p h1
      exact ⟨k2, i2, e, h2, h3, by omega⟩
    · rw [List.mem_singleton] at h1
      subst h1
      exact ⟨k, i, hname, hk, hi, by omega⟩

theorem resolveName_files (c : Ctx) (st : State) (rb : ResBlock) :
    stepFiles (resolveName c st rb) = st.files := by
  unfold resolveName
  split
  · dsimp only
    split <;> rfl
  · rfl

theorem resolveType_files (c : Ctx) (st : State) (tb : TypeBlock) :
    stepFiles (resolveType c st tb) = st.files := by
  unfold resolveType
  split
  · dsimp only
    split <;> rfl
  · rfl

theorem dumpStep_files (c : Ctx) (k i : Nat) (st : State) (rb : ResBlock)
    (hu : c.useNames = false) (hk : k < 4294967296) (hi : i < 4294967296)
    (h : FilesBelow c k i st.files) :
    ∃ r, dumpStep c k i st rb = some r ∧ FilesBelow c k (i + 1) (stepFiles r) := by
  have hmono := filesBelow_mono c k i k (i + 1) st.files h (by omega)
  unfold dumpStep
  by_cases hd : c.dump = false
  · rw [if_pos hd]
    exact ⟨_, rfl, hmono⟩
  · rw [if_neg hd]
    dsimp only
    obtain ⟨d, hdump⟩ := dumpResource_total c.env st.f (byteOffsetOf c rb) (actualLengthOf c rb)
      (dumpFilename c k i st.nameBuf st.typeBuf)
    rw [hdump]
    dsimp only
    have hfiles : FilesBelow c k (i + 1) (match d.out with
        | none => st.files
        | some out => st.files ++ [(dumpFilename c k i st.nameBuf st.typeBuf, out)]) := by
      cases d.out with
      | none => exact hmono
      | some out => exact filesBelow_snoc c k i st.files _ _ out hu hk hi h
    by_cases hr : d.ret ≠ 0
    · rw [if_pos hr]
      exact ⟨_, rfl, hfiles⟩
    · rw [if_neg hr]
      exact ⟨_, rfl, hfiles⟩

theorem resLoop_files (c : Ctx) (k : Nat) (hu : c.useNames = false) (hk : k < 4294967296) :
    ∀ (n i : Nat) (st : State), i + n ≤ 4294967296 → FilesBelow c k i st.files →
    ∃ r, resLoop c k n i st = some r ∧ FilesBelow c k (i + n) (stepFiles r) := by
  intro n
  induction n with
  | zero =>
    intro i st _ h
    exact ⟨_, rfl, h⟩
  | succ n ih =>
    intro i st hin h
    have hmono := filesBelow_mono c k i k (i + (n + 1)) st.files h (by omega)
    rw [resLoop]
    dsimp only
    by_cases hl : (fread st.f 12).1.length ≠ 12
    · rw [if_pos hl]
      exact ⟨_, rfl, hmono⟩
    · rw [if_neg hl]
      generalize hst1 : ({ st with
          f := (fread st.f 12).2, byteCounter := st.byteCounter + 12,
          counters := st.counters ++ [st.byteCounter + 12],
          log := st.log ++ [Event.resource k i (decodeResBlock (fread st.f 12).1).flags
            (actualLengthOf c (decodeResBlock (fread st.f 12).1))
            (byteOffsetOf c (decodeResBlock (fread st.f 12).1))] } : State) = st1
      have h1f : st1.files = st.files := by rw [← hst1]
      have hnf := resolveName_files c st1 (decodeResBlock (fread st.f 12).1)
      cases hn : resolveName c st1 (decodeResBlock (fread st.f 12).1) with
      | error e =>
        rw [hn] at hnf
        refine ⟨_, rfl, ?_⟩
        show FilesBelow c k (i + (n + 1)) e.files
        have : e.files = st1.files := hnf
        rw [this, h1f]
        exact hmono
      | ok st2 =>
        rw [hn] at hnf
        have h2f : st2.files = st.files := by
          have : st2.files = st1.files := hnf
          rw [this, h1f]
        dsimp only
        obtain ⟨r, hr, hrf⟩ := dumpStep_files c k i st2 (decodeResBlock (fread st.f 12).1) hu hk
          (by omega) (by rw [h2f]; exact h)
        rw [hr]
        cases r with
        | error e =>
          exact ⟨_, rfl, filesBelow_mono c k (i + 1) k (i + (n + 1)) _ hrf (by omega)⟩
        | ok st3 =>
          dsimp only
          obtain ⟨r4, h4, h4f⟩ := ih (i + 1) st3 (by omega) hrf
          refine ⟨r4, h4, ?_⟩
          have e : i + 1 + n = i + (n + 1) := by omega
          rw [← e]
          exact h4f

theorem finish_files (c : Ctx) (st : State) : (finish c st).files = st.files := by
  unfold finish
  split <;> rfl

/-- Without `-usenames` the output files of the walk have different names. -/
theorem typeLoop_files (c : Ctx) (hu : c.useNames = false) :
    ∀ (fuel k : Nat) (st : State), k + fuel < 4294967296 →
    c.maxBytes - st.byteCounter ≤ fuel → FilesBelow c k 0 st.files →
    ∃ r, typeLoop c fuel k st = some r ∧ (r.files.map Prod.fst).Nodup := by
  intro fuel
  induction fuel with
  | zero =>
    intro k st _ h hf
    rw [typeLoop_done c 0 k st (by omega), ]
    exact ⟨_, rfl, by rw [finish_files]; exact hf.1⟩
  | succ fuel ih =>
    intro k st hk h hf
    by_cases hlt : st.byteCounter < c.maxBytes
    · rw [typeLoop, if_pos hlt]
      dsimp only
      by_cases hl : (fread st.f 8).1.length ≠ 8
      · rw [if_pos hl]
        exact ⟨_, rfl, hf.1⟩
      · rw [if_neg hl]
        by_cases hz : (decodeTypeBlock (fread st.f 8).1).typeID = 0
        · rw [if_pos hz]
          exact ⟨_, rfl, by rw [finish_files]; exact hf.1⟩
        · rw [if_neg hz]
          have htf := resolveType_files c { st with f := (fread st.f 8).2 }
            (decodeTypeBlock (fread st.f 8).1)
          cases ht : resolveType c { st with f := (fread st.f 8).2 }
            (decodeTypeBlock (fread st.f 8).1) with
          | error e =>
            rw [ht] at htf
            refine ⟨_, rfl, ?_⟩
            have : e.files = st.files := htf
            rw [this]
            exact hf.1
          | ok st2 =>
            rw [ht] at htf
            have h2f : st2.files = st.files := htf
            have hb2 := resolveType_byteCounter _ _ _ _ ht
            dsimp only
            have hN := decodeTypeBlock_resCount_lt (fread st.f 8).1
            generalize (decodeTypeBlock (fread st.f 8).1).resCount = N at hN
            obtain ⟨r, hr, hrf⟩ := resLoop_files c k hu (by omega) N 0
              { st2 with
                byteCounter := st2.byteCounter + 8,
                counters := st2.counters ++ [st2.byteCounter + 8],
                log := st2.log ++ [Event.resCount N] } (by omega)
              (by show FilesBelow c k 0 st2.files; rw [h2f]; exact hf)
            obtain ⟨r2, hr2, hrb⟩ := resLoop_total c k N 0
              { st2 with
                byteCounter := st2.byteCounter + 8,
                counters := st2.counters ++ [st2.byteCounter + 8],
                log := st2.log ++ [Event.resCount N] }
            rw [hr] at hr2
            cases Option.some.inj hr2
            rw [hr]
            cases r with
            | error e => exact ⟨_, rfl, hrf.1⟩
            | ok st4 =>
              dsimp only
              have hb4 : st2.byteCounter + 8 ≤ st4.byteCounter := hrb st4 rfl
              have hb2b : st2.byteCounter = st.byteCounter := hb2
              exact ih (k + 1) st4 (by omega) (by push_cast at h; omega)
                (filesBelow_mono c k (0 + N) (k + 1) 0 _ hrf (by omega))
    · rw [typeLoop_done c _ k st hlt]
      exact ⟨_, rfl, by rw [finish_files]; exact hf.1⟩

/-- Without `-usenames` no output file of a run is created twice. -/
theorem main_index_files_nodup (env : Env) (outPrefix : List Byte) (dump : Bool)
    (data : List Byte) :
    ∃ r, main env outPrefix dump false data = some r ∧ (r.files.map Prod.fst).Nodup := by
  cases hpre : prelude env outPrefix dump false data with
  | error e =>
    refine ⟨e, by unfold main; rw [hpre], ?_⟩
    unfold prelude at hpre
    split at hpre
    · cases hpre; exact List.nodup_nil
    · dsimp only at hpre
      split at hpre
      · cases hpre; exact List.nodup_nil
      · split at hpre
        · cases hpre; exact List.nodup_nil
        · split at hpre
          · cases hpre; exact List.nodup_nil
          · split at hpre
            · cases hpre; exact List.nodup_nil
            · split at hpre
              · cases hpre; exact List.nodup_nil
              · split at hpre
                · cases hpre; exact List.nodup_nil
                · split at hpre
                  · cases hpre; exact List.nodup_nil
                  · cases hpre
  | ok cs =>
    obtain ⟨c, st⟩ := cs
    obtain ⟨_, hbc, _, _, _, hmax, _, _, _⟩ := prelude_ok _ _ _ _ _ _ _ hpre
    obtain ⟨_, _, _, _, _, _, _, _, hfiles⟩ := prelude_start _ _ _ _ _ _ _ hpre
    have hu : c.useNames = false := by
      unfold prelude at hpre
      split at hpre
      · cases hpre
      · dsimp only at hpre
        split at hpre
        · cases hpre
        · split at hpre
          · cases hpre
          · split at hpre
            · cases hpre
            · split at hpre
              · cases hpre
              · split at hpre
                · cases hpre
                · split at hpre
                  · cases hpre
                  · split at hpre
                    · cases hpre
                    · injection hpre with hpre
                      injection hpre with hc hst
                      subst hc
                      rfl
    rw [main_of_prelude _ _ _ _ _ _ _ hpre]
    exact typeLoop_files c hu c.maxBytes.toNat 0 st (by omega) (by rw [hbc]; omega)
      ⟨by rw [hfiles]; exact List.nodup_nil, by rw [hfiles]; simp⟩

/-- C20: without `-usenames`, for a fixed prefix and type and resource indices that are unsigned
32-bit values, the output file name is `prefix ++ pad5 k ++ "-" ++ pad5 i ++ ".bin"`, and two
such names are equal only if the type indices are equal and the resource indices are equal; so
in every run without `-usenames` the output files created have different names: no resource
overwrites another. -/
theorem index_filename_injective (c : Ctx) (k i k2 i2 : Nat)
    (nameBuf typeBuf nameBuf2 typeBuf2 : List Byte) (env : Env) (dump : Bool)
    (data : List Byte) (hu : c.useNames = false)
    (hk : k < 4294967296) (hi : i < 4294967296) (hk2 : k2 < 4294967296)
    (hi2 : i2 < 4294967296) :
    dumpFilename c k i nameBuf typeBuf =
      c.outPrefix ++ pad5 k ++ ascii "-" ++ pad5 i ++ ascii ".bin" ∧
    (dumpFilename c k i nameBuf typeBuf = dumpFilename c k2 i2 nameBuf2 typeBuf2 ↔
      k = k2 ∧ i = i2) ∧
    ∃ r, main env c.outPrefix dump c.useNames data = some r ∧
      (r.files.map Prod.fst).Nodup := by
  refine ⟨?_, dumpFilename_index_inj c k i k2 i2 _ _ _ _ hu hk hi hk2 hi2, ?_⟩
  · unfold dumpFilename
    rw [if_pos hu, fmt05u_eq_pad5 k hk, fmt05u_eq_pad5 i hi]
  · rw [hu]
    exact main_index_files_nodup env c.outPrefix dump data

theorem index_filename_injective_witness :
    dumpFilename ⟨envOk, ascii "out_", true, false, 128, 100, 1, 0⟩ 0 1 [] [] =
      ascii "out_" ++ pad5 0 ++ ascii "-" ++ pad5 1 ++ ascii ".bin" ∧
    (dumpFilename ⟨envOk, ascii "out_", true, false, 128, 100, 1, 0⟩ 0 1 [] [] =
        dumpFilename ⟨envOk, ascii "out_", true, false, 128, 100, 1, 0⟩ 1 0 [] [] ↔
      0 = 1 ∧ 1 = 0) ∧
    ∃ r, main envOk (ascii "out_") true false sampleTwins = some r ∧
      (r.files.map Prod.fst).Nodup :=
  index_filename_injective ⟨envOk, ascii "out_", true, false, 128, 100, 1, 0⟩ 0 1 1 0 [] [] [] []
    envOk true sampleTwins rfl (by decide) (by decide) (by decide) (by decide)

/-- The run on `sampleTwins` without `-usenames`: the two resources with the same numeric id
go to two files. -/
theorem sampleTwins_index_run :
    (main envOk (ascii "out_") true false sampleTwins).map (fun r => r.files.map Prod.fst) =
      some [ascii "out_00000-00000.bin", ascii "out_00000-00001.bin"] := by
  decide

/-! ## One pass of the walk and the table in the file -/

theorem typeLoop_succ (c : Ctx) (fuel k : Nat) (st : State) :
    typeLoop c (fuel + 1) k st =
      if st.byteCounter < c.maxBytes then
        match typeStep c k st with
        | none => none
        | some (.error e) => some e
        | some (.ok st2) => typeLoop c fuel (k + 1) st2
      else some (finish c st) := by
  rw [typeLoop]
  unfold typeStep
  by_cases hlt : st.byteCounter < c.maxBytes
  · rw [if_pos hlt, if_pos hlt]
    dsimp only
    by_cases hl : (fread st.f 8).1.length ≠ 8
    · rw [if_pos hl, if_pos hl]
    · rw [if_neg hl, if_neg hl]
      by_cases hz : (decodeTypeBlock (fread st.f 8).1).typeID = 0
      · rw [if_pos hz, if_pos hz]
      · rw [if_neg hz, if_neg hz]
        cases resolveType c { st with f := (fread st.f 8).2 }
            (decodeTypeBlock (fread st.f 8).1) with
        | error e => rfl
        | ok st2 => rfl
  · rw [if_neg hlt, if_neg hlt]

theorem resCounts_append (l l2 : List Event) :
    resCounts (l ++ l2) = resCounts l ++ resCounts l2 := by
  unfold resCounts; rw [List.filterMap_append]

theorem resourceLines_append (l l2 : List Event) :
    resourceLines (l ++ l2) = resourceLines l ++ resourceLines l2 := by
  unfold resourceLines; rw [List.filter_append]

theorem shl32_lt (x s : Nat) : shl32 x s < 4294967296 := by
  unfold shl32; exact Nat.mod_lt _ (by norm_num)

theorem getOffsetString_counted (f : FILE) (p : Int) (buf : List Byte)
    (h : (getOffsetString f p buf).ret = 0) :
    cstr (getOffsetString f p buf).buf = cstr (countedString f.data p.toNat) := by
  revert h
  unfold getOffsetString
  by_cases hp : p < 0
  · rw [fseek_neg f p hp]; intro h; simp at h
  · rw [fseek_nonneg f p (by omega)]
    dsimp only
    split
    · rename_i length hl
      split
      · intro h; simp at h
      · by_cases h4 : toInt32 (ftell f) < 0
        · rw [fseek_neg _ _ h4]; intro h; simp at h
        · rw [fseek_nonneg _ _ (by omega)]
          intro _
          dsimp only
          rw [cstr_append_zero]
          have h1 : (f.data.drop p.toNat).take 1 = [length] := hl
          have h2 : (fread (fread { f with pos := p.toNat } 1).2 length.val).1 =
              (f.data.drop (p.toNat + 1)).take length.val := by
            rw [fread_fst, fread_data, fread_pos, hl]
            rfl
          rw [h2]
          unfold countedString
          cases hd : f.data.drop p.toNat with
          | nil => rw [hd] at h1; cases h1
          | cons a rest =>
            rw [hd] at h1
            have ha : a = length := by
              simp only [List.take_succ_cons, List.take_zero] at h1
              exact List.head_eq_of_cons_eq h1
            dsimp only
            rw [← List.drop_drop, hd, ha]
            rfl
    · intro h; simp at h

theorem dumpResource_contents (env : Env) (fin : FILE) (offset byteCount : Nat)
    (filename : List Byte) (d : Dump) (h32 : byteCount < 4294967296)
    (h : dumpResource env fin offset byteCount filename = some d) (hret : d.ret = 0) :
    d.out = some (dumpContents env fin.data offset byteCount) := by
  unfold dumpContents
  by_cases hlt : byteCount < 2147483648
  · rw [if_pos hlt]
    exact (dumpResource_copies env fin offset byteCount filename d hlt h hret).1
  · rw [if_neg hlt]
    have hneg := toInt32_neg_of_ge byteCount (by omega) h32
    unfold dumpResource at h
    split at h
    · cases h; simp at hret
    · dsimp only at h
      rw [fseek_nonneg fin (offset : Int) (by omega)] at h
      dsimp only at h
      rw [copyBlocks_done _ _ _ _ _ (by omega)] at h
      dsimp only at h
      rw [if_neg (by simp)] at h
      split at h
      · cases h; simp at hret
      · cases h; simp

theorem dumpFilename_spec (c : Ctx) (k i : Nat) (nb tb : List Byte) (hk : k < 4294967296)
    (hi : i < 4294967296) :
    dumpFilename c k i nb tb = specFilename c k i (cstr nb) (cstr tb) := by
  unfold dumpFilename specFilename
  rw [fmt05u_eq_pad5 k hk, fmt05u_eq_pad5 i hi]

/-- What the resolution of a resource identifier leaves when it succeeds: the name of the
specification in `nameBuf`, one line that is not a `resource` or `Resource count` line, and
everything else as it was. -/
theorem resolveName_spec (c : Ctx) (st st2 : State) (rb : ResBlock)
    (h : resolveName c st rb = .ok st2) :
    cstr st2.nameBuf = specName c st.f.data rb ∧ st2.typeBuf = st.typeBuf ∧
    st2.files = st.files ∧ st2.byteCounter = st.byteCounter ∧ st2.counters = st.counters ∧
    resCounts st2.log = resCounts st.log ∧ resourceLines st2.log = resourceLines st.log ∧
    (st.f.pos < 4294967296 → st2.f = st.f) := by
  unfold resolveName at h
  unfold specName
  by_cases hb : rb.resourceID &&& 0x8000 = 0
  · rw [if_pos hb] at h ⊢
    dsimp only at h
    split at h
    · cases h
    · rename_i hret
      injection h with h
      subst h
      have hs := getOffsetString_success _ _ _ (not_not.mp hret)
      refine ⟨getOffsetString_counted _ _ _ (not_not.mp hret), rfl, rfl, rfl, rfl, ?_, ?_, ?_⟩
      · show resCounts (st.log ++ _) = _
        rw [resCounts_append]; exact List.append_nil _
      · show resourceLines (st.log ++ _) = _
        rw [resourceLines_append]; exact List.append_nil _
      · intro hpos
        show (getOffsetString _ _ _).f = st.f
        rw [hs.2]; exact restore_eq _ hpos hs.1
  · rw [if_neg hb] at h ⊢
    injection h with h
    subst h
    have hlt : rb.resourceID &&& 0x7FFF < 4294967296 := by rw [and_7FFF]; omega
    refine ⟨?_, rfl, rfl, rfl, rfl, ?_, ?_, fun _ => rfl⟩
    · show cstr (putStr st.nameBuf (fmt05u (rb.resourceID &&& 0x7FFF))) = _
      rw [cstr_putStr, cstr_of_nonzero _ (fmt05u_nonzero rb.resourceID), fmt05u_eq_pad5 _ hlt]
    · show resCounts (st.log ++ _) = _
      rw [resCounts_append]; exact List.append_nil _
    · show resourceLines (st.log ++ _) = _
      rw [resourceLines_append]; exact List.append_nil _

/-- What the resolution of a type identifier leaves when it succeeds: the extension of the
specification in `typeBuf`, one line that is not a `resource` or `Resource count` line, and
everything else as it was. -/
theorem resolveType_spec (c : Ctx) (st st2 : State) (tb : TypeBlock)
    (h : resolveType c st tb = .ok st2) :
    cstr st2.typeBuf = specExt c st.f.data tb ∧
    st2.files = st.files ∧ st2.byteCounter = st.byteCounter ∧ st2.counters = st.counters ∧
    resCounts st2.log = resCounts st.log ∧ resourceLines st2.log = resourceLines st.log ∧
    (st.f.pos < 4294967296 → st2.f = st.f) := by
  unfold resolveType at h
  unfold specExt
  by_cases hb : tb.typeID &&& 0x8000 = 0
  · rw [if_pos hb] at h ⊢
    dsimp only at h
    split at h
    · cases h
    · rename_i hret
      injection h with h
      subst h
      have hs := getOffsetString_success _ _ _ (not_not.mp hret)
      refine ⟨getOffsetString_counted _ _ _ (not_not.mp hret), rfl, rfl, rfl, ?_, ?_, ?_⟩
      · show resCounts (st.log ++ _) = _
        rw [resCounts_append]; exact List.append_nil _
      · show resourceLines (st.log ++ _) = _
        rw [resourceLines_append]; exact List.append_nil _
      · intro hpos
        show (getOffsetString _ _ _).f = st.f
        rw [hs.2]; exact restore_eq _ hpos hs.1
  · rw [if_neg hb] at h ⊢
    injection h with h
    subst h
    refine ⟨?_, rfl, rfl, rfl, ?_, ?_, fun _ => rfl⟩
    · show cstr (putStr st.typeBuf (ascii (getResourceTypeExt tb.typeID))) = _
      rw [cstr_putStr, cstr_of_nonzero _ (getResourceTypeExt_ok tb.typeID).1]
    · show resCounts (st.log ++ _) = _
      rw [resCounts_append]; exact List.append_nil _
    · show resourceLines (st.log ++ _) = _
      rw [resourceLines_append]; exact List.append_nil _

/-- What the extraction of a resource leaves when it succeeds: with `-dump`, one more output
file, under the name built from the two buffers and with the bytes at the offset and of the
length that the walker has computed; and everything else as it was. -/
theorem dumpStep_spec (c : Ctx) (k i : Nat) (st st2 : State) (rb : ResBlock)
    (h : dumpStep c k i st rb = some (.ok st2)) :
    st2.typeBuf = st.typeBuf ∧ st2.byteCounter = st.byteCounter ∧
    st2.counters = st.counters ∧
    resCounts st2.log = resCounts st.log ∧ resourceLines st2.log = resourceLines st.log ∧
    (st.f.pos < 4294967296 → st2.f = st.f) ∧
    st2.files = st.files ++
      (if c.dump = true then
        [(dumpFilename c k i st.nameBuf st.typeBuf,
          dumpContents c.env st.f.data (byteOffsetOf c rb) (actualLengthOf c rb))]
      else []) := by
  unfold dumpStep at h
  by_cases hd : c.dump = false
  · rw [if_pos hd] at h
    cases h
    refine ⟨rfl, rfl, rfl, rfl, rfl, fun _ => rfl, ?_⟩
    rw [if_neg (by simp [hd]), List.append_nil]
  · rw [if_neg hd] at h
    dsimp only at h
    split at h
    · cases h
    · rename_i d hdump
      split at h
      · cases h
      · rename_i hret
        injection h with h
        injection h with h
        subst h
        have hs := dumpResource_success _ _ _ _ _ _ hdump (not_not.mp hret)
        have hc := dumpResource_contents _ _ _ _ _ _ (shl32_lt _ _) hdump (not_not.mp hret)
        refine ⟨rfl, rfl, rfl, ?_, ?_, ?_, ?_⟩
        · show resCounts (st.log ++ _) = _
          rw [resCounts_append]; exact List.append_nil _
        · show resourceLines (st.log ++ _) = _
          rw [resourceLines_append]; exact List.append_nil _
        · intro hpos
          show d.fin = st.f
          rw [hs.2]; exact restore_eq _ hpos hs.1
        · rw [if_pos (by simpa using hd)]
          show (match d.out with
            | none => st.files
            | some out => st.files ++ [(dumpFilename c k i st.nameBuf st.typeBuf, out)]) = _
          rw [hc]
          rfl

/-! ## What a pass of the walk reads, prints and writes -/

/-- The loop over the resource blocks of one type, when it runs to its end: it has read `n`
records of 12 bytes, printed the `resource` line of each and, with `-dump`, written the output
file of each, under the name of the specification. -/
theorem resLoop_walk (c : Ctx) (k : Nat) (tb : TypeBlock) (hk : k < 4294967296) :
    ∀ (n i : Nat) (st st2 : State), resLoop c k n i st = some (.ok st2) →
    st.f.pos + 12 * n < 4294967296 → i + n ≤ 4294967296 →
    cstr st.typeBuf = specExt c st.f.data tb →
    st2.f = ⟨st.f.data, st.f.pos + 12 * n⟩ ∧
    st2.byteCounter = st.byteCounter + 12 * n ∧
    st2.typeBuf = st.typeBuf ∧
    resCounts st2.log = resCounts st.log ∧
    resourceLines st2.log = resourceLines st.log ++
      (groupEntriesAt st.f.data k tb n i st.f.pos).map (entryLine c) ∧
    st2.files = st.files ++
      (if c.dump = true then (groupEntriesAt st.f.data k tb n i st.f.pos).map
        (entryFile c st.f.data) else []) := by
  intro n
  induction n with
  | zero =>
    intro i st st2 h _ _ _
    rw [resLoop] at h
    cases h
    refine ⟨rfl, by simp, rfl, rfl, ?_, ?_⟩
    · simp [groupEntriesAt]
    · simp [groupEntriesAt]
  | succ n ih =>
    intro i st st2 h hpos hi hext
    rw [resLoop] at h
    dsimp only at h
    by_cases hl : (fread st.f 12).1.length ≠ 12
    · rw [if_pos hl] at h; cases h
    · rw [if_neg hl] at h
      have hl2 : (fread st.f 12).1.length = 12 := not_not.mp hl
      have hr2 : (fread st.f 12).2 = ⟨st.f.data, st.f.pos + 12⟩ := by
        show (⟨st.f.data, st.f.pos + (fread st.f 12).1.length⟩ : FILE) = _
        rw [hl2]
      have hr1 : (fread st.f 12).1 = (st.f.data.drop st.f.pos).take 12 := rfl
      rw [hr2, hr1] at h
      generalize hrb : decodeResBlock ((st.f.data.drop st.f.pos).take 12) = rb at h
      generalize hst1 : ({ st with
          f := ⟨st.f.data, st.f.pos + 12⟩, byteCounter := st.byteCounter + 12,
          counters := st.counters ++ [st.byteCounter + 12],
          log := st.log ++ [Event.resource k i rb.flags (actualLengthOf c rb)
            (byteOffsetOf c rb)] } : State) = st1 at h
      have h1f : st1.f = ⟨st.f.data, st.f.pos + 12⟩ := by rw [← hst1]
      have h1b : st1.byteCounter = st.byteCounter + 12 := by rw [← hst1]
      have h1t : st1.typeBuf = st.typeBuf := by rw [← hst1]
      have h1fl : st1.files = st.files := by rw [← hst1]
      have h1c : resCounts st1.log = resCounts st.log := by
        rw [← hst1]
        show resCounts (st.log ++ _) = _
        rw [resCounts_append]; exact List.append_nil _
      have h1r : resourceLines st1.log = resourceLines st.log ++
          [Event.resource k i rb.flags (actualLengthOf c rb) (byteOffsetOf c rb)] := by
        rw [← hst1]
        show resourceLines (st.log ++ _) = _
        rw [resourceLines_append]; rfl
      cases hn : resolveName c st1 rb with
      | error e => rw [hn] at h; cases h
      | ok st3 =>
        rw [hn] at h
        dsimp only at h
        obtain ⟨n3, t3, fl3, b3, _, c3, r3, f3⟩ := resolveName_spec c st1 st3 rb hn
        have f3b : st3.f = ⟨st.f.data, st.f.pos + 12⟩ := by
          rw [f3 (by rw [h1f]; show st.f.pos + 12 < 4294967296; omega), h1f]
        cases hd : dumpStep c k i st3 rb with
        | none => rw [hd] at h; cases h
        | some r =>
          rw [hd] at h
          cases r with
          | error e => cases h
          | ok st4 =>
            dsimp only at h
            obtain ⟨t4, b4, _, c4, r4, f4, fl4⟩ := dumpStep_spec c k i st3 st4 rb hd
            have f4b : st4.f = ⟨st.f.data, st.f.pos + 12⟩ := by
              rw [f4 (by rw [f3b]; show st.f.pos + 12 < 4294967296; omega), f3b]
            have hext4 : cstr st4.typeBuf = specExt c st4.f.data tb := by
              rw [t4, t3, h1t, f4b]; exact hext
            obtain ⟨g1, g2, g3, g4, g5, g6⟩ := ih (i + 1) st4 st2 h
              (by rw [f4b]; show st.f.pos + 12 + 12 * n < 4294967296; omega) (by omega) hext4
            rw [f4b] at g1 g5 g6
            refine ⟨?_, ?_, ?_, ?_, ?_, ?_⟩
            · rw [g1]
              show (⟨st.f.data, st.f.pos + 12 + 12 * n⟩ : FILE) = _
              congr 1; omega
            · rw [g2, b4, b3, h1b]; push_cast; omega
            · rw [g3, t4, t3, h1t]
            · rw [g4, c4, c3, h1c]
            · rw [g5, r4, r3, h1r]
              show _ = resourceLines st.log ++ List.map (entryLine c)
                (⟨k, i, tb, decodeResBlock ((st.f.data.drop st.f.pos).take 12)⟩ ::
                  groupEntriesAt st.f.data k tb n (i + 1) (st.f.pos + 12))
              rw [hrb, List.map_cons, List.append_assoc]
              rfl
            · rw [g6, fl4, fl3, h1fl, f3b]
              show _ = st.files ++ (if c.dump = true then List.map (entryFile c st.f.data)
                (⟨k, i, tb, decodeResBlock ((st.f.data.drop st.f.pos).take 12)⟩ ::
                  groupEntriesAt st.f.data k tb n (i + 1) (st.f.pos + 12)) else [])
              rw [hrb]
              by_cases hdump : c.dump = true
              · rw [if_pos hdump, if_pos hdump, if_pos hdump, List.map_cons, List.append_assoc,
                  dumpFilename_spec c k i _ _ hk (by omega), n3, t3, h1t, hext, h1f]
                rfl
              · rw [if_neg hdump, if_neg hdump, if_neg hdump, List.append_nil]

/-- One pass of the loop over the type blocks, when it comes to the next evaluation of the
loop condition: it has read a type block with a non-zero identifier and its `resCount` resource
blocks, printed the resource count and the `resource` lines and, with `-dump`, written the
output files of the block. -/
theorem typeStep_walk (c : Ctx) (k : Nat) (st st2 : State)
    (h : typeStep c k st = some (.ok st2))
    (hpos : st.f.pos + 8 + 12 * 65535 < 4294967296) (hk : k < 4294967296) :
    (decodeTypeBlock ((st.f.data.drop st.f.pos).take 8)).typeID ≠ 0 ∧
    st2.f = ⟨st.f.data, st.f.pos + 8 +
      12 * (decodeTypeBlock ((st.f.data.drop st.f.pos).take 8)).resCount⟩ ∧
    st2.byteCounter = st.byteCounter + 8 +
      12 * (decodeTypeBlock ((st.f.data.drop st.f.pos).take 8)).resCount ∧
    resCounts st2.log = resCounts st.log ++
      [(decodeTypeBlock ((st.f.data.drop st.f.pos).take 8)).resCount] ∧
    resourceLines st2.log = resourceLines st.log ++
      (groupEntriesAt st.f.data k (decodeTypeBlock ((st.f.data.drop st.f.pos).take 8))
        (decodeTypeBlock ((st.f.data.drop st.f.pos).take 8)).resCount 0
        (st.f.pos + 8)).map (entryLine c) ∧
    st2.files = st.files ++
      (if c.dump = true then
        (groupEntriesAt st.f.data k (decodeTypeBlock ((st.f.data.drop st.f.pos).take 8))
          (decodeTypeBlock ((st.f.data.drop st.f.pos).take 8)).resCount 0
          (st.f.pos + 8)).map (entryFile c st.f.data)
      else []) := by
  unfold typeStep at h
  dsimp only at h
  by_cases hl : (fread st.f 8).1.length ≠ 8
  · rw [if_pos hl] at h; cases h
  · rw [if_neg hl] at h
    have hl2 : (fread st.f 8).1.length = 8 := not_not.mp hl
    have hr2 : (fread st.f 8).2 = ⟨st.f.data, st.f.pos + 8⟩ := by
      show (⟨st.f.data, st.f.pos + (fread st.f 8).1.length⟩ : FILE) = _
      rw [hl2]
    have hr1 : (fread st.f 8).1 = (st.f.data.drop st.f.pos).take 8 := rfl
    rw [hr2, hr1] at h
    have hN := decodeTypeBlock_resCount_lt ((st.f.data.drop st.f.pos).take 8)
    generalize decodeTypeBlock ((st.f.data.drop st.f.pos).take 8) = tb at h hN ⊢
    by_cases hz : tb.typeID = 0
    · rw [if_pos hz] at h; cases h
    · rw [if_neg hz] at h
      cases ht : resolveType c { st with f := ⟨st.f.data, st.f.pos + 8⟩ } tb with
      | error e => rw [ht] at h; cases h
      | ok st3 =>
        rw [ht] at h
        dsimp only at h
        obtain ⟨e3, fl3, b3, _, c3, r3, f3⟩ := resolveType_spec c _ st3 tb ht
        have f3b : st3.f = ⟨st.f.data, st.f.pos + 8⟩ :=
          f3 (by show st.f.pos + 8 < 4294967296; omega)
        have b3b : st3.byteCounter = st.byteCounter := b3
        have fl3b : st3.files = st.files := fl3
        have c3b : resCounts st3.log = resCounts st.log := c3
        have r3b : resourceLines st3.log = resourceLines st.log := r3
        have e3b : cstr st3.typeBuf = specExt c st.f.data tb := e3
        obtain ⟨g1, g2, _, g4, g5, g6⟩ := resLoop_walk c k tb hk tb.resCount 0
          { st3 with
            byteCounter := st3.byteCounter + 8,
            counters := st3.counters ++ [st3.byteCounter + 8],
            log := st3.log ++ [Event.resCount tb.resCount] } st2 h
          (by show st3.f.pos + 12 * tb.resCount < 4294967296; rw [f3b]
              show st.f.pos + 8 + 12 * tb.resCount < 4294967296; omega)
          (by omega)
          (by show cstr st3.typeBuf = specExt c st3.f.data tb; rw [f3b]; exact e3b)
        dsimp only at g1 g2 g4 g5 g6
        rw [f3b] at g1 g5 g6
        refine ⟨hz, g1, ?_, ?_, ?_, ?_⟩
        · rw [g2, b3b]
        · rw [g4, resCounts_append, c3b]; rfl
        · rw [g5, resourceLines_append, r3b]
          show resourceLines st.log ++ [] ++ _ = _
          rw [List.append_nil]
        · rw [g6, fl3b]

theorem typeStep_byteCounter (c : Ctx) (k : Nat) (st st2 : State)
    (h : typeStep c k st = some (.ok st2)) : st.byteCounter + 8 ≤ st2.byteCounter := by
  unfold typeStep at h
  dsimp only at h
  split at h
  · cases h
  · split at h
    · cases h
    · split at h
      · cases h
      · rename_i st3 ht
        have hb := resolveType_byteCounter _ _ _ _ ht
        obtain ⟨r, hr, hrb⟩ := resLoop_total c k
          (decodeTypeBlock (fread st.f 8).1).resCount 0
          { st3 with
            byteCounter := st3.byteCounter + 8,
            counters := st3.counters ++ [st3.byteCounter + 8],
            log := st3.log ++ [Event.resCount (decodeTypeBlock (fread st.f 8).1).resCount] }
        rw [hr] at h
        have := hrb st2 (Option.some.inj h)
        have hb2 : st3.byteCounter = st.byteCounter := hb
        have h3 : st3.byteCounter + 8 ≤ st2.byteCounter := this
        omega

/-- The run goes on from a state of the walk: the passes before it are the first passes of
the loop of `main`. -/
theorem walkState_run (c : Ctx) : ∀ (n k : Nat) (st s : State) (fuel : Nat),
    walkState c n k st = some s → c.maxBytes - st.byteCounter ≤ fuel →
    typeLoop c fuel k st = typeLoop c (fuel - n) (k + n) s ∧
    c.maxBytes - s.byteCounter ≤ ((fuel - n : Nat) : Int) ∧
    st.byteCounter + 8 * n ≤ s.byteCounter := by
  intro n
  induction n with
  | zero =>
    intro k st s fuel h hf
    rw [walkState] at h
    cases h
    exact ⟨rfl, by simpa using hf, by simp⟩
  | succ n ih =>
    intro k st s fuel h hf
    rw [walkState] at h
    by_cases hlt : st.byteCounter < c.maxBytes
    · rw [if_pos hlt] at h
      obtain ⟨f, rfl⟩ : ∃ f, fuel = f + 1 := ⟨fuel - 1, by omega⟩
      rw [typeLoop_succ, if_pos hlt]
      cases hs : typeStep c k st with
      | none => rw [hs] at h; cases h
      | some r =>
        rw [hs] at h
        cases r with
        | error e => cases h
        | ok st2 =>
          dsimp only at h ⊢
          have hb := typeStep_byteCounter c k st st2 hs
          obtain ⟨g1, g2, g3⟩ := ih (k + 1) st2 s f h (by push_cast at hf; omega)
          refine ⟨?_, ?_, ?_⟩
          · rw [g1]
            have e1 : f + 1 - (n + 1) = f - n := by omega
            have e2 : k + 1 + n = k + (n + 1) := by omega
            rw [e1, e2]
          · have e1 : f + 1 - (n + 1) = f - n := by omega
            rw [e1]; exact g2
          · push_cast; omega
    · rw [if_neg hlt] at h; cases h

/-! ## The constants of the walk -/

theorem tableSpanAt_succ (data : List Byte) (n pos : Nat) :
    tableSpanAt data (n + 1) pos =
      8 + 12 * (decodeTypeBlock ((data.drop pos).take 8)).resCount +
        tableSpanAt data n
          (pos + 8 + 12 * (decodeTypeBlock ((data.drop pos).take 8)).resCount) := by
  unfold tableSpanAt
  rw [tableBlocksAt, List.map_cons, List.sum_cons]
  ring

/-- The walk in a state reached after `n` passes: it has read the first `n` type blocks of the
table and their resource blocks, one after the other; the byte counter and the stream position
have gone up by the number of their bytes; and the walk has printed the resource count of each
type block and the `resource` line of each entry and, with `-dump`, written the output file of
each entry. -/
theorem walkState_walk (c : Ctx) (hoff : c.resTableOffset < 2147483648)
    (hmax : c.maxBytes ≤ 65535) :
    ∀ (n k : Nat) (st s : State), walkState c n k st = some s →
    (st.f.pos : Int) = c.resTableOffset + st.byteCounter → k + n < 4294967296 →
    s.f = ⟨st.f.data, st.f.pos + tableSpanAt st.f.data n st.f.pos⟩ ∧
    s.byteCounter = st.byteCounter + tableSpanAt st.f.data n st.f.pos ∧
    resCounts s.log = resCounts st.log ++
      (tableBlocksAt st.f.data n st.f.pos).map TypeBlock.resCount ∧
    (∀ tb ∈ tableBlocksAt st.f.data n st.f.pos, tb.typeID ≠ 0) ∧
    resourceLines s.log = resourceLines st.log ++
      (tableEntriesAt st.f.data n k st.f.pos).map (entryLine c) ∧
    s.files = st.files ++
      (if c.dump = true then (tableEntriesAt st.f.data n k st.f.pos).map
        (entryFile c st.f.data) else []) := by
  intro n
  induction n with
  | zero =>
    intro k st s h _ _
    rw [walkState] at h
    cases h
    refine ⟨rfl, by simp [tableSpanAt, tableBlocksAt], ?_, ?_, ?_, ?_⟩
    · simp [tableBlocksAt]
    · simp [tableBlocksAt]
    · simp [tableEntriesAt]
    · simp [tableEntriesAt]
  | succ n ih =>
    intro k st s h hinv hk
    rw [walkState] at h
    by_cases hlt : st.byteCounter < c.maxBytes
    · rw [if_pos hlt] at h
      cases hs : typeStep c k st with
      | none => rw [hs] at h; cases h
      | some r =>
        rw [hs] at h
        cases r with
        | error e => cases h
        | ok st2 =>
          dsimp only at h
          have hposb : st.f.pos + 8 + 12 * 65535 < 4294967296 := by omega
          obtain ⟨z1, f1, b1, c1, r1, fl1⟩ := typeStep_walk c k st st2 hs hposb (by omega)
          have hN := decodeTypeBlock_resCount_lt ((st.f.data.drop st.f.pos).take 8)
          have hd2 : st2.f.data = st.f.data := by rw [f1]
          have hp2 : st2.f.pos = st.f.pos + 8 +
              12 * (decodeTypeBlock ((st.f.data.drop st.f.pos).take 8)).resCount := by rw [f1]
          obtain ⟨g1, g2, g3, g4, g5, g6⟩ := ih (k + 1) st2 s h
            (by rw [hp2, b1]; push_cast; omega) (by omega)
          rw [hd2, hp2] at g1 g2 g3 g4 g5 g6
          refine ⟨?_, ?_, ?_, ?_, ?_, ?_⟩
          · rw [g1, tableSpanAt_succ]
            congr 1; omega
          · rw [g2, b1, tableSpanAt_succ]; push_cast; omega
          · rw [g3, c1, tableBlocksAt, List.map_cons, List.append_assoc]; rfl
          · intro tb htb
            rw [tableBlocksAt] at htb
            rcases List.mem_cons.mp htb with h1 | h1
            · rw [h1]; exact z1
            · exact g4 tb h1
          · rw [g5, r1, tableEntriesAt, List.map_append, List.append_assoc]
          · rw [g6, fl1, tableEntriesAt]
            by_cases hdump : c.dump = true
            · rw [if_pos hdump, if_pos hdump, if_pos hdump, List.map_append, List.append_assoc]
            · rw [if_neg hdump, if_neg hdump, if_neg hdump, List.append_nil]
    · rw [if_neg hlt] at h; cases h

theorem nonneg_of_not_neg (x : Int) (h : ¬ x < 0) : 0 ≤ x := not_lt.mp h

/-- The constants of the walk, as the part of `main` before the walk sets them. -/
theorem prelude_ctx_eq (env : Env) (outPrefix : List Byte) (dump useNames : Bool)
    (data : List Byte) (c : Ctx) (st : State)
    (h : prelude env outPrefix dump useNames data = .ok (c, st)) :
    c = ⟨env, outPrefix, dump, useNames,
      toInt32 (((headerOf data).ResTableOffset : Int) + (extHeaderOffsetOf data : Int)),
      toInt32 (toInt32 (((headerOf data).ResidNamTable : Int) + (extHeaderOffsetOf data : Int)) -
        toInt32 (((headerOf data).ResTableOffset : Int) + (extHeaderOffsetOf data : Int))),
      sizeShiftCountOf (headerOf data),
      u16 ((data.drop (toInt32 (((headerOf data).ResTableOffset : Int) +
        (extHeaderOffsetOf data : Int))).toNat).take 2) 0⟩ ∧
    0 ≤ toInt32 (((headerOf data).ResTableOffset : Int) + (extHeaderOffsetOf data : Int)) := by
  unfold prelude at h
  split at h
  · cases h
  · dsimp only at h
    split at h
    · cases h
    · split at h
      · cases h
      · split at h
        · cases h
        · split at h
          · cases h
          · split at h
            · cases h
            · split at h
              · cases h
              · rename_i f3 hseek
                split at h
                · cases h
                · injection h with h
                  injection h with hc hst
                  unfold fseek at hseek
                  split at hseek
                  · cases hseek
                  · rename_i hneg
                    injection hseek with hseek
                    rw [← hseek] at hc
                    exact ⟨hc.symm, nonneg_of_not_neg _ hneg⟩

theorem prelude_ctx (env : Env) (outPrefix : List Byte) (dump useNames : Bool)
    (data : List Byte) (c : Ctx) (st : State)
    (h : prelude env outPrefix dump useNames data = .ok (c, st)) :
    c.env = env ∧ c.outPrefix = outPrefix ∧ c.dump = dump ∧ c.useNames = useNames ∧
    c.resTableOffset =
      toInt32 (((headerOf data).ResTableOffset : Int) + (extHeaderOffsetOf data : Int)) ∧
    0 ≤ c.resTableOffset ∧ c.resTableOffset < 2147483648 ∧
    c.sizeShiftCount = sizeShiftCountOf (headerOf data) ∧
    c.offsetShiftCount = u16 ((data.drop c.resTableOffset.toNat).take 2) 0 := by
  obtain ⟨hc, h0⟩ := prelude_ctx_eq env outPrefix dump useNames data c st h
  have hr := toInt32_range (((headerOf data).ResTableOffset : Int) +
    (extHeaderOffsetOf data : Int))
  have e5 : c.resTableOffset =
      toInt32 (((headerOf data).ResTableOffset : Int) + (extHeaderOffsetOf data : Int)) := by
    rw [hc]
  refine ⟨by rw [hc], by rw [hc], by rw [hc], by rw [hc], e5, ?_, ?_, by rw [hc], ?_⟩
  · rw [e5]; exact h0
  · rw [e5]; exact hr.2
  · rw [e5, hc]

/-! ## The rest of a run keeps what is printed and written -/

theorem resolveName_extends (c : Ctx) (st : State) (rb : ResBlock) :
    st.log <+: stepLog (resolveName c st rb) ∧ st.files <+: stepFiles (resolveName c st rb) := by
  rw [resolveName_files]
  refine ⟨?_, List.prefix_refl _⟩
  rcases resolveName_inv c st rb with h | ⟨st2, ev, h, hl, _⟩
  · rw [h]; exact List.prefix_refl _
  · rw [h]
    show st.log <+: st2.log
    rw [hl]; exact List.prefix_append _ _

theorem resolveType_extends (c : Ctx) (st : State) (tb : TypeBlock) :
    st.log <+: stepLog (resolveType c st tb) ∧ st.files <+: stepFiles (resolveType c st tb) := by
  rw [resolveType_files]
  refine ⟨?_, List.prefix_refl _⟩
  rcases resolveType_inv c st tb with h | ⟨st2, ev, h, hl, _⟩
  · rw [h]; exact List.prefix_refl _
  · rw [h]
    show st.log <+: st2.log
    rw [hl]; exact List.prefix_append _ _

theorem dumpStep_extends (c : Ctx) (k i : Nat) (st : State) (rb : ResBlock)
    (r : Except Exit State) (h : dumpStep c k i st rb = some r) :
    st.log <+: stepLog r ∧ st.files <+: stepFiles r := by
  unfold dumpStep at h
  by_cases hd : c.dump = false
  · rw [if_pos hd] at h
    cases h
    exact ⟨List.prefix_refl _, List.prefix_refl _⟩
  · rw [if_neg hd] at h
    dsimp only at h
    split at h
    · cases h
    · rename_i d hdump
      have hfiles : st.files <+: (match d.out with
          | none => st.files
          | some out => st.files ++ [(dumpFilename c k i st.nameBuf st.typeBuf, out)]) := by
        cases d.out with
        | none => exact List.prefix_refl _
        | some out => exact List.prefix_append _ _
      split at h
      · cases h
        exact ⟨List.prefix_refl _, hfiles⟩
      · cases h
        exact ⟨List.prefix_append _ _, hfiles⟩

theorem resLoop_extends (c : Ctx) (k : Nat) : ∀ (n i : Nat) (st : State)
    (r : Except Exit State), resLoop c k n i st = some r →
    st.log <+: stepLog r ∧ st.files <+: stepFiles r := by
  intro n
  induction n with
  | zero =>
    intro i st r h
    rw [resLoop] at h
    cases h
    exact ⟨List.prefix_refl _, List.prefix_refl _⟩
  | succ n ih =>
    intro i st r h
    rw [resLoop] at h
    dsimp only at h
    by_cases hl : (fread st.f 12).1.length ≠ 12
    · rw [if_pos hl] at h
      cases h
      exact ⟨List.prefix_refl _, List.prefix_refl _⟩
    · rw [if_neg hl] at h
      generalize hst1 : ({ st with
          f := (fread st.f 12).2, byteCounter := st.byteCounter + 12,
          counters := st.counters ++ [st.byteCounter + 12],
          log := st.log ++ [Event.resource k i (decodeResBlock (fread st.f 12).1).flags
            (actualLengthOf c (decodeResBlock (fread st.f 12).1))
            (byteOffsetOf c (decodeResBlock (fread st.f 12).1))] } : State) = st1 at h
      have h1l : st.log <+: st1.log := by rw [← hst1]; exact List.prefix_append _ _
      have h1f : st.files <+: st1.files := by rw [← hst1]
      obtain ⟨e1, e2⟩ := resolveName_extends c st1 (decodeResBlock (fread st.f 12).1)
      cases hn : resolveName c st1 (decodeResBlock (fread st.f 12).1) with
      | error e =>
        rw [hn] at h e1 e2
        cases h
        exact ⟨h1l.trans e1, h1f.trans e2⟩
      | ok st2 =>
        rw [hn] at h e1 e2
        dsimp only at h
        cases hd : dumpStep c k i st2 (decodeResBlock (fread st.f 12).1) with
        | none => rw [hd] at h; cases h
        | some r3 =>
          obtain ⟨d1, d2⟩ := dumpStep_extends c k i st2 _ r3 hd
          rw [hd] at h
          cases r3 with
          | error e =>
            cases h
            exact ⟨(h1l.trans e1).trans d1, (h1f.trans e2).trans d2⟩
          | ok st3 =>
            dsimp only at h
            obtain ⟨g1, g2⟩ := ih (i + 1) st3 r h
            exact ⟨((h1l.trans e1).trans d1).trans g1, ((h1f.trans e2).trans d2).trans g2⟩

theorem finish_extends (c : Ctx) (st : State) :
    st.log <+: (finish c st).log ∧ st.files <+: (finish c st).files := by
  unfold finish
  split
  · exact ⟨List.prefix_refl _, List.prefix_refl _⟩
  · exact ⟨List.prefix_append _ _, List.prefix_refl _⟩

theorem typeStep_extends (c : Ctx) (k : Nat) (st : State) (r : Except Exit State)
    (h : typeStep c k st = some r) : st.log <+: stepLog r ∧ st.files <+: stepFiles r := by
  unfold typeStep at h
  dsimp only at h
  split at h
  · cases h
    exact ⟨List.prefix_refl _, List.prefix_refl _⟩
  · split at h
    · cases h
      obtain ⟨f1, f2⟩ := finish_extends c
        { st with f := (fread st.f 8).2, log := st.log ++ [Event.endOfTypes k] }
      exact ⟨(List.prefix_append _ _).trans f1, f2⟩
    · obtain ⟨e1, e2⟩ := resolveType_extends c { st with f := (fread st.f 8).2 }
        (decodeTypeBlock (fread st.f 8).1)
      split at h
      · rename_i e he
        rw [he] at e1 e2
        cases h
        exact ⟨e1, e2⟩
      · rename_i st2 he
        rw [he] at e1 e2
        obtain ⟨g1, g2⟩ := resLoop_extends c k _ _ _ r h
        have e1b : st.log <+: st2.log := e1
        have e2b : st.files <+: st2.files := e2
        exact ⟨(e1b.trans (List.prefix_append _ _)).trans g1, e2b.trans g2⟩

/-- The rest of a run keeps what the walk has printed and written so far. -/
theorem typeLoop_extends (c : Ctx) : ∀ (fuel k : Nat) (st : State) (r : Exit),
    typeLoop c fuel k st = some r → st.log <+: r.log ∧ st.files <+: r.files := by
  intro fuel
  induction fuel with
  | zero =>
    intro k st r h
    rw [typeLoop] at h
    split at h
    · cases h
    · cases h; exact finish_extends c st
  | succ fuel ih =>
    intro k st r h
    rw [typeLoop_succ] at h
    split at h
    · cases hs : typeStep c k st with
      | none => rw [hs] at h; cases h
      | some r2 =>
        obtain ⟨e1, e2⟩ := typeStep_extends c k st r2 hs
        rw [hs] at h
        cases r2 with
        | error e => cases h; exact ⟨e1, e2⟩
        | ok st2 =>
          dsimp only at h
          obtain ⟨g1, g2⟩ := ih (k + 1) st2 r h
          exact ⟨e1.trans g1, e2.trans g2⟩
    · cases h; exact finish_extends c st

/-! ## From the states of the walk to the run -/

theorem walkState_entered (c : Ctx) : ∀ (n k : Nat) (st s : State),
    walkState c (n + 1) k st = some s → st.byteCounter + 8 * n < c.maxBytes := by
  intro n
  induction n with
  | zero =>
    intro k st s h
    rw [walkState] at h
    split at h
    · rename_i hlt; simpa using hlt
    · cases h
  | succ n ih =>
    intro k st s h
    rw [walkState] at h
    split at h
    · cases hs : typeStep c k st with
      | none => rw [hs] at h; cases h
      | some r =>
        rw [hs] at h
        cases r with
        | error e => cases h
        | ok st2 =>
          dsimp only at h
          have hb := typeStep_byteCounter c k st st2 hs
          have := ih (k + 1) st2 s h
          push_cast
          omega
    · cases h

theorem walkState_count (c : Ctx) (hmax : c.maxBytes ≤ 65535) (n k : Nat) (st s : State)
    (hb : 0 ≤ st.byteCounter) (h : walkState c n k st = some s) : n ≤ 8192 := by
  cases n with
  | zero => omega
  | succ n =>
    have := walkState_entered c n k st s h
    omega

/-- A run that reaches a state of the walk after `k` passes: in that state the walk has read
the first `k` type blocks of the table (the table starts 2 bytes after `resTableOffset`, behind
the shift count) with their resource blocks, and has printed and written what belongs to them;
the rest of the run starts from that state and keeps what is printed and written. -/
theorem run_walk (env : Env) (outPrefix : List Byte) (dump useNames : Bool)
    (data : List Byte) (c : Ctx) (st0 : State) (k : Nat) (s : State)
    (hpre : prelude env outPrefix dump useNames data = .ok (c, st0))
    (hreach : walkState c k 0 st0 = some s) :
    st0.f.pos = c.resTableOffset.toNat + 2 ∧
    s.f = ⟨data, st0.f.pos + tableSpanAt data k st0.f.pos⟩ ∧
    s.byteCounter = 2 + (tableSpanAt data k st0.f.pos : Int) ∧
    resCounts s.log = (tableBlocksAt data k st0.f.pos).map TypeBlock.resCount ∧
    (∀ tb ∈ tableBlocksAt data k st0.f.pos, tb.typeID ≠ 0) ∧
    resourceLines s.log = (tableEntriesAt data k 0 st0.f.pos).map (entryLine c) ∧
    s.files = (if c.dump = true then (tableEntriesAt data k 0 st0.f.pos).map
      (entryFile c data) else []) ∧
    main env outPrefix dump useNames data = typeLoop c (c.maxBytes.toNat - k) k s ∧
    ∃ r, main env outPrefix dump useNames data = some r ∧ s.log <+: r.log ∧
      s.files <+: r.files := by
  obtain ⟨hd, hbc, _, hpos, _, hmax, _, _, _⟩ := prelude_ok _ _ _ _ _ _ _ hpre
  obtain ⟨_, _, _, _, _, h0, hoff, _, _⟩ := prelude_ctx _ _ _ _ _ _ _ hpre
  obtain ⟨_, _, _, _, hfit, _, _, _, hfiles⟩ := prelude_start _ _ _ _ _ _ _ hpre
  have hk := walkState_count c hmax k 0 st0 s (by rw [hbc]; omega) hreach
  obtain ⟨g1, g2, g3, g4, g5, g6⟩ := walkState_walk c hoff hmax k 0 st0 s hreach
    (by rw [hpos, hbc]) (by omega)
  obtain ⟨r1, r2, _⟩ := walkState_run c k 0 st0 s c.maxBytes.toNat hreach (by rw [hbc]; omega)
  rw [Nat.zero_add] at r1
  have hmain : main env outPrefix dump useNames data = typeLoop c (c.maxBytes.toNat - k) k s := by
    rw [main_of_prelude _ _ _ _ _ _ _ hpre, r1]
  have hlog0 : resCounts st0.log = [] ∧ resourceLines st0.log = [] := by
    unfold prelude at hpre
    split at hpre
    · cases hpre
    · dsimp only at hpre
      split at hpre
      · cases hpre
      · split at hpre
        · cases hpre
        · split at hpre
          · cases hpre
          · split at hpre
            · cases hpre
            · split at hpre
              · cases hpre
              · split at hpre
                · cases hpre
                · split at hpre
                  · cases hpre
                  · injection hpre with hpre
                    injection hpre with hc hst
                    subst hst
                    exact ⟨rfl, rfl⟩
  rw [hd] at g1 g3 g4 g5 g6 g2
  refine ⟨by omega, g1, by rw [g2, hbc], ?_, g4, ?_, ?_, hmain, ?_⟩
  · rw [g3, hlog0.1, List.nil_append]
  · rw [g5, hlog0.2, List.nil_append]
  · rw [g6, hfiles, List.nil_append]
  · obtain ⟨r, hr⟩ := typeLoop_total c (c.maxBytes.toNat - k) k s r2
    obtain ⟨e1, e2⟩ := typeLoop_extends c _ _ _ r hr
    exact ⟨r, by rw [hmain, hr], e1, e2⟩

/-! ## The walk on the samples -/

theorem prelude_icons :
    prelude envOk (ascii "out_") true true sampleIcons = .ok (ctxIcons, startIcons) := rfl

theorem walkState_icons : walkState ctxIcons 1 0 startIcons = some walkedIcons := rfl

theorem prelude_twins :
    prelude envOk (ascii "out_") true true sampleTwins = .ok (ctxIcons, startTwins) := rfl

theorem walkState_twins : walkState ctxIcons 1 0 startTwins = some walkedTwins := rfl

theorem tableBlocksAt_length (data : List Byte) : ∀ (n pos : Nat),
    (tableBlocksAt data n pos).length = n := by
  intro n
  induction n with
  | zero => intro pos; rfl
  | succ n ih => intro pos; rw [tableBlocksAt, List.length_cons, ih]

theorem contentAfter_map {α : Type} (f : α → List Byte × List Byte) (l : List α)
    (name : List Byte) :
    contentAfter (l.map f) name =
      ((l.filter (fun e => (f e).1 = name)).getLast?).map (fun e => (f e).2) := by
  unfold contentAfter
  rw [List.filter_map, List.getLast?_map, Option.map_map]
  rfl

/-- C11 (counterexample): in `sampleCutName` the identifier of the resource has its high bit
clear and points at the counted string of the three bytes `A`, 0, `P`; the run with `-dump`
and `-usenames` writes the resource to `out_A.ICONS`: the name in the file name is the counted
string up to its 0 byte, not the counted string. -/
theorem counted_name_cut_at_zero :
    (decodeResBlock ((sampleCutName.drop 138).take 12)).resourceID = 36 ∧
    countedString sampleCutName (128 + 36) = [65, 0, 80] ∧
    (main envOk (ascii "out_") true true sampleCutName).map
      (fun r => (r.status, r.files.map Prod.fst)) = some (0, [ascii "out_A.ICONS"]) ∧
    ascii "out_A.ICONS" ≠ ascii "out_" ++ [65, 0, 80] ++ ascii "." ++ ascii "ICONS" := by
  refine ⟨by decide, by decide, by decide, by decide⟩

/-- The files of `sampleTwins` after the walk with `-dump` and `-usenames`: the one file
`out_00007.cur` holds the bytes of the second resource. -/
theorem twins_content_after :
    contentAfter walkedTwins.files (ascii "out_00007.cur") = some [0, 0] := by
  decide

/-! ## Runs that end within a type block -/

theorem entryFile_fst (c : Ctx) (data : List Byte) (e : Entry) :
    (entryFile c data e).1 = entryName c data e := rfl

theorem dumpStep_error_files (c : Ctx) (k i : Nat) (st : State) (rb : ResBlock) (e : Exit)
    (h : dumpStep c k i st rb = some (.error e)) :
    c.dump = true ∧ e.log = st.log ∧
    (e.files = st.files ∨
      ∃ out, e.files = st.files ++ [(dumpFilename c k i st.nameBuf st.typeBuf, out)]) := by
  unfold dumpStep at h
  by_cases hd : c.dump = false
  · rw [if_pos hd] at h; cases h
  · rw [if_neg hd] at h
    dsimp only at h
    split at h
    · cases h
    · rename_i d hdump
      have key : (match d.out with
          | none => st.files
          | some out => st.files ++ [(dumpFilename c k i st.nameBuf st.typeBuf, out)]) =
            st.files ∨
          ∃ out, (match d.out with
            | none => st.files
            | some out => st.files ++ [(dumpFilename c k i st.nameBuf st.typeBuf, out)]) =
            st.files ++ [(dumpFilename c k i st.nameBuf st.typeBuf, out)] := by
        cases d.out with
        | none => exact Or.inl rfl
        | some out => exact Or.inr ⟨out, rfl⟩
      split at h
      · injection h with h
        injection h with h
        subst h
        exact ⟨by simpa using hd, rfl, key⟩
      · cases h

/-- The loop over the resource blocks of one type, however it ends: the output files it has
created are, in their order, files of the first entries of the type under the names of the
specification, and the `resource` lines it has printed are those of the first entries. -/
theorem resLoop_first_entries (c : Ctx) (k : Nat) (tb : TypeBlock) (hk : k < 4294967296) :
    ∀ (n i : Nat) (st : State) (r : Except Exit State), resLoop c k n i st = some r →
    st.f.pos + 12 * n < 4294967296 → i + n ≤ 4294967296 →
    cstr st.typeBuf = specExt c st.f.data tb →
    (stepFiles r).map Prod.fst <+: st.files.map Prod.fst ++
      (if c.dump = true then
        (groupEntriesAt st.f.data k tb n i st.f.pos).map (entryName c st.f.data) else []) ∧
    resourceLines (stepLog r) <+: resourceLines st.log ++
      (groupEntriesAt st.f.data k tb n i st.f.pos).map (entryLine c) := by
  intro n
  induction n with
  | zero =>
    intro i st r h _ _ _
    rw [resLoop] at h
    cases h
    exact ⟨List.prefix_append _ _, List.prefix_append _ _⟩
  | succ n ih =>
    intro i st r h hpos hi hext
    rw [resLoop] at h
    dsimp only at h
    by_cases hl : (fread st.f 12).1.length ≠ 12
    · rw [if_pos hl] at h
      cases h
      exact ⟨List.prefix_append _ _, List.prefix_append _ _⟩
    · rw [if_neg hl] at h
      have hl2 : (fread st.f 12).1.length = 12 := not_not.mp hl
      have hr2 : (fread st.f 12).2 = ⟨st.f.data, st.f.pos + 12⟩ := by
        show (⟨st.f.data, st.f.pos + (fread st.f 12).1.length⟩ : FILE) = _
        rw [hl2]
      have hr1 : (fread st.f 12).1 = (st.f.data.drop st.f.pos).take 12 := rfl
      rw [hr2, hr1] at h
      have hg : groupEntriesAt st.f.data k tb (n + 1) i st.f.pos =
          ⟨k, i, tb, decodeResBlock ((st.f.data.drop st.f.pos).take 12)⟩ ::
            groupEntriesAt st.f.data k tb n (i + 1) (st.f.pos + 12) := rfl
      rw [hg, List.map_cons, List.map_cons]
      generalize hrb : decodeResBlock ((st.f.data.drop st.f.pos).take 12) = rb at h ⊢
      have hline : entryLine c ⟨k, i, tb, rb⟩ =
          Event.resource k i rb.flags (actualLengthOf c rb) (byteOffsetOf c rb) := rfl
      have hnm : entryName c st.f.data ⟨k, i, tb, rb⟩ =
          specFilename c k i (specName c st.f.data rb) (specExt c st.f.data tb) := rfl
      rw [hline, hnm]
      generalize hrn : (groupEntriesAt st.f.data k tb n (i + 1) (st.f.pos + 12)).map
        (entryName c st.f.data) = restNames
      generalize hrl : (groupEntriesAt st.f.data k tb n (i + 1) (st.f.pos + 12)).map
        (entryLine c) = restLines
      generalize hst1 : ({ st with
          f := ⟨st.f.data, st.f.pos + 12⟩, byteCounter := st.byteCounter + 12,
          counters := st.counters ++ [st.byteCounter + 12],
          log := st.log ++ [Event.resource k i rb.flags (actualLengthOf c rb)
            (byteOffsetOf c rb)] } : State) = st1 at h
      have h1f : st1.f = ⟨st.f.data, st.f.pos + 12⟩ := by rw [← hst1]
      have h1t : st1.typeBuf = st.typeBuf := by rw [← hst1]
      have h1fl : st1.files = st.files := by rw [← hst1]
      have h1l : st1.log = st.log ++ [Event.resource k i rb.flags (actualLengthOf c rb)
            (byteOffsetOf c rb)] := by rw [← hst1]
      have h1r : resourceLines st1.log = resourceLines st.log ++
          [Event.resource k i rb.flags (actualLengthOf c rb) (byteOffsetOf c rb)] := by
        rw [h1l, resourceLines_append]; rfl
      have hsplit : resourceLines st.log ++
          Event.resource k i rb.flags (actualLengthOf c rb) (byteOffsetOf c rb) :: restLines =
          resourceLines st1.log ++ restLines := by
        rw [h1r]; simp
      rw [hsplit]
      cases hn : resolveName c st1 rb with
      | error e =>
        rw [hn] at h
        cases h
        rcases resolveName_inv c st1 rb with hfail | ⟨st3, ev, hok, _⟩
        · rw [hn] at hfail
          injection hfail with hfail
          subst hfail
          refine ⟨?_, ?_⟩
          · show st1.files.map Prod.fst <+: _
            rw [h1fl]; exact List.prefix_append _ _
          · exact List.prefix_append _ _
        · rw [hn] at hok; cases hok
      | ok st3 =>
        rw [hn] at h
        dsimp only at h
        obtain ⟨n3, t3, fl3, _, _, _, r3, f3⟩ := resolveName_spec c st1 st3 rb hn
        have f3b : st3.f = ⟨st.f.data, st.f.pos + 12⟩ := by
          rw [f3 (by rw [h1f]; show st.f.pos + 12 < 4294967296; omega), h1f]
        have hfn : dumpFilename c k i st3.nameBuf st3.typeBuf =
            specFilename c k i (specName c st.f.data rb) (specExt c st.f.data tb) := by
          rw [dumpFilename_spec c k i _ _ hk (by omega), n3, t3, h1t, hext, h1f]
        cases hd : dumpStep c k i st3 rb with
        | none => rw [hd] at h; cases h
        | some r3b =>
          rw [hd] at h
          cases r3b with
          | error e =>
            cases h
            obtain ⟨hdump, el, ef⟩ := dumpStep_error_files c k i st3 rb e hd
            refine ⟨?_, ?_⟩
            · show e.files.map Prod.fst <+: _
              rcases ef with ef | ⟨out, ef⟩
              · rw [ef, fl3, h1fl]; exact List.prefix_append _ _
              · rw [ef, fl3, h1fl, List.map_append, hfn, if_pos hdump]
                exact ⟨restNames, by simp⟩
            · show resourceLines e.log <+: _
              rw [el, r3]; exact List.prefix_append _ _
          | ok st4 =>
            dsimp only at h
            obtain ⟨t4, _, _, _, r4, f4, fl4⟩ := dumpStep_spec c k i st3 st4 rb hd
            have f4b : st4.f = ⟨st.f.data, st.f.pos + 12⟩ := by
              rw [f4 (by rw [f3b]; show st.f.pos + 12 < 4294967296; omega), f3b]
            have hext4 : cstr st4.typeBuf = specExt c st4.f.data tb := by
              rw [t4, t3, h1t, f4b]; exact hext
            obtain ⟨g1, g2⟩ := ih (i + 1) st4 r h
              (by rw [f4b]; show st.f.pos + 12 + 12 * n < 4294967296; omega) (by omega) hext4
            rw [f4b] at g1 g2
            dsimp only at g1 g2
            rw [hrl] at g2
            rw [hrn] at g1
            refine ⟨?_, ?_⟩
            · refine g1.trans ?_
              rw [fl4, fl3, h1fl, hfn]
              by_cases hdump : c.dump = true
              · rw [if_pos hdump, if_pos hdump, if_pos hdump, List.map_append]
                exact ⟨[], by simp⟩
              · rw [if_neg hdump, if_neg hdump, if_neg hdump]
                simp
            · rw [r4, r3] at g2
              exact g2

theorem finish_lines (c : Ctx) (st : State) :
    (finish c st).files = st.files ∧
    resourceLines (finish c st).log = resourceLines st.log := by
  unfold finish
  split
  · exact ⟨rfl, rfl⟩
  · refine ⟨rfl, ?_⟩
    show resourceLines (st.log ++ [Event.done]) = _
    rw [resourceLines_append]; exact List.append_nil _

/-- One pass of the loop over the type blocks, however it ends: the output files it has
created and the `resource` lines it has printed are those of the first entries of the type
block. -/
theorem typeStep_first_entries (c : Ctx) (k : Nat) (st : State) (r : Except Exit State)
    (h : typeStep c k st = some r)
    (hpos : st.f.pos + 8 + 12 * 65535 < 4294967296) (hk : k < 4294967296) :
    (stepFiles r).map Prod.fst <+: st.files.map Prod.fst ++
      (if c.dump = true then
        (groupEntriesAt st.f.data k (decodeTypeBlock ((st.f.data.drop st.f.pos).take 8))
          (decodeTypeBlock ((st.f.data.drop st.f.pos).take 8)).resCount 0
          (st.f.pos + 8)).map (entryName c st.f.data)
      else []) ∧
    resourceLines (stepLog r) <+: resourceLines st.log ++
      (groupEntriesAt st.f.data k (decodeTypeBlock ((st.f.data.drop st.f.pos).take 8))
        (decodeTypeBlock ((st.f.data.drop st.f.pos).take 8)).resCount 0
        (st.f.pos + 8)).map (entryLine c) := by
  unfold typeStep at h
  dsimp only at h
  by_cases hl : (fread st.f 8).1.length ≠ 8
  · rw [if_pos hl] at h
    cases h
    exact ⟨List.prefix_append _ _, List.prefix_append _ _⟩
  · rw [if_neg hl] at h
    have hl2 : (fread st.f 8).1.length = 8 := not_not.mp hl
    have hr2 : (fread st.f 8).2 = ⟨st.f.data, st.f.pos + 8⟩ := by
      show (⟨st.f.data, st.f.pos + (fread st.f 8).1.length⟩ : FILE) = _
      rw [hl2]
    have hr1 : (fread st.f 8).1 = (st.f.data.drop st.f.pos).take 8 := rfl
    rw [hr2, hr1] at h
    have hN := decodeTypeBlock_resCount_lt ((st.f.data.drop st.f.pos).take 8)
    generalize decodeTypeBlock ((st.f.data.drop st.f.pos).take 8) = tb at h hN ⊢
    by_cases hz : tb.typeID = 0
    · rw [if_pos hz] at h
      cases h
      obtain ⟨e1, e2⟩ := finish_lines c
        { st with f := ⟨st.f.data, st.f.pos + 8⟩, log := st.log ++ [Event.endOfTypes k] }
      refine ⟨?_, ?_⟩
      · show (finish c _).files.map Prod.fst <+: _
        rw [e1]; exact List.prefix_append _ _
      · show resourceLines (finish c _).log <+: _
        rw [e2]
        show resourceLines (st.log ++ [Event.endOfTypes k]) <+: _
        rw [resourceLines_append]
        show resourceLines st.log ++ [] <+: _
        rw [List.append_nil]; exact List.prefix_append _ _
    · rw [if_neg hz] at h
      cases ht : resolveType c { st with f := ⟨st.f.data, st.f.pos + 8⟩ } tb with
      | error e =>
        rw [ht] at h
        cases h
        rcases resolveType_inv c { st with f := ⟨st.f.data, st.f.pos + 8⟩ } tb with
          hfail | ⟨st3, ev, hok, _⟩
        · rw [ht] at hfail
          injection hfail with hfail
          subst hfail
          exact ⟨List.prefix_append _ _, List.prefix_append _ _⟩
        · rw [ht] at hok; cases hok
      | ok st3 =>
        rw [ht] at h
        dsimp only at h
        obtain ⟨e3, fl3, _, _, _, r3, f3⟩ := resolveType_spec c _ st3 tb ht
        have f3b : st3.f = ⟨st.f.data, st.f.pos + 8⟩ :=
          f3 (by show st.f.pos + 8 < 4294967296; omega)
        have fl3b : st3.files = st.files := fl3
        have r3b : resourceLines st3.log = resourceLines st.log := r3
        have e3b : cstr st3.typeBuf = specExt c st.f.data tb := e3
        obtain ⟨g1, g2⟩ := resLoop_first_entries c k tb hk tb.resCount 0
          { st3 with
            byteCounter := st3.byteCounter + 8,
            counters := st3.counters ++ [st3.byteCounter + 8],
            log := st3.log ++ [Event.resCount tb.resCount] } r h
          (by show st3.f.pos + 12 * tb.resCount < 4294967296; rw [f3b]
              show st.f.pos + 8 + 12 * tb.resCount < 4294967296; omega)
          (by omega)
          (by show cstr st3.typeBuf = specExt c st3.f.data tb; rw [f3b]; exact e3b)
        dsimp only at g1 g2
        rw [f3b, fl3b] at g1
        rw [f3b, resourceLines_append, r3b] at g2
        refine ⟨g1, ?_⟩
        have : resourceLines [Event.resCount tb.resCount] = [] := rfl
        rw [this, List.append_nil] at g2
        exact g2

/-- The loop over the type blocks and the end of `main`, from a state of the walk: the output
files of the run and the `resource` lines it has printed are, beyond those of the state, those
of the first entries of the table at the stream position, in the order of the table. -/
theorem typeLoop_first_entries (c : Ctx) (hoff : c.resTableOffset < 2147483648)
    (hmax : c.maxBytes ≤ 65535) :
    ∀ (fuel k : Nat) (st : State) (r : Exit), typeLoop c fuel k st = some r →
    (st.f.pos : Int) = c.resTableOffset + st.byteCounter → k + fuel < 4294967296 →
    r.files.map Prod.fst <+: st.files.map Prod.fst ++
      (if c.dump = true then
        (tableEntriesAt st.f.data fuel k st.f.pos).map (entryName c st.f.data) else []) ∧
    resourceLines r.log <+: resourceLines st.log ++
      (tableEntriesAt st.f.data fuel k st.f.pos).map (entryLine c) := by
  intro fuel
  induction fuel with
  | zero =>
    intro k st r h _ _
    rw [typeLoop] at h
    split at h
    · cases h
    · cases h
      obtain ⟨e1, e2⟩ := finish_lines c st
      rw [e1, e2]
      exact ⟨List.prefix_append _ _, List.prefix_append _ _⟩
  | succ fuel ih =>
    intro k st r h hinv hk
    rw [typeLoop_succ] at h
    by_cases hlt : st.byteCounter < c.maxBytes
    · rw [if_pos hlt] at h
      have hposb : st.f.pos + 8 + 12 * 65535 < 4294967296 := by omega
      have ht : tableEntriesAt st.f.data (fuel + 1) k st.f.pos =
          groupEntriesAt st.f.data k (decodeTypeBlock ((st.f.data.drop st.f.pos).take 8))
            (decodeTypeBlock ((st.f.data.drop st.f.pos).take 8)).resCount 0 (st.f.pos + 8) ++
          tableEntriesAt st.f.data fuel (k + 1)
            (st.f.pos + 8 + 12 * (decodeTypeBlock ((st.f.data.drop st.f.pos).take 8)).resCount) :=
        rfl
      rw [ht, List.map_append, List.map_append]
      cases hs : typeStep c k st with
      | none => rw [hs] at h; cases h
      | some r2 =>
        rw [hs] at h
        cases r2 with
        | error e =>
          cases h
          obtain ⟨p1, p2⟩ := typeStep_first_entries c k st _ hs hposb (by omega)
          refine ⟨p1.trans ?_, p2.trans ?_⟩
          · by_cases hdump : c.dump = true
            · rw [if_pos hdump, if_pos hdump, ← List.append_assoc]
              exact List.prefix_append _ _
            · rw [if_neg hdump, if_neg hdump]
          · rw [← List.append_assoc]; exact List.prefix_append _ _
        | ok st2 =>
          dsimp only at h
          obtain ⟨_, f1, b1, _, r1, fl1⟩ := typeStep_walk c k st st2 hs hposb (by omega)
          have hN := decodeTypeBlock_resCount_lt ((st.f.data.drop st.f.pos).take 8)
          have hd2 : st2.f.data = st.f.data := by rw [f1]
          have hp2 : st2.f.pos = st.f.pos + 8 +
              12 * (decodeTypeBlock ((st.f.data.drop st.f.pos).take 8)).resCount := by rw [f1]
          obtain ⟨g1, g2⟩ := ih (k + 1) st2 r h (by rw [hp2, b1]; push_cast; omega) (by omega)
          rw [hd2, hp2] at g1 g2
          refine ⟨g1.trans ?_, g2.trans ?_⟩
          · rw [fl1]
            by_cases hdump : c.dump = true
            · rw [if_pos hdump, if_pos hdump, if_pos hdump, List.map_append, List.map_map,
                List.append_assoc]
              exact List.prefix_refl _
            · rw [if_neg hdump, if_neg hdump, if_neg hdump]
              simp
          · rw [r1, List.append_assoc]
    · rw [if_neg hlt] at h
      cases h
      obtain ⟨e1, e2⟩ := finish_lines c st
      rw [e1, e2]
      exact ⟨List.prefix_append _ _, List.prefix_append _ _⟩

/-- Every run: the names of the output files it has created and the `resource` lines it has
printed are those of the first resource entries of the table, in the order of the table (the
table starts 2 bytes after `resTableOffset`, and the walk makes at most `maxBytes` passes). -/
theorem run_first_entries (env : Env) (outPrefix : List Byte) (dump useNames : Bool)
    (data : List Byte) (c : Ctx) (st0 : State)
    (hpre : prelude env outPrefix dump useNames data = .ok (c, st0)) :
    ∃ r, main env outPrefix dump useNames data = some r ∧
      r.files.map Prod.fst <+:
        (if c.dump = true then
          (tableEntriesAt data c.maxBytes.toNat 0 (c.resTableOffset.toNat + 2)).map
            (entryName c data) else []) ∧
      resourceLines r.log <+:
        (tableEntriesAt data c.maxBytes.toNat 0 (c.resTableOffset.toNat + 2)).map
          (entryLine c) := by
  obtain ⟨hp, _, _, _, _, hl0, hf0, _, _⟩ :=
    run_walk env outPrefix dump useNames data c st0 0 st0 hpre rfl
  obtain ⟨hd, hbc, _, hpos, _, hmax, _, _, _⟩ := prelude_ok _ _ _ _ _ _ _ hpre
  obtain ⟨_, _, _, _, _, h0, hoff, _, _⟩ := prelude_ctx _ _ _ _ _ _ _ hpre
  obtain ⟨r, hr⟩ := main_total env outPrefix dump useNames data
  have hr2 := hr
  rw [main_of_prelude _ _ _ _ _ _ _ hpre] at hr2
  obtain ⟨g1, g2⟩ := typeLoop_first_entries c hoff hmax c.maxBytes.toNat 0 st0 r hr2
    (by rw [hpos, hbc]) (by omega)
  have hl0b : resourceLines st0.log = [] := by
    rw [hl0]; rfl
  have hf0b : st0.files = [] := by
    rw [hf0]
    split <;> rfl
  rw [hd, hp, hf0b] at g1
  rw [hd, hp, hl0b] at g2
  exact ⟨r, hr, by simpa using g1, by simpa using g2⟩

/-! ## The values of the byte counter -/

theorem range_succ_map (n : Nat) (b : Int) :
    (b + 12) :: (List.range n).map (fun (j : Nat) => b + 12 + 12 * ((j : Int) + 1)) =
      (List.range (n + 1)).map (fun (j : Nat) => b + 12 * ((j : Int) + 1)) := by
  rw [List.range_succ_eq_map, List.map_cons, List.map_map]
  congr 1
  apply List.map_congr_left
  intro j _
  show b + 12 + 12 * ((j : Int) + 1) = b + 12 * (((j + 1 : Nat) : Int) + 1)
  push_cast; ring

theorem dumpStep_counters (c : Ctx) (k i : Nat) (st : State) (rb : ResBlock)
    (r : Except Exit State) (h : dumpStep c k i st rb = some r) :
    stepCounters r = st.counters ∧ ∀ st2, r = .ok st2 → st2.byteCounter = st.byteCounter := by
  unfold dumpStep at h
  by_cases hd : c.dump = false
  · rw [if_pos hd] at h
    cases h
    exact ⟨rfl, fun st2 e => by cases e; rfl⟩
  · rw [if_neg hd] at h
    dsimp only at h
    split at h
    · cases h
    · split at h
      · cases h
        exact ⟨rfl, fun st2 e => by cases e⟩
      · cases h
        exact ⟨rfl, fun st2 e => by cases e; rfl⟩

/-- The loop over the resource blocks of one type, however it ends: the values of the byte
counter that it records are the first of `byteCounter + 12`, `byteCounter + 24`, ...; all
`n` of them when the loop runs to its end. -/
theorem resLoop_counters (c : Ctx) (k : Nat) : ∀ (n i : Nat) (st : State)
    (r : Except Exit State), resLoop c k n i st = some r →
    st.counters <+: stepCounters r ∧
    stepCounters r <+: st.counters ++
      (List.range n).map (fun (j : Nat) => st.byteCounter + 12 * ((j : Int) + 1)) ∧
    ∀ st2, r = .ok st2 → st2.counters = st.counters ++
      (List.range n).map (fun (j : Nat) => st.byteCounter + 12 * ((j : Int) + 1)) := by
  intro n
  induction n with
  | zero =>
    intro i st r h
    rw [resLoop] at h
    cases h
    refine ⟨List.prefix_refl _, by simp [stepCounters], fun st2 e => ?_⟩
    cases e; simp
  | succ n ih =>
    intro i st r h
    rw [← range_succ_map]
    rw [resLoop] at h
    dsimp only at h
    by_cases hl : (fread st.f 12).1.length ≠ 12
    · rw [if_pos hl] at h
      cases h
      exact ⟨List.prefix_refl _, List.prefix_append _ _, fun st2 e => by cases e⟩
    · rw [if_neg hl] at h
      generalize hst1 : ({ st with
          f := (fread st.f 12).2, byteCounter := st.byteCounter + 12,
          counters := st.counters ++ [st.byteCounter + 12],
          log := st.log ++ [Event.resource k i (decodeResBlock (fread st.f 12).1).flags
            (actualLengthOf c (decodeResBlock (fread st.f 12).1))
            (byteOffsetOf c (decodeResBlock (fread st.f 12).1))] } : State) = st1 at h
      have h1c : st1.counters = st.counters ++ [st.byteCounter + 12] := by rw [← hst1]
      have h1b : st1.byteCounter = st.byteCounter + 12 := by rw [← hst1]
      have hpre1 : st.counters <+: st.counters ++ [st.byteCounter + 12] :=
        List.prefix_append _ _
      have hpre2 : st.counters ++ [st.byteCounter + 12] <+: st.counters ++
          ((st.byteCounter + 12) ::
            (List.range n).map (fun (j : Nat) => st.byteCounter + 12 + 12 * ((j : Int) + 1))) :=
        ⟨(List.range n).map (fun (j : Nat) => st.byteCounter + 12 + 12 * ((j : Int) + 1)), by simp⟩
      rcases resolveName_inv c st1 (decodeResBlock (fread st.f 12).1) with
        hn | ⟨st2, ev, hn, _, _, _, _, hb2, hc2, _⟩
      · rw [hn] at h
        cases h
        show st.counters <+: st1.counters ∧ st1.counters <+: _ ∧ _
        rw [h1c]
        exact ⟨hpre1, hpre2, fun st2 e => by cases e⟩
      · rw [hn] at h
        dsimp only at h
        cases hd : dumpStep c k i st2 (decodeResBlock (fread st.f 12).1) with
        | none => rw [hd] at h; cases h
        | some r3 =>
          obtain ⟨d1, d2⟩ := dumpStep_counters c k i st2 _ r3 hd
          rw [hd] at h
          cases r3 with
          | error e =>
            cases h
            show st.counters <+: e.counters ∧ e.counters <+: _ ∧ _
            have : e.counters = st.counters ++ [st.byteCounter + 12] := by
              rw [← h1c, ← hc2]; exact d1
            rw [this]
            exact ⟨hpre1, hpre2, fun st2 e => by cases e⟩
          | ok st3 =>
            dsimp only at h
            have c3 : st3.counters = st.counters ++ [st.byteCounter + 12] := by
              rw [← h1c, ← hc2]; exact d1
            have b3 : st3.byteCounter = st.byteCounter + 12 := by
              rw [d2 st3 rfl, hb2, h1b]
            obtain ⟨g1, g2, g3⟩ := ih (i + 1) st3 r h
            rw [c3] at g1
            rw [c3, b3, List.append_assoc] at g2 g3
            exact ⟨hpre1.trans g1, g2, g3⟩

theorem finish_counters (c : Ctx) (st : State) : (finish c st).counters = st.counters := by
  unfold finish
  split <;> rfl

/-- One pass of the loop over the type blocks, however it ends: the values of the byte counter
that it records are the first of those of the type block at the stream position; all of them
when the pass runs to its end. -/
theorem typeStep_counters (c : Ctx) (k : Nat) (st : State) (r : Except Exit State)
    (h : typeStep c k st = some r) :
    st.counters <+: stepCounters r ∧
    stepCounters r <+: st.counters ++ counterTrace st.byteCounter
      [(decodeTypeBlock ((st.f.data.drop st.f.pos).take 8)).resCount] ∧
    ∀ st2, r = .ok st2 → st2.counters = st.counters ++ counterTrace st.byteCounter
      [(decodeTypeBlock ((st.f.data.drop st.f.pos).take 8)).resCount] := by
  unfold typeStep at h
  dsimp only at h
  by_cases hl : (fread st.f 8).1.length ≠ 8
  · rw [if_pos hl] at h
    cases h
    exact ⟨List.prefix_refl _, List.prefix_append _ _, fun st2 e => by cases e⟩
  · rw [if_neg hl] at h
    have hr1 : (fread st.f 8).1 = (st.f.data.drop st.f.pos).take 8 := rfl
    rw [hr1] at h
    generalize decodeTypeBlock ((st.f.data.drop st.f.pos).take 8) = tb at h ⊢
    by_cases hz : tb.typeID = 0
    · rw [if_pos hz] at h
      cases h
      show st.counters <+: (finish c _).counters ∧ (finish c _).counters <+: _ ∧ _
      rw [finish_counters]
      exact ⟨List.prefix_refl _, List.prefix_append _ _, fun st2 e => by cases e⟩
    · rw [if_neg hz] at h
      rcases resolveType_inv c { st with f := (fread st.f 8).2 } tb with
        ht | ⟨st3, ev, ht, _, _, _, _, hb3, hc3⟩
      · rw [ht] at h
        cases h
        exact ⟨List.prefix_refl _, List.prefix_append _ _, fun st2 e => by cases e⟩
      · rw [ht] at h
        dsimp only at h
        have hb3b : st3.byteCounter = st.byteCounter := hb3
        have hc3b : st3.counters = st.counters := hc3
        obtain ⟨g1, g2, g3⟩ := resLoop_counters c k tb.resCount 0 _ r h
        dsimp only at g1 g2 g3
        rw [hb3b, hc3b, List.append_assoc] at g2 g3
        rw [hb3b, hc3b] at g1
        have ht : counterTrace st.byteCounter [tb.resCount] =
            [st.byteCounter + 8] ++ (List.range tb.resCount).map
              (fun (j : Nat) => st.byteCounter + 8 + 12 * ((j : Int) + 1)) := by
          simp [counterTrace]
        rw [ht]
        exact ⟨(List.prefix_append _ _).trans g1, g2, g3⟩

/-- The rest of a run keeps the values of the byte counter recorded so far. -/
theorem typeLoop_counters (c : Ctx) : ∀ (fuel k : Nat) (st : State) (r : Exit),
    typeLoop c fuel k st = some r → st.counters <+: r.counters := by
  intro fuel
  induction fuel with
  | zero =>
    intro k st r h
    rw [typeLoop] at h
    split at h
    · cases h
    · cases h; rw [finish_counters]
  | succ fuel ih =>
    intro k st r h
    rw [typeLoop_succ] at h
    split at h
    · cases hs : typeStep c k st with
      | none => rw [hs] at h; cases h
      | some r2 =>
        obtain ⟨e1, _⟩ := typeStep_counters c k st r2 hs
        rw [hs] at h
        cases r2 with
        | error e => cases h; exact e1
        | ok st2 =>
          dsimp only at h
          exact e1.trans (ih (k + 1) st2 r h)
    · cases h; rw [finish_counters]

theorem counterTrace_cons_eq (b : Int) (r : Nat) (rs : List Nat) :
    counterTrace b (r :: rs) =
      counterTrace b [r] ++ counterTrace (b + 8 + 12 * (r : Int)) rs := by
  simp [counterTrace]

/-- The values of the byte counter recorded in a state of the walk. -/
theorem walkState_counters (c : Ctx) (hoff : c.resTableOffset < 2147483648)
    (hmax : c.maxBytes ≤ 65535) :
    ∀ (n k : Nat) (st s : State), walkState c n k st = some s →
    (st.f.pos : Int) = c.resTableOffset + st.byteCounter → k + n < 4294967296 →
    s.counters = st.counters ++ counterTrace st.byteCounter
      ((tableBlocksAt st.f.data n st.f.pos).map TypeBlock.resCount) := by
  intro n
  induction n with
  | zero =>
    intro k st s h _ _
    rw [walkState] at h
    cases h
    simp [tableBlocksAt, counterTrace]
  | succ n ih =>
    intro k st s h hinv hk
    rw [walkState] at h
    by_cases hlt : st.byteCounter < c.maxBytes
    · rw [if_pos hlt] at h
      cases hs : typeStep c k st with
      | none => rw [hs] at h; cases h
      | some r =>
        rw [hs] at h
        cases r with
        | error e => cases h
        | ok st2 =>
          dsimp only at h
          have hposb : st.f.pos + 8 + 12 * 65535 < 4294967296 := by omega
          obtain ⟨_, f1, b1, _, _, _⟩ := typeStep_walk c k st st2 hs hposb (by omega)
          obtain ⟨_, _, c1⟩ := typeStep_counters c k st _ hs
          have hN := decodeTypeBlock_resCount_lt ((st.f.data.drop st.f.pos).take 8)
          have hd2 : st2.f.data = st.f.data := by rw [f1]
          have hp2 : st2.f.pos = st.f.pos + 8 +
              12 * (decodeTypeBlock ((st.f.data.drop st.f.pos).take 8)).resCount := by rw [f1]
          have g := ih (k + 1) st2 s h (by rw [hp2, b1]; push_cast; omega) (by omega)
          rw [hd2, hp2, c1 st2 rfl, b1] at g
          conv_rhs => rw [tableBlocksAt, List.map_cons, counterTrace_cons_eq]
          rw [g, List.append_assoc]
    · rw [if_neg hlt] at h; cases h

/-- The values of the byte counter recorded in a state of the walk of a run, and in the run. -/
theorem run_counters (env : Env) (outPrefix : List Byte) (dump useNames : Bool)
    (data : List Byte) (c : Ctx) (st0 : State) (k : Nat) (s : State)
    (hpre : prelude env outPrefix dump useNames data = .ok (c, st0))
    (hreach : walkState c k 0 st0 = some s) :
    s.counters = 2 :: counterTrace 2
      ((tableBlocksAt data k (c.resTableOffset.toNat + 2)).map TypeBlock.resCount) ∧
    ∃ r, main env outPrefix dump useNames data = some r ∧
      typeLoop c (c.maxBytes.toNat - k) k s = some r ∧ s.counters <+: r.counters := by
  obtain ⟨hp, _, _, _, _, _, _, hm, r, hr, _⟩ :=
    run_walk env outPrefix dump useNames data c st0 k s hpre hreach
  obtain ⟨hd, hbc, _, hpos, _, hmax, _, _, hcs⟩ := prelude_ok _ _ _ _ _ _ _ hpre
  obtain ⟨_, _, _, _, _, h0, hoff, _, _⟩ := prelude_ctx _ _ _ _ _ _ _ hpre
  have hk := walkState_count c hmax k 0 st0 s (by rw [hbc]; omega) hreach
  have g := walkState_counters c hoff hmax k 0 st0 s hreach (by rw [hpos, hbc]) (by omega)
  rw [hd, hp, hcs, hbc] at g
  refine ⟨g, r, hr, ?_, ?_⟩
  · rw [← hm, hr]
  · exact typeLoop_counters c _ _ _ r (by rw [← hm, hr])

/-! ## Runs that return 0 -/

theorem resLoop_error_status (c : Ctx) (k : Nat) : ∀ (n i : Nat) (st : State) (e : Exit),
    resLoop c k n i st = some (.error e) → e.status = 1 := by
  intro n
  induction n with
  | zero =>
    intro i st e h
    rw [resLoop] at h
    cases h
  | succ n ih =>
    intro i st e h
    rw [resLoop] at h
    dsimp only at h
    split at h
    · cases h; rfl
    · split at h
      · rename_i e2 he
        cases h
        exact resolveName_error_status _ _ _ _ he
      · split at h
        · cases h
        · rename_i e2 he
          cases h
          exact dumpStep_error_status _ _ _ _ _ _ he
        · exact ih _ _ _ h

/-- A pass of the loop over the type blocks that ends the run with status 0 is one that has
read a zero type identifier: it has written no file and printed no `resource` line. -/
theorem typeStep_error_ok (c : Ctx) (k : Nat) (st : State) (e : Exit)
    (h : typeStep c k st = some (.error e)) (hs : e.status = 0) :
    e.files = st.files ∧ resourceLines e.log = resourceLines st.log := by
  unfold typeStep at h
  dsimp only at h
  split at h
  · cases h; cases hs
  · split at h
    · cases h
      obtain ⟨e1, e2⟩ := finish_lines c
        { st with f := (fread st.f 8).2, log := st.log ++ [Event.endOfTypes k] }
      refine ⟨e1, ?_⟩
      rw [e2]
      show resourceLines (st.log ++ [Event.endOfTypes k]) = _
      rw [resourceLines_append]
      exact List.append_nil _
    · split at h
      · rename_i e2 he
        cases h
        have := resolveType_error_status _ _ _ _ he
        omega
      · have := resLoop_error_status c k _ _ _ e h
        omega

/-- A run of the loop over the type blocks that ends with status 0 has gone through a number of
passes and then stopped without writing a file or printing a `resource` line. -/
theorem typeLoop_ok_walk (c : Ctx) : ∀ (fuel k : Nat) (st : State) (r : Exit),
    typeLoop c fuel k st = some r → r.status = 0 →
    ∃ n s, walkState c n k st = some s ∧ r.files = s.files ∧
      resourceLines r.log = resourceLines s.log := by
  intro fuel
  induction fuel with
  | zero =>
    intro k st r h _
    rw [typeLoop] at h
    split at h
    · cases h
    · cases h
      obtain ⟨e1, e2⟩ := finish_lines c st
      exact ⟨0, st, rfl, e1, e2⟩
  | succ fuel ih =>
    intro k st r h hs
    rw [typeLoop_succ] at h
    by_cases hlt : st.byteCounter < c.maxBytes
    · rw [if_pos hlt] at h
      cases ht : typeStep c k st with
      | none => rw [ht] at h; cases h
      | some r2 =>
        rw [ht] at h
        cases r2 with
        | error e =>
          cases h
          obtain ⟨e1, e2⟩ := typeStep_error_ok c k st _ ht hs
          exact ⟨0, st, rfl, e1, e2⟩
        | ok st2 =>
          dsimp only at h
          obtain ⟨n, s, hw, e1, e2⟩ := ih (k + 1) st2 r h hs
          refine ⟨n + 1, s, ?_, e1, e2⟩
          rw [walkState, if_pos hlt, ht]
          exact hw
    · rw [if_neg hlt] at h
      cases h
      obtain ⟨e1, e2⟩ := finish_lines c st
      exact ⟨0, st, rfl, e1, e2⟩

/-- A run that returns 0 after the walk: its output files and its `resource` lines are those of
all entries of the first `n` type blocks of the table, for some `n`. -/
theorem run_ok_walk (env : Env) (outPrefix : List Byte) (dump useNames : Bool)
    (data : List Byte) (c : Ctx) (st0 : State) (r : Exit)
    (hpre : prelude env outPrefix dump useNames data = .ok (c, st0))
    (hr : main env outPrefix dump useNames data = some r) (hs : r.status = 0) :
    ∃ n, resourceLines r.log =
        (tableEntriesAt data n 0 (c.resTableOffset.toNat + 2)).map (entryLine c) ∧
      r.files = (if c.dump = true then
        (tableEntriesAt data n 0 (c.resTableOffset.toNat + 2)).map (entryFile c data)
        else []) := by
  have hr2 := hr
  rw [main_of_prelude _ _ _ _ _ _ _ hpre] at hr2
  obtain ⟨n, s, hw, e1, e2⟩ := typeLoop_ok_walk c _ _ _ r hr2 hs
  obtain ⟨hp, _, _, _, _, hl, hfl, _, _⟩ :=
    run_walk env outPrefix dump useNames data c st0 n s hpre hw
  rw [hp] at hl hfl
  exact ⟨n, by rw [e2, hl], by rw [e1, hfl]⟩

/-! ## The buffered output stream -/

/-- The output goes through a buffered stream, and the result of `fclose` is not looked at:
when the device stores nothing, every `fwrite` of the copy loop still returns its count, the
call returns 0, and the output file is empty. -/
theorem dumpResource_unstored :
    copyBlocks ⟨fun _ => true, 1000000, 0⟩ 2 2 ⟨[1, 2, 3], 1⟩ [] =
      some ⟨0, ⟨[1, 2, 3], 3⟩, [2, 3]⟩ ∧
    dumpResource ⟨fun _ => true, 1000000, 0⟩ ⟨[1, 2, 3], 0⟩ 1 2 (ascii "out") =
      some ⟨0, ⟨[1, 2, 3], 0⟩, some []⟩ := by
  decide

/-! ## The walk: invariant, offsets and lengths, file names -/

/-- C15: in a run that reaches the walk, in the state in which the loop condition is evaluated
after `k` passes of the loop over the type blocks (`k` type blocks processed, every lookup and
extraction of theirs having succeeded), the resource counts `r_1 .. r_k` that the walk has
printed are the `resCount` fields of the first `k` type blocks of the table, the byte counter
is `2 + 8 * k + 12 * (r_1 + ... + r_k)`, the stream stands at `resTableOffset + byteCounter`
of the unchanged input, the values that the byte counter has taken are 2 and then, for each
type block, `+ 8` and `+ 12` for each of its resource blocks, and the rest of the run is the
loop of `main` from this state on; the run ends, and keeps what the state has printed and the
values of the counter. -/
theorem walk_invariant (env : Env) (outPrefix : List Byte) (dump useNames : Bool)
    (data : List Byte) (c : Ctx) (st0 : State) (k : Nat) (s : State)
    (hpre : prelude env outPrefix dump useNames data = .ok (c, st0))
    (hreach : walkState c k 0 st0 = some s) :
    resCounts s.log =
      (tableBlocksAt data k (c.resTableOffset.toNat + 2)).map TypeBlock.resCount ∧
    (resCounts s.log).length = k ∧
    s.byteCounter = 2 + 8 * (k : Int) + 12 * ((resCounts s.log).sum : Int) ∧
    (s.f.pos : Int) = c.resTableOffset + s.byteCounter ∧
    s.f.data = data ∧
    s.counters = 2 :: counterTrace 2 (resCounts s.log) ∧
    main env outPrefix dump useNames data = typeLoop c (c.maxBytes.toNat - k) k s ∧
    ∃ r, main env outPrefix dump useNames data = some r ∧ s.log <+: r.log ∧
      s.counters <+: r.counters := by
  obtain ⟨hp, hf, hb, hc, _, _, _, hm, r, hr, hlog, _⟩ :=
    run_walk env outPrefix dump useNames data c st0 k s hpre hreach
  obtain ⟨hcs, r2, hr2, _, hcr⟩ :=
    run_counters env outPrefix dump useNames data c st0 k s hpre hreach
  obtain ⟨_, _, _, _, _, h0, _, _, _⟩ := prelude_ctx _ _ _ _ _ _ _ hpre
  rw [hp] at hf hb hc
  have hrr : r2 = r := by
    rw [hr] at hr2
    injection hr2 with hr2
    exact hr2.symm
  rw [hrr] at hcr
  refine ⟨hc, by rw [hc, List.length_map, tableBlocksAt_length], ?_, ?_, by rw [hf],
    by rw [hc]; exact hcs, hm, r, hr, hlog, hcr⟩
  · rw [hb, hc]
    unfold tableSpanAt
    push_cast
    ring
  · rw [hf, hb]
    show ((c.resTableOffset.toNat + 2 + tableSpanAt data k (c.resTableOffset.toNat + 2) : Nat) :
      Int) = _
    push_cast
    rw [Int.toNat_of_nonneg h0]
    ring

theorem walk_invariant_witness :
    resCounts walkedIcons.log =
      (tableBlocksAt sampleIcons 1 (ctxIcons.resTableOffset.toNat + 2)).map
        TypeBlock.resCount ∧
    (resCounts walkedIcons.log).length = 1 ∧
    walkedIcons.byteCounter = 2 + 8 * ((1 : Nat) : Int) +
      12 * ((resCounts walkedIcons.log).sum : Int) ∧
    (walkedIcons.f.pos : Int) = ctxIcons.resTableOffset + walkedIcons.byteCounter ∧
    walkedIcons.f.data = sampleIcons ∧
    walkedIcons.counters = 2 :: counterTrace 2 (resCounts walkedIcons.log) ∧
    main envOk (ascii "out_") true true sampleIcons =
      typeLoop ctxIcons (ctxIcons.maxBytes.toNat - 1) 1 walkedIcons ∧
    ∃ r, main envOk (ascii "out_") true true sampleIcons = some r ∧
      walkedIcons.log <+: r.log ∧ walkedIcons.counters <+: r.counters :=
  walk_invariant envOk (ascii "out_") true true sampleIcons ctxIcons startIcons 1 walkedIcons
    rfl rfl

/-- C4 (as amended): in a run that reaches the walk with shift counts below 32, the size shift
count is the alignment field of the header, or 9 when that field is 0, and the offset shift
count is the 16-bit value at the start of the resource table. For every resource entry of the
type blocks that the walk has processed, the `resource` line shows the length
`dataLength * 2 ^ sizeShiftCount` and the offset `dataOffset * 2 ^ offsetShiftCount`, both
modulo `2 ^ 32` (the products themselves when they are below `2 ^ 32`), and with `-dump` the
output file of the entry holds what `dumpResource` leaves for this offset and this length. The
run ends and keeps these lines and files; all `resource` lines of the run are of this form, for
the first entries of the table in its order, and a run that returns 0 has printed the line
and, with `-dump`, written the file of every entry of the type blocks it has walked. -/
theorem shift_resolution (env : Env) (outPrefix : List Byte) (dump useNames : Bool)
    (data : List Byte) (c : Ctx) (st0 : State) (k : Nat) (s : State)
    (hpre : prelude env outPrefix dump useNames data = .ok (c, st0))
    (hreach : walkState c k 0 st0 = some s)
    (hs : c.sizeShiftCount < 32) (ho : c.offsetShiftCount < 32) :
    c.sizeShiftCount = (if (headerOf data).FileAlnSzShftCnt = 0 then 9
      else (headerOf data).FileAlnSzShftCnt) ∧
    c.offsetShiftCount = u16 ((data.drop c.resTableOffset.toNat).take 2) 0 ∧
    resourceLines s.log =
      (tableEntriesAt data k 0 (c.resTableOffset.toNat + 2)).map (fun e =>
        Event.resource e.typeIndex e.resIndex e.resBlock.flags
          (e.resBlock.dataLength * 2 ^ c.sizeShiftCount % 4294967296)
          (e.resBlock.dataOffset * 2 ^ c.offsetShiftCount % 4294967296)) ∧
    (c.dump = true →
      s.files.map Prod.snd =
        (tableEntriesAt data k 0 (c.resTableOffset.toNat + 2)).map (fun e =>
          dumpContents c.env data
            (e.resBlock.dataOffset * 2 ^ c.offsetShiftCount % 4294967296)
            (e.resBlock.dataLength * 2 ^ c.sizeShiftCount % 4294967296))) ∧
    (∀ rb : ResBlock, rb.dataLength * 2 ^ c.sizeShiftCount < 4294967296 →
      rb.dataLength * 2 ^ c.sizeShiftCount % 4294967296 =
        rb.dataLength * 2 ^ c.sizeShiftCount) ∧
    (∀ rb : ResBlock, rb.dataOffset * 2 ^ c.offsetShiftCount < 4294967296 →
      rb.dataOffset * 2 ^ c.offsetShiftCount % 4294967296 =
        rb.dataOffset * 2 ^ c.offsetShiftCount) ∧
    ∃ r, main env outPrefix dump useNames data = some r ∧ s.log <+: r.log ∧
      s.files <+: r.files ∧
      resourceLines r.log <+:
        (tableEntriesAt data c.maxBytes.toNat 0 (c.resTableOffset.toNat + 2)).map (fun e =>
          Event.resource e.typeIndex e.resIndex e.resBlock.flags
            (e.resBlock.dataLength * 2 ^ c.sizeShiftCount % 4294967296)
            (e.resBlock.dataOffset * 2 ^ c.offsetShiftCount % 4294967296)) ∧
      (r.status = 0 → ∃ n,
        resourceLines r.log =
          (tableEntriesAt data n 0 (c.resTableOffset.toNat + 2)).map (fun e =>
            Event.resource e.typeIndex e.resIndex e.resBlock.flags
              (e.resBlock.dataLength * 2 ^ c.sizeShiftCount % 4294967296)
              (e.resBlock.dataOffset * 2 ^ c.offsetShiftCount % 4294967296)) ∧
        (c.dump = true →
          r.files.map Prod.snd =
            (tableEntriesAt data n 0 (c.resTableOffset.toNat + 2)).map (fun e =>
              dumpContents c.env data
                (e.resBlock.dataOffset * 2 ^ c.offsetShiftCount % 4294967296)
                (e.resBlock.dataLength * 2 ^ c.sizeShiftCount % 4294967296)))) := by
  obtain ⟨hp, _, _, _, _, hl, hfl, _, r, hr, hlog, hfiles⟩ :=
    run_walk env outPrefix dump useNames data c st0 k s hpre hreach
  obtain ⟨_, _, _, _, _, _, _, hsz, hof⟩ := prelude_ctx _ _ _ _ _ _ _ hpre
  obtain ⟨r2, hr2, _, hpl⟩ := run_first_entries env outPrefix dump useNames data c st0 hpre
  have hrr : r2 = r := by
    rw [hr] at hr2
    injection hr2 with hr2
    exact hr2.symm
  rw [hrr] at hpl
  rw [hp] at hl hfl
  have hline : (fun e : Entry =>
      Event.resource e.typeIndex e.resIndex e.resBlock.flags
        (e.resBlock.dataLength * 2 ^ c.sizeShiftCount % 4294967296)
        (e.resBlock.dataOffset * 2 ^ c.offsetShiftCount % 4294967296)) = entryLine c := by
    funext e
    unfold entryLine actualLengthOf byteOffsetOf
    rw [shl32_eq _ _ hs, shl32_eq _ _ ho]
  have hcont : (fun e : Entry =>
      dumpContents c.env data
        (e.resBlock.dataOffset * 2 ^ c.offsetShiftCount % 4294967296)
        (e.resBlock.dataLength * 2 ^ c.sizeShiftCount % 4294967296)) =
      Prod.snd ∘ entryFile c data := by
    funext e
    show _ = dumpContents c.env data (byteOffsetOf c e.resBlock) (actualLengthOf c e.resBlock)
    unfold actualLengthOf byteOffsetOf
    rw [shl32_eq _ _ hs, shl32_eq _ _ ho]
  rw [hline, hcont]
  refine ⟨by rw [hsz]; rfl, hof, hl, ?_, fun rb h => Nat.mod_eq_of_lt h,
    fun rb h => Nat.mod_eq_of_lt h, r, hr, hlog, hfiles, hpl, ?_⟩
  · intro hd
    rw [hfl, if_pos hd, List.map_map]
  · intro hst
    obtain ⟨n, e1, e2⟩ := run_ok_walk env outPrefix dump useNames data c st0 r hpre hr hst
    refine ⟨n, e1, ?_⟩
    intro hd
    rw [e2, if_pos hd, List.map_map]

theorem shift_resolution_witness :
    ctxIcons.sizeShiftCount = (if (headerOf sampleIcons).FileAlnSzShftCnt = 0 then 9
      else (headerOf sampleIcons).FileAlnSzShftCnt) ∧
    ctxIcons.offsetShiftCount =
      u16 ((sampleIcons.drop ctxIcons.resTableOffset.toNat).take 2) 0 ∧
    resourceLines walkedIcons.log =
      (tableEntriesAt sampleIcons 1 0 (ctxIcons.resTableOffset.toNat + 2)).map (fun e =>
        Event.resource e.typeIndex e.resIndex e.resBlock.flags
          (e.resBlock.dataLength * 2 ^ ctxIcons.sizeShiftCount % 4294967296)
          (e.resBlock.dataOffset * 2 ^ ctxIcons.offsetShiftCount % 4294967296)) ∧
    (ctxIcons.dump = true →
      walkedIcons.files.map Prod.snd =
        (tableEntriesAt sampleIcons 1 0 (ctxIcons.resTableOffset.toNat + 2)).map (fun e =>
          dumpContents ctxIcons.env sampleIcons
            (e.resBlock.dataOffset * 2 ^ ctxIcons.offsetShiftCount % 4294967296)
            (e.resBlock.dataLength * 2 ^ ctxIcons.sizeShiftCount % 4294967296))) ∧
    (∀ rb : ResBlock, rb.dataLength * 2 ^ ctxIcons.sizeShiftCount < 4294967296 →
      rb.dataLength * 2 ^ ctxIcons.sizeShiftCount % 4294967296 =
        rb.dataLength * 2 ^ ctxIcons.sizeShiftCount) ∧
    (∀ rb : ResBlock, rb.dataOffset * 2 ^ ctxIcons.offsetShiftCount < 4294967296 →
      rb.dataOffset * 2 ^ ctxIcons.offsetShiftCount % 4294967296 =
        rb.dataOffset * 2 ^ ctxIcons.offsetShiftCount) ∧
    ∃ r, main envOk (ascii "out_") true true sampleIcons = some r ∧
      walkedIcons.log <+: r.log ∧ walkedIcons.files <+: r.files ∧
      resourceLines r.log <+:
        (tableEntriesAt sampleIcons ctxIcons.maxBytes.toNat 0
          (ctxIcons.resTableOffset.toNat + 2)).map (fun e =>
          Event.resource e.typeIndex e.resIndex e.resBlock.flags
            (e.resBlock.dataLength * 2 ^ ctxIcons.sizeShiftCount % 4294967296)
            (e.resBlock.dataOffset * 2 ^ ctxIcons.offsetShiftCount % 4294967296)) ∧
      (r.status = 0 → ∃ n,
        resourceLines r.log =
          (tableEntriesAt sampleIcons n 0 (ctxIcons.resTableOffset.toNat + 2)).map (fun e =>
            Event.resource e.typeIndex e.resIndex e.resBlock.flags
              (e.resBlock.dataLength * 2 ^ ctxIcons.sizeShiftCount % 4294967296)
              (e.resBlock.dataOffset * 2 ^ ctxIcons.offsetShiftCount % 4294967296)) ∧
        (ctxIcons.dump = true →
          r.files.map Prod.snd =
            (tableEntriesAt sampleIcons n 0 (ctxIcons.resTableOffset.toNat + 2)).map (fun e =>
              dumpContents ctxIcons.env sampleIcons
                (e.resBlock.dataOffset * 2 ^ ctxIcons.offsetShiftCount % 4294967296)
                (e.resBlock.dataLength * 2 ^ ctxIcons.sizeShiftCount % 4294967296)))) :=
  shift_resolution envOk (ascii "out_") true true sampleIcons ctxIcons startIcons 1 walkedIcons
    rfl rfl (by decide) (by decide)

/-- C11 (as amended): in a run with `-dump` that reaches the walk, the output files written
for the type blocks that the walk has processed are, in the order of the table, those of their
resource entries, each under the name of the specification and with the bytes that
`dumpResource` leaves for its offset and length: resource `i` of type `k` goes to
`prefix ++ pad5 k ++ "-" ++ pad5 i ++ ".bin"` without `-usenames` and to
`prefix ++ name ++ "." ++ ext` with it, where `name` is the counted string of the resource
identifier up to its first 0 byte, or the low 15 bits as 5 digits when the high bit is set, and
`ext` is the counted string of the type identifier up to its first 0 byte, or the extension of
the table of built-in types when the high bit is set. The run ends and keeps these files; the
names of all files of the run are of this form, for the first entries of the table in its
order, and a run that returns 0 has written exactly the files of the entries of the type
blocks it has walked. -/
theorem filename_policy (env : Env) (outPrefix : List Byte) (dump useNames : Bool)
    (data : List Byte) (c : Ctx) (st0 : State) (k : Nat) (s : State)
    (hpre : prelude env outPrefix dump useNames data = .ok (c, st0))
    (hreach : walkState c k 0 st0 = some s) (hdump : dump = true) :
    c.outPrefix = outPrefix ∧ c.useNames = useNames ∧
    s.files =
      (tableEntriesAt data k 0 (c.resTableOffset.toNat + 2)).map (fun e =>
        (specFilename c e.typeIndex e.resIndex (specName c data e.resBlock)
          (specExt c data e.typeBlock),
         dumpContents c.env data (byteOffsetOf c e.resBlock) (actualLengthOf c e.resBlock))) ∧
    ∃ r, main env outPrefix dump useNames data = some r ∧ s.log <+: r.log ∧
      s.files <+: r.files ∧
      r.files.map Prod.fst <+:
        (tableEntriesAt data c.maxBytes.toNat 0 (c.resTableOffset.toNat + 2)).map (fun e =>
          specFilename c e.typeIndex e.resIndex (specName c data e.resBlock)
            (specExt c data e.typeBlock)) ∧
      (r.status = 0 → ∃ n,
        r.files =
          (tableEntriesAt data n 0 (c.resTableOffset.toNat + 2)).map (fun e =>
            (specFilename c e.typeIndex e.resIndex (specName c data e.resBlock)
              (specExt c data e.typeBlock),
             dumpContents c.env data (byteOffsetOf c e.resBlock)
               (actualLengthOf c e.resBlock)))) := by
  obtain ⟨hp, _, _, _, _, _, hfl, _, r, hr, hlog, hfiles⟩ :=
    run_walk env outPrefix dump useNames data c st0 k s hpre hreach
  obtain ⟨_, hpf, hd, hu, _⟩ := prelude_ctx _ _ _ _ _ _ _ hpre
  obtain ⟨r2, hr2, hpn, _⟩ := run_first_entries env outPrefix dump useNames data c st0 hpre
  have hrr : r2 = r := by
    rw [hr] at hr2
    injection hr2 with hr2
    exact hr2.symm
  have hcd : c.dump = true := by rw [hd]; exact hdump
  rw [hrr, if_pos hcd] at hpn
  rw [hp, if_pos hcd] at hfl
  refine ⟨hpf, hu, hfl, r, hr, hlog, hfiles, hpn, ?_⟩
  intro hst
  obtain ⟨n, _, e2⟩ := run_ok_walk env outPrefix dump useNames data c st0 r hpre hr hst
  rw [if_pos hcd] at e2
  exact ⟨n, e2⟩

theorem filename_policy_witness :
    ctxIcons.outPrefix = ascii "out_" ∧ ctxIcons.useNames = true ∧
    walkedIcons.files =
      (tableEntriesAt sampleIcons 1 0 (ctxIcons.resTableOffset.toNat + 2)).map (fun e =>
        (specFilename ctxIcons e.typeIndex e.resIndex (specName ctxIcons sampleIcons e.resBlock)
          (specExt ctxIcons sampleIcons e.typeBlock),
         dumpContents ctxIcons.env sampleIcons (byteOffsetOf ctxIcons e.resBlock)
           (actualLengthOf ctxIcons e.resBlock))) ∧
    ∃ r, main envOk (ascii "out_") true true sampleIcons = some r ∧
      walkedIcons.log <+: r.log ∧ walkedIcons.files <+: r.files ∧
      r.files.map Prod.fst <+:
        (tableEntriesAt sampleIcons ctxIcons.maxBytes.toNat 0
          (ctxIcons.resTableOffset.toNat + 2)).map (fun e =>
          specFilename ctxIcons e.typeIndex e.resIndex
            (specName ctxIcons sampleIcons e.resBlock)
            (specExt ctxIcons sampleIcons e.typeBlock)) ∧
      (r.status = 0 → ∃ n,
        r.files =
          (tableEntriesAt sampleIcons n 0 (ctxIcons.resTableOffset.toNat + 2)).map (fun e =>
            (specFilename ctxIcons e.typeIndex e.resIndex
              (specName ctxIcons sampleIcons e.resBlock)
              (specExt ctxIcons sampleIcons e.typeBlock),
             dumpContents ctxIcons.env sampleIcons (byteOffsetOf ctxIcons e.resBlock)
               (actualLengthOf ctxIcons e.resBlock)))) :=
  filename_policy envOk (ascii "out_") true true sampleIcons ctxIcons startIcons 1 walkedIcons
    rfl rfl rfl

/-- C10 (as amended): in a run with `-dump` and `-usenames` that reaches the walk, the output
files written for the type blocks that the walk has processed are, in the order of the table,
those of their resource entries, each under the name `prefix ++ name ++ "." ++ typeExtension`
(name and extension up to their first 0 byte); two entries whose names have no `.` get the
same file name exactly when they have the same name and the same type extension; and the file
of a name holds the contents of the last entry written under it. The run ends and keeps these
files; the names of all files of the run are of this form, for the first entries of the table
in its order, and after a run that returns 0 the files are exactly those of the entries of the
type blocks it has walked, the file of a name holding the contents of the last of them. -/
theorem name_based_files (env : Env) (outPrefix : List Byte) (dump useNames : Bool)
    (data : List Byte) (c : Ctx) (st0 : State) (k : Nat) (s : State)
    (hpre : prelude env outPrefix dump useNames data = .ok (c, st0))
    (hreach : walkState c k 0 st0 = some s) (hdump : dump = true) (huse : useNames = true) :
    s.files = (tableEntriesAt data k 0 (c.resTableOffset.toNat + 2)).map (entryFile c data) ∧
    (∀ e : Entry, (entryFile c data e).1 =
      outPrefix ++ specName c data e.resBlock ++ ascii "." ++ specExt c data e.typeBlock) ∧
    (∀ e1 e2 : Entry, (46 : Byte) ∉ specName c data e1.resBlock →
      (46 : Byte) ∉ specName c data e2.resBlock →
      ((entryFile c data e1).1 = (entryFile c data e2).1 ↔
        specName c data e1.resBlock = specName c data e2.resBlock ∧
        specExt c data e1.typeBlock = specExt c data e2.typeBlock)) ∧
    (∀ name : List Byte, contentAfter s.files name =
      (((tableEntriesAt data k 0 (c.resTableOffset.toNat + 2)).filter
        (fun e => (entryFile c data e).1 = name)).getLast?).map
        (fun e => (entryFile c data e).2)) ∧
    ∃ r, main env outPrefix dump useNames data = some r ∧ s.log <+: r.log ∧
      s.files <+: r.files ∧
      r.files.map Prod.fst <+:
        (tableEntriesAt data c.maxBytes.toNat 0 (c.resTableOffset.toNat + 2)).map
          (fun e => (entryFile c data e).1) ∧
      (r.status = 0 → ∃ n,
        r.files =
          (tableEntriesAt data n 0 (c.resTableOffset.toNat + 2)).map (entryFile c data) ∧
        ∀ name : List Byte, contentAfter r.files name =
          (((tableEntriesAt data n 0 (c.resTableOffset.toNat + 2)).filter
            (fun e => (entryFile c data e).1 = name)).getLast?).map
            (fun e => (entryFile c data e).2)) := by
  obtain ⟨hp, _, _, _, _, _, hfl, _, r, hr, hlog, hfiles⟩ :=
    run_walk env outPrefix dump useNames data c st0 k s hpre hreach
  obtain ⟨_, hpf, hd, hu, _⟩ := prelude_ctx _ _ _ _ _ _ _ hpre
  obtain ⟨r2, hr2, hpn, _⟩ := run_first_entries env outPrefix dump useNames data c st0 hpre
  have hrr : r2 = r := by
    rw [hr] at hr2
    injection hr2 with hr2
    exact hr2.symm
  have hcd : c.dump = true := by rw [hd]; exact hdump
  rw [hrr, if_pos hcd] at hpn
  rw [hp, if_pos hcd] at hfl
  have hname : ∀ e : Entry, (entryFile c data e).1 =
      outPrefix ++ (specName c data e.resBlock ++ (46 : Byte) :: specExt c data e.typeBlock) := by
    intro e
    show specFilename c e.typeIndex e.resIndex _ _ = _
    unfold specFilename
    rw [if_neg (by rw [hu, huse]; simp), hpf]
    show outPrefix ++ specName c data e.resBlock ++ [(46 : Byte)] ++ _ = _
    simp
  refine ⟨hfl, ?_, ?_, ?_, r, hr, hlog, hfiles, hpn, ?_⟩
  · intro e
    rw [hname]
    show _ = outPrefix ++ specName c data e.resBlock ++ [(46 : Byte)] ++ _
    simp
  · intro e1 e2 h1 h2
    rw [hname, hname]
    constructor
    · intro h
      exact append_cons_inj 46 _ _ _ _ h1 h2 (List.append_cancel_left h)
    · rintro ⟨a, b⟩
      rw [a, b]
  · intro name
    rw [hfl, contentAfter_map]
  · intro hst
    obtain ⟨n, _, e2⟩ := run_ok_walk env outPrefix dump useNames data c st0 r hpre hr hst
    rw [if_pos hcd] at e2
    refine ⟨n, e2, ?_⟩
    intro name
    rw [e2, contentAfter_map]

theorem name_based_files_witness :
    walkedTwins.files =
      (tableEntriesAt sampleTwins 1 0 (ctxIcons.resTableOffset.toNat + 2)).map
        (entryFile ctxIcons sampleTwins) ∧
    (∀ e : Entry, (entryFile ctxIcons sampleTwins e).1 =
      ascii "out_" ++ specName ctxIcons sampleTwins e.resBlock ++ ascii "." ++
        specExt ctxIcons sampleTwins e.typeBlock) ∧
    (∀ e1 e2 : Entry, (46 : Byte) ∉ specName ctxIcons sampleTwins e1.resBlock →
      (46 : Byte) ∉ specName ctxIcons sampleTwins e2.resBlock →
      ((entryFile ctxIcons sampleTwins e1).1 = (entryFile ctxIcons sampleTwins e2).1 ↔
        specName ctxIcons sampleTwins e1.resBlock = specName ctxIcons sampleTwins e2.resBlock ∧
        specExt ctxIcons sampleTwins e1.typeBlock =
          specExt ctxIcons sampleTwins e2.typeBlock)) ∧
    (∀ name : List Byte, contentAfter walkedTwins.files name =
      (((tableEntriesAt sampleTwins 1 0 (ctxIcons.resTableOffset.toNat + 2)).filter
        (fun e => (entryFile ctxIcons sampleTwins e).1 = name)).getLast?).map
        (fun e => (entryFile ctxIcons sampleTwins e).2)) ∧
    ∃ r, main envOk (ascii "out_") true true sampleTwins = some r ∧
      walkedTwins.log <+: r.log ∧ walkedTwins.files <+: r.files ∧
      r.files.map Prod.fst <+:
        (tableEntriesAt sampleTwins ctxIcons.maxBytes.toNat 0
          (ctxIcons.resTableOffset.toNat + 2)).map
          (fun e => (entryFile ctxIcons sampleTwins e).1) ∧
      (r.status = 0 → ∃ n,
        r.files =
          (tableEntriesAt sampleTwins n 0 (ctxIcons.resTableOffset.toNat + 2)).map
            (entryFile ctxIcons sampleTwins) ∧
        ∀ name : List Byte, contentAfter r.files name =
          (((tableEntriesAt sampleTwins n 0 (ctxIcons.resTableOffset.toNat + 2)).filter
            (fun e => (entryFile ctxIcons sampleTwins e).1 = name)).getLast?).map
            (fun e => (entryFile ctxIcons sampleTwins e).2)) :=
  name_based_files envOk (ascii "out_") true true sampleTwins ctxIcons startTwins 1 walkedTwins
    rfl rfl rfl rfl

end Neresex
